import Mathlib

/-!
# ClauseCleaner (cmsat/ClauseCleaner.cpp)

A shallow embedding of the clause-database sweep of CryptoMiniSat: the scan of
the implicit (binary / ternary) clauses stored in the watch lists,
`treatImplicitClauses`, the sweep of a list of long clauses, `cleanClauses` /
`cleanClause`, and the two `satisfied` queries.

Conventions of the embedding.

* A `Lit` is the integer code of a literal (what `Lit::toInt` returns and
  `Lit::toLit` reads): it is the index of the literal's watch list.
* An `assert` of the source that fails ends the run: the functions return an
  `Outcome`, either `done` with the result and the solver state, or `abort`
  with the assertion that failed and the solver state at that moment.
* The solver functions the cleaner calls but does not define are recorded, in
  call order, in the field `calls` of the solver state.
* The four local tallies `remNonLBin`, ... are `uint64_t` in the source. They
  count elements of in-memory vectors (each element takes 8 bytes or more), so
  `++` never wraps on them and they are natural numbers here. The solver's
  counters are decremented by the sweep; that subtraction wraps modulo `2^64`
  (`sub64`).
-/

namespace CMSat

/-- Modelled from the spec: `Lit` is declared in SolverTypes.h, which is not
among the sources at hand. Per the spec a literal is "a variable identifier
plus a polarity bit" and "literals have a total order". A literal is
represented by its integer code, `2 * var + sign`, which indexes the
watch-list table (line 59 builds the literal of a list from the list's index);
the order `<` of line 103 is the order of the codes. -/
abbrev Lit := Nat

/-- Reading of `Lit::toLit`: the literal whose integer code is `data`. -/
def Lit.toLit (data : Nat) : Lit := data

/-- Modelled from the spec: `lbool` is declared in SolverTypes.h, not among
the sources at hand. Per the spec a TruthValue is "one of {True, False,
Undefined}"; the constructors carry the names used in ClauseCleaner.cpp. -/
inductive lbool where
  | l_True
  | l_False
  | l_Undef
deriving DecidableEq, Repr

open lbool

/-- Modelled from the spec: `Watched` is declared in Watched.h, not among the
sources at hand. Per the spec a WatchEntry is "one of three variants": a
reference to a long clause, the other literal of a binary clause plus a learnt
flag, or the other two literals of a ternary clause plus a learnt flag. -/
inductive Watched where
  | clause (offset : Nat)
  | binary (lit1 : Lit) (learnt : Bool)
  | tri (lit1 lit2 : Lit) (learnt : Bool)
deriving DecidableEq, Repr

namespace Watched

/-- Type test `isClause()`. -/
def isClause : Watched → Bool
  | clause _ => true
  | _ => false

/-- Type test `isBinary()`. -/
def isBinary : Watched → Bool
  | binary _ _ => true
  | _ => false

/-- Type test `isTri()`. -/
def isTri : Watched → Bool
  | tri _ _ _ => true
  | _ => false

/-- Accessor `lit1()`: first stored literal of a binary or ternary entry (the
sweep reads it on such entries only). -/
def lit1 : Watched → Lit
  | binary l _ => l
  | tri l _ _ => l
  | clause _ => 0

/-- Accessor `lit2()`: second stored literal of a ternary entry (the sweep
reads it on ternary entries only). -/
def lit2 : Watched → Lit
  | tri _ l _ => l
  | _ => 0

/-- Accessor `learnt()` of a binary or ternary entry. -/
def learnt : Watched → Bool
  | binary _ b => b
  | tri _ _ b => b
  | clause _ => false

end Watched

/-- Modelled from the spec: `BinaryClause` is declared in a header that is not
among the sources at hand. Per the spec a PendingBinaryAttach is a record
"{literal A, literal B, learnt flag}"; the fields carry the names of the
accessors used on lines 140-142. -/
structure BinaryClause where
  getLit1 : Lit
  getLit2 : Lit
  getLearnt : Bool
deriving DecidableEq, Repr

/-- Modelled from the spec: `Clause` is declared in Clause.h, not among the
sources at hand. Per the spec a Clause is "an owned, mutable, variable-length
sequence of literals ... plus a learnt flag". -/
structure Clause where
  lits : List Lit
  learnt : Bool
deriving DecidableEq, Repr

/-- Calls made by the cleaner into the solver and the clause allocator. -/
inductive Call where
  | attachBinClause (lit1 lit2 : Lit) (learnt : Bool)
  | attachTriClause (lit1 lit2 lit3 : Lit) (learnt : Bool)
  | detachModifiedClause (origLit1 origLit2 : Lit) (origSize : Nat) (address : Nat)
  | clauseFree (address : Nat)
deriving DecidableEq, Repr

/-- The `assert` statements of ClauseCleaner.cpp, and the self-check
`checkImplicitStats` that ends `treatImplicitClauses`. -/
inductive Assertion where
  | satisfiedIsBinary      -- line 34
  | implicitDecisionLevel  -- line 42
  | binLit1Undef           -- line 80
  | binLitUndef            -- line 81
  | isTri                  -- line 88
  | attachLit1Undef        -- line 140
  | attachLit2Undef        -- line 141
  | parityNonLBin          -- line 145
  | parityLBin             -- line 146
  | parityNonLTri          -- line 147
  | parityLTri             -- line 148
  | checkImplicitStats     -- line 155
  | explicitDecisionLevel  -- line 160
  | explicitQhead          -- line 161
  | sizeGt3                -- line 188
  | sizeGt1                -- line 210
deriving DecidableEq, Repr

/-- Modelled from the spec: `Solver` is declared in Solver.h, not among the
sources at hand. The fields are the members that ClauseCleaner.cpp reads and
writes: the assignment `value`, `decisionLevel`, `qhead`, the size of `trail`,
the table `watches` and the six counters. `clauses` is the clause memory,
addressed by `Clause*`; `calls` is the log of the calls made into the solver
and the clause allocator. -/
structure Solver where
  value : Lit → lbool
  decisionLevel : Nat
  qhead : Nat
  trailSize : Nat
  watches : List (List Watched)
  irredLits : Nat
  redLits : Nat
  numBinsNonLearnt : Nat
  numBinsLearnt : Nat
  numTrisNonLearnt : Nat
  numTrisLearnt : Nat
  clauses : Nat → Clause
  calls : List Call

/-- Result of running a cleaner function: it returns `r` in state `s`, or an
assertion fails in state `s`. -/
inductive Outcome (α : Type) where
  | done (r : α) (s : Solver)
  | abort (failed : Assertion) (s : Solver)

namespace Outcome

/-- Solver state the run ended in. -/
def state {α : Type} : Outcome α → Solver
  | done _ s => s
  | abort _ s => s

/-- Returned value, when the run completed. -/
def result {α : Type} : Outcome α → Option α
  | done r _ => some r
  | abort _ _ => none

/-- Assertion that failed, when the run did not complete. -/
def failed {α : Type} : Outcome α → Option Assertion
  | done _ _ => none
  | abort a _ => some a

end Outcome

/-- Unsigned 64-bit subtraction `a -= b` on a counter `a < 2^64`: the result
is `a - b` modulo `2^64` (see `sub64_eq_mod`). The solver's counters are
declared in Solver.h, not among the sources at hand; they are taken to be of
the type of the tallies subtracted from them, `uint64_t`. -/
def sub64 (a b : Nat) : Nat :=
  if b % 18446744073709551616 ≤ a then a - b % 18446744073709551616
  else a + 18446744073709551616 - b % 18446744073709551616

/-! ## Solver functions called by the cleaner -/

/-- Appends `w` to the watch list of literal `lit` (`watches[lit].push(w)`). -/
def pushWatch : List (List Watched) → Lit → Watched → List (List Watched)
  | [], _, _ => []
  | ws :: rest, 0, w => (ws ++ [w]) :: rest
  | ws :: rest, n + 1, w => ws :: pushWatch rest n w

/-- Modelled from the spec: `Solver::attachBinClause` is defined in Solver.cpp,
which is not part of the sources at hand. Per the spec, attaching a binary
clause "inserts two fresh BinaryPeer entries, one into A's list and one into
B's list"; to keep the aggregate counters equal to the live clause set (data
model, invariant 5) the binary-clause count of the clause's learnt class grows
by 1 and its literal count by 2. The call is logged. -/
def Solver.attachBinClause (s : Solver) (lit1 lit2 : Lit) (learnt : Bool) : Solver :=
  { s with
    watches := pushWatch (pushWatch s.watches lit1 (Watched.binary lit2 learnt))
      lit2 (Watched.binary lit1 learnt)
    irredLits := if learnt then s.irredLits else s.irredLits + 2
    redLits := if learnt then s.redLits + 2 else s.redLits
    numBinsNonLearnt := if learnt then s.numBinsNonLearnt else s.numBinsNonLearnt + 1
    numBinsLearnt := if learnt then s.numBinsLearnt + 1 else s.numBinsLearnt
    calls := s.calls ++ [Call.attachBinClause lit1 lit2 learnt] }

/-- Call of `Solver::attachTriClause` (Solver.cpp, not part of the sources at
hand): recorded in the call log. -/
def Solver.attachTriClause (s : Solver) (lit1 lit2 lit3 : Lit) (learnt : Bool) : Solver :=
  { s with calls := s.calls ++ [Call.attachTriClause lit1 lit2 lit3 learnt] }

/-- Call of `Solver::detachModifiedClause` (Solver.cpp, not part of the
sources at hand): recorded in the call log. -/
def Solver.detachModifiedClause (s : Solver) (origLit1 origLit2 : Lit) (origSize : Nat)
    (address : Nat) : Solver :=
  { s with calls := s.calls ++ [Call.detachModifiedClause origLit1 origLit2 origSize address] }

/-- Call of `ClauseAllocator::clauseFree` (not part of the sources at hand):
recorded in the call log. -/
def Solver.clauseFree (s : Solver) (address : Nat) : Solver :=
  { s with calls := s.calls ++ [Call.clauseFree address] }

/-! ## `satisfied(const Watched&, Lit)` -/

/-- Binary-entry query of lines 32-38: `none` when `assert(watched.isBinary())`
fails, else whether the list's literal or the stored literal is true. -/
def satisfied (value : Lit → lbool) (watched : Watched) (lit : Lit) : Option Bool :=
  if watched.isBinary then
    if value lit = l_True then some true
    else if value watched.lit1 = l_True then some true
    else some false
  else none

/-! ## `treatImplicitClauses` -/

/-- Local variables of `treatImplicitClauses`: the four tallies of removed
watch entries and the delayed attach list. -/
structure Locals where
  remNonLBin : Nat
  remLBin : Nat
  remNonLTri : Nat
  remLTri : Nat
  toAttach : List BinaryClause
deriving DecidableEq, Repr

/-- Initial values of the locals (lines 44-51). -/
def Locals.init : Locals :=
  { remNonLBin := 0, remLBin := 0, remNonLTri := 0, remLTri := 0, toAttach := [] }

/-- Lines 87-129 on one ternary entry `w` of the list of `lit`: the flag
`remove` and the delayed attach list after the four `if` statements. -/
def treatTri (value : Lit → lbool) (lit : Lit) (w : Watched) (toAttach : List BinaryClause) :
    Bool × List BinaryClause :=
  let remove0 : Bool :=
    decide (value lit = l_True) || decide (value w.lit1 = l_True)
      || decide (value w.lit2 = l_True)
  let st1 : Bool × List BinaryClause :=
    if !remove0 && decide (value lit = l_False) then
      (true, if lit < w.lit1 then toAttach ++ [BinaryClause.mk w.lit1 w.lit2 w.learnt]
        else toAttach)
    else (remove0, toAttach)
  let st2 : Bool × List BinaryClause :=
    if !st1.1 && decide (value w.lit1 = l_False) then
      (true, if lit < w.lit1 then st1.2 ++ [BinaryClause.mk lit w.lit2 w.learnt] else st1.2)
    else st1
  let st3 : Bool × List BinaryClause :=
    if !st2.1 && decide (value w.lit2 = l_False) then
      (true, if lit < w.lit1 then st2.2 ++ [BinaryClause.mk lit w.lit1 w.learnt] else st2.2)
    else st2
  st3

/-- Inner loop of lines 62-130 over the watch list of `lit`. The first
argument is the part of the list not yet read (from `i` on), `kept` the
entries written so far (the cells before `j`). An assertion failure returns
the assertion and the entries written so far. -/
def scanWatchList (value : Lit → lbool) (lit : Lit) :
    List Watched → List Watched → Locals →
      Except (Assertion × List Watched) (List Watched × Locals)
  | [], kept, loc => Except.ok (kept, loc)
  | w :: rest, kept, loc =>
    if w.isClause then
      scanWatchList value lit rest (kept ++ [w]) loc
    else if w.isBinary then
      match satisfied value w lit with
      | none => Except.error (Assertion.satisfiedIsBinary, kept)
      | some true =>
        if w.learnt then
          scanWatchList value lit rest kept { loc with remLBin := loc.remLBin + 1 }
        else
          scanWatchList value lit rest kept { loc with remNonLBin := loc.remNonLBin + 1 }
      | some false =>
        if value w.lit1 ≠ l_Undef then Except.error (Assertion.binLit1Undef, kept)
        else if value lit ≠ l_Undef then Except.error (Assertion.binLitUndef, kept)
        else scanWatchList value lit rest (kept ++ [w]) loc
    else if !w.isTri then Except.error (Assertion.isTri, kept)
    else
      let st := treatTri value lit w loc.toAttach
      if st.1 then
        if w.learnt then
          scanWatchList value lit rest kept
            { loc with remLTri := loc.remLTri + 1, toAttach := st.2 }
        else
          scanWatchList value lit rest kept
            { loc with remNonLTri := loc.remNonLTri + 1, toAttach := st.2 }
      else
        scanWatchList value lit rest (kept ++ [w]) { loc with toAttach := st.2 }

/-- Outer loop of lines 54-132 over the table of watch lists. `wsLit` is the
index of the first list not yet scanned, the second argument the lists from
that index on, `scanned` the lists before it (already shrunk). When an
assertion fails inside a list, that list holds the entries written so far
followed by its old cells from `j` on (it is not shrunk). -/
def scanWatches (value : Lit → lbool) :
    Nat → List (List Watched) → List (List Watched) → Locals →
      Except (Assertion × List (List Watched)) (List (List Watched) × Locals)
  | _, [], scanned, loc => Except.ok (scanned, loc)
  | wsLit, ws :: rest, scanned, loc =>
    match scanWatchList value (Lit.toLit wsLit) ws [] loc with
    | Except.error (a, kept) =>
      Except.error (a, scanned ++ (kept ++ ws.drop kept.length) :: rest)
    | Except.ok (kept, loc1) =>
      scanWatches value (wsLit + 1) rest (scanned ++ [kept]) loc1

/-- Loop of lines 135-143: attaches the delayed binary clauses in order. -/
def attachDelayed : List BinaryClause → Solver → Outcome Unit
  | [], s => Outcome.done () s
  | b :: rest, s =>
    if s.value b.getLit1 ≠ l_Undef then Outcome.abort Assertion.attachLit1Undef s
    else if s.value b.getLit2 ≠ l_Undef then Outcome.abort Assertion.attachLit2Undef s
    else attachDelayed rest (s.attachBinClause b.getLit1 b.getLit2 b.getLearnt)

/-- Lines 149-154: the counter updates that end the sweep. -/
def applyTallies (s : Solver) (loc : Locals) : Solver :=
  { s with
    irredLits := sub64 s.irredLits (loc.remNonLBin + loc.remNonLTri)
    redLits := sub64 s.redLits (loc.remLBin + loc.remLTri)
    numBinsNonLearnt := sub64 s.numBinsNonLearnt (loc.remNonLBin / 2)
    numBinsLearnt := sub64 s.numBinsLearnt (loc.remLBin / 2)
    numTrisNonLearnt := sub64 s.numTrisNonLearnt (loc.remNonLTri / 3)
    numTrisLearnt := sub64 s.numTrisLearnt (loc.remLTri / 3) }

/-- The implicit sweep, `ClauseCleaner::treatImplicitClauses` (lines 40-156).
`checkImplicitStats` is the solver's self-check called on the last line; its
body is in Solver.cpp, not part of the sources at hand, so it is a parameter:
it returns whether all its assertions hold in the given state. -/
def treatImplicitClauses (checkImplicitStats : Solver → Bool) (s : Solver) : Outcome Unit :=
  if s.decisionLevel ≠ 0 then Outcome.abort Assertion.implicitDecisionLevel s
  else
    match scanWatches s.value 0 s.watches [] Locals.init with
    | Except.error (a, table) => Outcome.abort a { s with watches := table }
    | Except.ok (table, loc) =>
      match attachDelayed loc.toAttach { s with watches := table } with
      | Outcome.abort a s1 => Outcome.abort a s1
      | Outcome.done _ s1 =>
        if loc.remNonLBin % 2 ≠ 0 then Outcome.abort Assertion.parityNonLBin s1
        else if loc.remLBin % 2 ≠ 0 then Outcome.abort Assertion.parityLBin s1
        else if loc.remNonLTri % 3 ≠ 0 then Outcome.abort Assertion.parityNonLTri s1
        else if loc.remLTri % 3 ≠ 0 then Outcome.abort Assertion.parityLTri s1
        else
          let s2 := applyTallies s1 loc
          if checkImplicitStats s2 then Outcome.done () s2
          else Outcome.abort Assertion.checkImplicitStats s2

/-! ## `cleanClause` and `cleanClauses` -/

/-- Result of the literal loop of `cleanClause`: it met a true literal, or it
reached the end; `kept` holds the literals written so far (the cells before
`j`). -/
inductive LitScan where
  | foundTrue (kept : List Lit)
  | finished (kept : List Lit)
deriving DecidableEq, Repr

/-- Loop of lines 196-207. The first list is the part of the clause not yet
read (from `i` on), `kept` the literals written so far. Since `j ≤ i`, a write
at `j` never touches a cell that is still to be read. -/
def scanLits (value : Lit → lbool) : List Lit → List Lit → LitScan
  | [], kept => LitScan.finished kept
  | l :: rest, kept =>
    if value l = l_Undef then scanLits value rest (kept ++ [l])
    else if value l = l_True then LitScan.foundTrue kept
    else scanLits value rest kept

/-- Writes clause `c` at address `cc` of the clause memory. -/
def Solver.setClause (s : Solver) (cc : Nat) (c : Clause) : Solver :=
  { s with clauses := fun a => if a = cc then c else s.clauses a }

/-- One long clause, `ClauseCleaner::cleanClause` (lines 185-229); `cc` is the
address of the clause. Returns whether the caller must free the clause. -/
def cleanClause (s : Solver) (cc : Nat) : Outcome Bool :=
  let c := s.clauses cc
  if ¬ (c.lits.length > 3) then Outcome.abort Assertion.sizeGt3 s
  else
    let origSize := c.lits.length
    let origLit1 := c.lits.getD 0 0
    let origLit2 := c.lits.getD 1 0
    match scanLits s.value c.lits [] with
    | LitScan.foundTrue kept =>
      -- the cells before `j` were overwritten, the size is unchanged
      let s1 := s.setClause cc { c with lits := kept ++ c.lits.drop kept.length }
      Outcome.done true (s1.detachModifiedClause origLit1 origLit2 origSize cc)
    | LitScan.finished kept =>
      -- c.shrink(i-j)
      let s1 := s.setClause cc { c with lits := kept }
      if ¬ (kept.length > 1) then Outcome.abort Assertion.sizeGt1 s1
      else if origSize ≠ kept.length then
        if kept.length = 2 then
          let s2 := s1.detachModifiedClause origLit1 origLit2 origSize cc
          Outcome.done true (s2.attachBinClause (kept.getD 0 0) (kept.getD 1 0) c.learnt)
        else if kept.length = 3 then
          let s2 := s1.detachModifiedClause origLit1 origLit2 origSize cc
          Outcome.done true
            (s2.attachTriClause (kept.getD 0 0) (kept.getD 1 0) (kept.getD 2 0) c.learnt)
        else if c.learnt then
          Outcome.done false { s1 with redLits := sub64 s1.redLits (origSize - kept.length) }
        else
          Outcome.done false { s1 with irredLits := sub64 s1.irredLits (origSize - kept.length) }
      else Outcome.done false s1

/-- Loop of lines 167-178 over the clause list. The first list is the part of
`cs` not yet read (from `s` on), `kept` the addresses written so far (the
cells before `ss`); the result is the resized list. -/
def cleanClausesLoop : List Nat → List Nat → Solver → Outcome (List Nat)
  | [], kept, st => Outcome.done kept st
  | cc :: rest, kept, st =>
    match cleanClause st cc with
    | Outcome.abort a st1 => Outcome.abort a st1
    | Outcome.done true st1 => cleanClausesLoop rest kept (st1.clauseFree cc)
    | Outcome.done false st1 => cleanClausesLoop rest (kept ++ [cc]) st1

/-- The explicit sweep, `ClauseCleaner::cleanClauses` (lines 158-183), on the
list `cs` of clause addresses; returns the list `cs` after the sweep. -/
def cleanClauses (s : Solver) (cs : List Nat) : Outcome (List Nat) :=
  if s.decisionLevel ≠ 0 then Outcome.abort Assertion.explicitDecisionLevel s
  else if s.qhead ≠ s.trailSize then Outcome.abort Assertion.explicitQhead s
  else cleanClausesLoop cs [] s

/-! ## `satisfied(const Clause&)` -/

/-- Loop of lines 233-236 over the literals of the clause from index `i` on. -/
def satisfiedFrom (value : Lit → lbool) : List Lit → Bool
  | [] => false
  | l :: rest => if value l = l_True then true else satisfiedFrom value rest

/-- Clause query `ClauseCleaner::satisfied(const Clause&) const` (lines
231-237): a `const` method that only reads the assignment. -/
def satisfiedClause (s : Solver) (c : Clause) : Outcome Bool :=
  Outcome.done (satisfiedFrom s.value c.lits) s

/-! ## Helpers used to state the properties -/

/-- Value of the literal with code `l` when the variables listed in `assigns`
are assigned (`true`: the positive literal `2 * var` is true) and all other
variables are unassigned. Used to build example assignments. -/
def valueOfAssigns (assigns : List (Nat × Bool)) (l : Lit) : lbool :=
  match assigns.lookup (l / 2) with
  | none => l_Undef
  | some b => if b = decide (l % 2 = 0) then l_True else l_False

/-- The literals of `lits` whose value is undefined, in order. -/
def undefLits (value : Lit → lbool) (lits : List Lit) : List Lit :=
  lits.filter (fun l => decide (value l = l_Undef))

/-- Some literal of `lits` is true. -/
def hasTrueLit (value : Lit → lbool) (lits : List Lit) : Prop :=
  ∃ l ∈ lits, value l = l_True

instance (value : Lit → lbool) (lits : List Lit) : Decidable (hasTrueLit value lits) := by
  unfold hasTrueLit; infer_instance

/-! ### Reading of the scan, entry by entry -/

/-- Whether the scan of the watch list of `lit` removes the entry: a binary
entry with a true literal, a ternary entry with a literal that is true or
false; never a clause reference. -/
def removes (value : Lit → lbool) (lit : Lit) : Watched → Bool
  | Watched.clause _ => false
  | Watched.binary l1 _ => decide (value lit = l_True) || decide (value l1 = l_True)
  | Watched.tri l1 l2 _ =>
    !(decide (value lit = l_Undef) && decide (value l1 = l_Undef) && decide (value l2 = l_Undef))

/-- Whether the assertions of lines 80-81 hold on the entry: a binary entry
that is not removed has both its literals undefined. -/
def passesAsserts (value : Lit → lbool) (lit : Lit) : Watched → Bool
  | Watched.binary l1 _ =>
    (decide (value lit = l_True) || decide (value l1 = l_True))
      || (decide (value l1 = l_Undef) && decide (value lit = l_Undef))
  | _ => true

/-- All literals of a binary or ternary entry of the list of `lit` (the
literal owning the list and the stored ones) are undefined. -/
def allUndef (value : Lit → lbool) (lit : Lit) : Watched → Bool
  | Watched.clause _ => true
  | Watched.binary l1 _ => decide (value lit = l_Undef) && decide (value l1 = l_Undef)
  | Watched.tri l1 l2 _ =>
    decide (value lit = l_Undef) && decide (value l1 = l_Undef) && decide (value l2 = l_Undef)

/-- The binary clauses that the scan of entry `w` of the list of `lit` pushes
on `toAttach` (lines 99-120). -/
def enqueued (value : Lit → lbool) (lit : Lit) (w : Watched) : List BinaryClause :=
  if w.isTri then (treatTri value lit w []).2 else []

/-- Values of the locals after the scan of the list `ws` of `lit`, started
with the values `loc`, when no assertion fails. -/
def tallied (value : Lit → lbool) (lit : Lit) (ws : List Watched) (loc : Locals) : Locals :=
  { remNonLBin := loc.remNonLBin +
      ws.countP (fun w => w.isBinary && !w.learnt && removes value lit w)
    remLBin := loc.remLBin + ws.countP (fun w => w.isBinary && w.learnt && removes value lit w)
    remNonLTri := loc.remNonLTri +
      ws.countP (fun w => w.isTri && !w.learnt && removes value lit w)
    remLTri := loc.remLTri + ws.countP (fun w => w.isTri && w.learnt && removes value lit w)
    toAttach := loc.toAttach ++ ws.flatMap (enqueued value lit) }

/-- The watch lists `table` of the literals `base`, `base + 1`, ... after the
scan, when no assertion fails: each list without its removed entries. -/
def keptTable (value : Lit → lbool) : Nat → List (List Watched) → List (List Watched)
  | _, [] => []
  | base, ws :: rest =>
    ws.filter (fun w => !removes value base w) :: keptTable value (base + 1) rest

/-- Values of the locals after the scan of the lists `table` of the literals
`base`, `base + 1`, ..., when no assertion fails. -/
def talliedTable (value : Lit → lbool) : Nat → List (List Watched) → Locals → Locals
  | _, [], loc => loc
  | base, ws :: rest, loc => talliedTable value (base + 1) rest (tallied value base ws loc)

/-- Every entry of the lists `table` of the literals `base`, `base + 1`, ...
passes the assertions of lines 80-81. -/
def tablePasses (value : Lit → lbool) : Nat → List (List Watched) → Bool
  | _, [] => true
  | base, ws :: rest => ws.all (passesAsserts value base) && tablePasses value (base + 1) rest

/-- Every binary and ternary entry of the lists `table` of the literals
`base`, `base + 1`, ... has all its literals undefined. -/
def tableUndef (value : Lit → lbool) : Nat → List (List Watched) → Bool
  | _, [] => true
  | base, ws :: rest => ws.all (allUndef value base) && tableUndef value (base + 1) rest

/-- The solver after `attachBinClause` was called on each clause of `bs`, in
order. -/
def attachAll (bs : List BinaryClause) (s : Solver) : Solver :=
  bs.foldl (fun st b => st.attachBinClause b.getLit1 b.getLit2 b.getLearnt) s

/-- The entries of the lists `table` of the literals `base`, `base + 1`, ...,
each paired with the literal owning its list, in scan order. -/
def located : Nat → List (List Watched) → List (Lit × Watched)
  | _, [] => []
  | base, ws :: rest => ws.map (fun w => (base, w)) ++ located (base + 1) rest

/-- The two watch entries of one binary clause `(x ∨ y)`: the entry for `y`
in the list of `x` and the entry for `x` in the list of `y`, with the same
learnt flag. -/
def isBinGroup (g : List (Lit × Watched)) : Prop :=
  ∃ (x y : Lit) (learnt : Bool),
    g = [(x, Watched.binary y learnt), (y, Watched.binary x learnt)]

/-- The three watch entries of one ternary clause `(a ∨ b ∨ c)`: one in the
list of each of its literals, each holding the other two literals (in either
order) and the same learnt flag. -/
def isTriGroup (g : List (Lit × Watched)) : Prop :=
  ∃ (a b c : Lit) (learnt : Bool) (wa wb wc : Watched),
    g = [(a, wa), (b, wb), (c, wc)] ∧
    (wa = Watched.tri b c learnt ∨ wa = Watched.tri c b learnt) ∧
    (wb = Watched.tri a c learnt ∨ wb = Watched.tri c a learnt) ∧
    (wc = Watched.tri a b learnt ∨ wc = Watched.tri b a learnt)

/-- The binary clauses that the scan of the lists `table` of the literals
`base`, `base + 1`, ... pushes on `toAttach`, in scan order. -/
def enqueuedTable (value : Lit → lbool) : Nat → List (List Watched) → List BinaryClause
  | _, [] => []
  | base, ws :: rest => ws.flatMap (enqueued value base) ++ enqueuedTable value (base + 1) rest

/-- The table without one occurrence of the entry `w` in the watch list of
`lit`. -/
def eraseWatch : List (List Watched) → Lit → Watched → List (List Watched)
  | [], _, _ => []
  | ws :: rest, 0, w => ws.erase w :: rest
  | ws :: rest, n + 1, w => ws :: eraseWatch rest n w

/-- The table without the three entries of the ternary clause `(a ∨ b ∨ c)`
stored with its peers in ascending order, `a < b < c`. -/
def withoutTri (table : List (List Watched)) (a b c : Lit) (learnt : Bool) :
    List (List Watched) :=
  eraseWatch (eraseWatch (eraseWatch table a (Watched.tri b c learnt)) b
    (Watched.tri a c learnt)) c (Watched.tri a b learnt)

/-- The call of `attachBinClause` made for a delayed binary clause. -/
def attachCall (b : BinaryClause) : Call :=
  Call.attachBinClause b.getLit1 b.getLit2 b.getLearnt

/-- Example state: variable 2 is false (literal 4 is false), the table stores
the non-learnt ternary clause `(0 ∨ 2 ∨ 4)`, and the entry in the list of
literal 2 holds its two peers in the order `4, 0`. -/
def exampleUnsorted : Solver :=
  { value := valueOfAssigns [(2, false)]
    decisionLevel := 0
    qhead := 1
    trailSize := 1
    watches :=
      [[Watched.tri 2 4 false], [], [Watched.tri 4 0 false], [], [Watched.tri 0 2 false], []]
    irredLits := 3
    redLits := 0
    numBinsNonLearnt := 0
    numBinsLearnt := 0
    numTrisNonLearnt := 1
    numTrisLearnt := 0
    clauses := fun _ => ⟨[0, 2, 6, 8], false⟩
    calls := [] }

/-- Addresses passed to `clauseFree` by the calls of the log `calls`, in call
order. -/
def freedBy (calls : List Call) : List Nat :=
  calls.filterMap (fun c =>
    match c with
    | Call.clauseFree a => some a
    | _ => none)

/-- The values returned by the successive calls of `cleanClause` made by the
loop of `cleanClauses` on the list `cs` from the state `st` (the loop stops
at a call in which an assertion fails). -/
def cleanReturns : List Nat → Solver → List Bool
  | [], _ => []
  | cc :: rest, st =>
    match cleanClause st cc with
    | Outcome.abort _ _ => []
    | Outcome.done true st1 => true :: cleanReturns rest (st1.clauseFree cc)
    | Outcome.done false st1 => false :: cleanReturns rest st1

/-- The clauses of `cs`, in order, whose call returned `b`, where `rs` lists
the returned values in the order of `cs`. -/
def withReturn (cs : List Nat) (rs : List Bool) (b : Bool) : List Nat :=
  ((cs.zip rs).filter (fun p => p.2 == b)).map Prod.fst

/-- Example state for the explicit sweep: variables 2 and 3 are false (so the
literals 4 and 6 are false, 5 and 7 true), every other variable is
unassigned. Clause memory: address 0 holds the non-learnt clause
`[0,2,4,6,8]`, address 1 the non-learnt `[0,2,4,6,8,10]`, address 2 the learnt
`[0,4,6,2]`, address 3 the non-learnt `[0,4,2,8]`, address 4 the learnt
`[0,2,8,10,5]`, address 5 the non-learnt `[4,6,12,4]`; every other address
holds the non-learnt `[0,2,8,10]`. -/
def exampleExplicit : Solver :=
  { value := valueOfAssigns [(2, false), (3, false)]
    decisionLevel := 0
    qhead := 2
    trailSize := 2
    watches := [[], [], [], [], [], [], [], [], [], [], [], [], [], []]
    irredLits := 23
    redLits := 9
    numBinsNonLearnt := 0
    numBinsLearnt := 0
    numTrisNonLearnt := 0
    numTrisLearnt := 0
    clauses := fun a =>
      if a = 0 then ⟨[0, 2, 4, 6, 8], false⟩
      else if a = 1 then ⟨[0, 2, 4, 6, 8, 10], false⟩
      else if a = 2 then ⟨[0, 4, 6, 2], true⟩
      else if a = 3 then ⟨[0, 4, 2, 8], false⟩
      else if a = 4 then ⟨[0, 2, 8, 10, 5], true⟩
      else if a = 5 then ⟨[4, 6, 12, 4], false⟩
      else ⟨[0, 2, 8, 10], false⟩
    calls := [] }

/-- Example state for the implicit sweep: variable 2 is false (literal 4 is
false, literal 5 true), every other variable is unassigned. The table stores
the non-learnt ternary clause `(0 ∨ 2 ∨ 4)`, the non-learnt binary clause
`(0 ∨ 5)`, the learnt binary clause `(2 ∨ 6)`, and the two watches of the long
clause at address 7, `[0,7,2,6]`. -/
def exampleImplicit : Solver :=
  { value := valueOfAssigns [(2, false)]
    decisionLevel := 0
    qhead := 1
    trailSize := 1
    watches :=
      [[Watched.clause 7, Watched.tri 2 4 false, Watched.binary 5 false],
       [],
       [Watched.tri 0 4 false, Watched.binary 6 true],
       [],
       [Watched.tri 0 2 false],
       [Watched.binary 0 false],
       [Watched.binary 2 true],
       [Watched.clause 7]]
    irredLits := 9
    redLits := 2
    numBinsNonLearnt := 1
    numBinsLearnt := 1
    numTrisNonLearnt := 1
    numTrisLearnt := 0
    clauses := fun _ => ⟨[0, 7, 2, 6], false⟩
    calls := [] }

/-- Example state in which no literal is assigned: the table stores the
non-learnt ternary clause `(0 ∨ 2 ∨ 4)`, the learnt binary clause `(2 ∨ 6)` and
the two watches of the long clause at address 7, `[0,7,2,6]`. -/
def exampleUnassigned : Solver :=
  { value := valueOfAssigns []
    decisionLevel := 0
    qhead := 0
    trailSize := 0
    watches :=
      [[Watched.clause 7, Watched.tri 2 4 false],
       [],
       [Watched.tri 0 4 false, Watched.binary 6 true],
       [],
       [Watched.tri 0 2 false],
       [],
       [Watched.binary 2 true],
       [Watched.clause 7]]
    irredLits := 7
    redLits := 2
    numBinsNonLearnt := 0
    numBinsLearnt := 1
    numTrisNonLearnt := 1
    numTrisLearnt := 0
    clauses := fun _ => ⟨[0, 7, 2, 6], false⟩
    calls := [] }

/-- Clause `a` of the state `st` is the clause `a` of the state `s` reduced to
its undefined literals, of which there are more than three, and the clause
of `s` has no true literal. -/
def keptForm (s st : Solver) (a : Nat) : Prop :=
  st.clauses a = ⟨undefLits s.value (s.clauses a).lits, (s.clauses a).learnt⟩ ∧
    ¬ hasTrueLit s.value (s.clauses a).lits ∧
    3 < (undefLits s.value (s.clauses a).lits).length

/-- Example state with a pending propagation: `exampleImplicit` with the
assignment of variable 2 on the trail but not yet propagated (`qhead` is 0,
the trail has one element). -/
def exampleQueued : Solver :=
  { exampleImplicit with qhead := 0, trailSize := 1 }

/-- Example state after propagation: variable 2 is false and variable 4 true
(literal 4 is false, literal 5 true, literal 8 true). The table stores the
non-learnt binary clauses `(8 ∨ 4)` and `(0 ∨ 5)`, the learnt binary clause
`(2 ∨ 6)`, the non-learnt ternary clause `(0 ∨ 2 ∨ 4)`, the learnt ternary
clause `(2 ∨ 5 ∨ 6)` and the two watches of the long clause at address 7,
`[0,7,2,6]`. -/
def exampleMixed : Solver :=
  { value := valueOfAssigns [(2, false), (4, true)]
    decisionLevel := 0
    qhead := 2
    trailSize := 2
    watches :=
      [[Watched.clause 7, Watched.tri 2 4 false, Watched.binary 5 false],
       [],
       [Watched.tri 0 4 false, Watched.binary 6 true, Watched.tri 5 6 true],
       [],
       [Watched.tri 0 2 false, Watched.binary 8 false],
       [Watched.binary 0 false, Watched.tri 2 6 true],
       [Watched.binary 2 true, Watched.tri 2 5 true],
       [Watched.clause 7],
       [Watched.binary 4 false],
       []]
    irredLits := 11
    redLits := 5
    numBinsNonLearnt := 2
    numBinsLearnt := 1
    numTrisNonLearnt := 1
    numTrisLearnt := 1
    clauses := fun _ => ⟨[0, 7, 2, 6], false⟩
    calls := [] }

/-- The table without one occurrence of each of the entries `ents`, each given
with the literal owning its list. -/
def withoutEntries (table : List (List Watched)) (ents : List (Lit × Watched)) :
    List (List Watched) :=
  ents.foldl (fun t e => eraseWatch t e.1 e.2) table

/-- Binary entry of a non-learnt clause. -/
def isNonLBin (w : Watched) : Bool := w.isBinary && !w.learnt

/-- Binary entry of a learnt clause. -/
def isLBin (w : Watched) : Bool := w.isBinary && w.learnt

/-- Ternary entry of a non-learnt clause. -/
def isNonLTri (w : Watched) : Bool := w.isTri && !w.learnt

/-- Ternary entry of a learnt clause. -/
def isLTri (w : Watched) : Bool := w.isTri && w.learnt

/-- Number of entries of the given kind in the watch lists of the table. A
table that stores whole clauses holds `numEntries isNonLBin / 2` non-learnt
binary clauses, `numEntries isNonLTri / 3` non-learnt ternary clauses, and
`numEntries isNonLBin + numEntries isNonLTri` literal occurrences of
non-learnt implicit clauses (each clause has one entry per literal); the same
holds for the learnt class. -/
def numEntries (kind : Watched → Bool) (table : List (List Watched)) : Nat :=
  (located 0 table).countP (fun e => kind e.2)

/-! ## Arithmetic of the counters -/

theorem sub64_eq_mod (a b : Nat) (ha : a < 18446744073709551616) :
    sub64 a b = (a + 18446744073709551616 - b % 18446744073709551616) % 18446744073709551616 := by
  unfold sub64
  have hb : b % 18446744073709551616 < 18446744073709551616 := Nat.mod_lt _ (by norm_num)
  split <;> omega

theorem sub64_zero (a : Nat) : sub64 a 0 = a := by
  simp [sub64]

theorem sub64_of_le (a b : Nat) (hb : b ≤ a) (ha : a < 18446744073709551616) :
    sub64 a b = a - b := by
  unfold sub64
  have : b % 18446744073709551616 = b := Nat.mod_eq_of_lt (by omega)
  rw [this]; simp [hb]

/-! ## The literal loop of `cleanClause` -/

theorem scanLits_finished (value : Lit → lbool) (rest kept : List Lit)
    (h : ¬ hasTrueLit value rest) :
    scanLits value rest kept = LitScan.finished (kept ++ undefLits value rest) := by
  induction rest generalizing kept with
  | nil => simp [scanLits, undefLits]
  | cons l rest ih =>
    have hl : value l ≠ l_True := fun e => h ⟨l, by simp, e⟩
    have hr : ¬ hasTrueLit value rest := fun ⟨x, hx, e⟩ => h ⟨x, by simp [hx], e⟩
    by_cases hu : value l = l_Undef
    · simp [scanLits, undefLits, hu, ih _ hr]
    · simp [scanLits, undefLits, hu, hl, ih _ hr]

theorem scanLits_foundTrue (value : Lit → lbool) (rest kept : List Lit)
    (h : hasTrueLit value rest) :
    ∃ k, scanLits value rest kept = LitScan.foundTrue k := by
  induction rest generalizing kept with
  | nil => obtain ⟨x, hx, _⟩ := h; simp at hx
  | cons l rest ih =>
    by_cases hu : value l = l_Undef
    · have hr : hasTrueLit value rest := by
        obtain ⟨x, hx, e⟩ := h
        rcases List.mem_cons.1 hx with rfl | hx
        · rw [hu] at e; cases e
        · exact ⟨x, hx, e⟩
      simpa [scanLits, hu] using ih _ hr
    · by_cases ht : value l = l_True
      · exact ⟨kept, by simp [scanLits, ht]⟩
      · have hr : hasTrueLit value rest := by
          obtain ⟨x, hx, e⟩ := h
          rcases List.mem_cons.1 hx with rfl | hx
          · exact absurd e ht
          · exact ⟨x, hx, e⟩
        simpa [scanLits, hu, ht] using ih _ hr

theorem undefLits_length_le (value : Lit → lbool) (lits : List Lit) :
    (undefLits value lits).length ≤ lits.length :=
  List.length_filter_le _ _

theorem undefLits_eq_self (value : Lit → lbool) (lits : List Lit)
    (h : ∀ l ∈ lits, value l = l_Undef) : undefLits value lits = lits := by
  unfold undefLits
  rw [List.filter_eq_self]
  intro l hl; simp [h l hl]

theorem undefLits_length_eq (value : Lit → lbool) (lits : List Lit)
    (h : (undefLits value lits).length = lits.length) : undefLits value lits = lits := by
  unfold undefLits at *
  exact List.filter_eq_self.2 (List.filter_length_eq_length.1 h)

/-! ## `satisfied(const Clause&)` -/

theorem satisfiedFrom_iff (value : Lit → lbool) (lits : List Lit) :
    satisfiedFrom value lits = true ↔ hasTrueLit value lits := by
  induction lits with
  | nil => simp [satisfiedFrom, hasTrueLit]
  | cons l rest ih =>
    by_cases h : value l = l_True
    · simp [satisfiedFrom, hasTrueLit, h]
    · simp [satisfiedFrom, h, ih, hasTrueLit]

/-- C8: for every clause `c` (the empty clause included) and every assignment,
`satisfied(c)` returns, without failing and in the solver state it was called
in, a boolean that is true exactly when some literal of `c` has value
`l_True`. -/
theorem satisfiedClause_spec (s : Solver) (c : Clause) :
    ∃ b : Bool, satisfiedClause s c = Outcome.done b s ∧
      (b = true ↔ ∃ l ∈ c.lits, s.value l = l_True) :=
  ⟨satisfiedFrom s.value c.lits, rfl, satisfiedFrom_iff s.value c.lits⟩

/-! ## `cleanClause` -/

theorem cleanClause_of_true (s : Solver) (cc : Nat) (hsize : (s.clauses cc).lits.length > 3)
    (h : hasTrueLit s.value (s.clauses cc).lits) :
    ∃ kept, scanLits s.value (s.clauses cc).lits [] = LitScan.foundTrue kept ∧
      cleanClause s cc = Outcome.done true
        ((s.setClause cc { s.clauses cc with
            lits := kept ++ (s.clauses cc).lits.drop kept.length }).detachModifiedClause
          ((s.clauses cc).lits.getD 0 0) ((s.clauses cc).lits.getD 1 0)
          (s.clauses cc).lits.length cc) := by
  obtain ⟨k, hk⟩ := scanLits_foundTrue s.value (s.clauses cc).lits [] h
  refine ⟨k, hk, ?_⟩
  unfold cleanClause
  simp only [hsize, not_true_eq_false, if_false, hk]

theorem cleanClause_of_noTrue (s : Solver) (cc : Nat) (hsize : (s.clauses cc).lits.length > 3)
    (h : ¬ hasTrueLit s.value (s.clauses cc).lits) :
    cleanClause s cc =
      (let c := s.clauses cc
       let kept := undefLits s.value c.lits
       let s1 := s.setClause cc { c with lits := kept }
       if ¬ (kept.length > 1) then Outcome.abort Assertion.sizeGt1 s1
       else if c.lits.length ≠ kept.length then
         if kept.length = 2 then
           Outcome.done true ((s1.detachModifiedClause (c.lits.getD 0 0) (c.lits.getD 1 0)
             c.lits.length cc).attachBinClause (kept.getD 0 0) (kept.getD 1 0) c.learnt)
         else if kept.length = 3 then
           Outcome.done true ((s1.detachModifiedClause (c.lits.getD 0 0) (c.lits.getD 1 0)
             c.lits.length cc).attachTriClause (kept.getD 0 0) (kept.getD 1 0) (kept.getD 2 0)
               c.learnt)
         else if c.learnt then
           Outcome.done false
             { s1 with redLits := sub64 s1.redLits (c.lits.length - kept.length) }
         else
           Outcome.done false
             { s1 with irredLits := sub64 s1.irredLits (c.lits.length - kept.length) }
       else Outcome.done false s1) := by
  have hk := scanLits_finished s.value (s.clauses cc).lits [] h
  simp only [List.nil_append] at hk
  unfold cleanClause
  simp only [hsize, not_true_eq_false, if_false, hk]

/-- C6: for every long clause (size > 3), `cleanClause` returns `true` exactly
when the clause has a true literal, or has none and exactly 2 or 3 undefined
literals; it returns `false` exactly when the clause has no true literal and
at least 4 undefined literals; and it fails `assert(c.size() > 1)` exactly
when the clause has no true literal and fewer than 2 undefined literals. -/
theorem cleanClause_outcome (s : Solver) (cc : Nat)
    (hsize : (s.clauses cc).lits.length > 3) :
    ((cleanClause s cc).result = some true ↔
        hasTrueLit s.value (s.clauses cc).lits ∨
          (¬ hasTrueLit s.value (s.clauses cc).lits ∧
            ((undefLits s.value (s.clauses cc).lits).length = 2 ∨
              (undefLits s.value (s.clauses cc).lits).length = 3))) ∧
    ((cleanClause s cc).result = some false ↔
        ¬ hasTrueLit s.value (s.clauses cc).lits ∧
          4 ≤ (undefLits s.value (s.clauses cc).lits).length) ∧
    ((cleanClause s cc).failed = some Assertion.sizeGt1 ↔
        ¬ hasTrueLit s.value (s.clauses cc).lits ∧
          (undefLits s.value (s.clauses cc).lits).length < 2) ∧
    ((cleanClause s cc).failed = none ∨
      (cleanClause s cc).failed = some Assertion.sizeGt1) := by
  by_cases h : hasTrueLit s.value (s.clauses cc).lits
  · obtain ⟨k, _, hk⟩ := cleanClause_of_true s cc hsize h
    simp [hk, Outcome.result, Outcome.failed, h]
  · have hle := undefLits_length_le s.value (s.clauses cc).lits
    rw [cleanClause_of_noTrue s cc hsize h]
    simp only [h, not_false_eq_true, true_and, false_or]
    split_ifs <;> simp only [Outcome.result, Outcome.failed] <;>
      refine ⟨?_, ?_, ?_, ?_⟩ <;> simp <;> omega

/-- Witness for C6 on the clause `[0,2,4,6,8]` at address 0 of
`exampleExplicit`. -/
theorem cleanClause_outcome_witness :
    ((cleanClause exampleExplicit 0).result = some true ↔
        hasTrueLit exampleExplicit.value (exampleExplicit.clauses 0).lits ∨
          (¬ hasTrueLit exampleExplicit.value (exampleExplicit.clauses 0).lits ∧
            ((undefLits exampleExplicit.value (exampleExplicit.clauses 0).lits).length = 2 ∨
              (undefLits exampleExplicit.value (exampleExplicit.clauses 0).lits).length = 3))) ∧
    ((cleanClause exampleExplicit 0).result = some false ↔
        ¬ hasTrueLit exampleExplicit.value (exampleExplicit.clauses 0).lits ∧
          4 ≤ (undefLits exampleExplicit.value (exampleExplicit.clauses 0).lits).length) ∧
    ((cleanClause exampleExplicit 0).failed = some Assertion.sizeGt1 ↔
        ¬ hasTrueLit exampleExplicit.value (exampleExplicit.clauses 0).lits ∧
          (undefLits exampleExplicit.value (exampleExplicit.clauses 0).lits).length < 2) ∧
    ((cleanClause exampleExplicit 0).failed = none ∨
      (cleanClause exampleExplicit 0).failed = some Assertion.sizeGt1) :=
  cleanClause_outcome exampleExplicit 0 (by decide)

theorem cleanClausesLoop_done_true (st st1 : Solver) (cc : Nat) (rest kept : List Nat)
    (h : cleanClause st cc = Outcome.done true st1) :
    cleanClausesLoop (cc :: rest) kept st = cleanClausesLoop rest kept (st1.clauseFree cc) := by
  simp [cleanClausesLoop, h]

theorem cleanClausesLoop_done_false (st st1 : Solver) (cc : Nat) (rest kept : List Nat)
    (h : cleanClause st cc = Outcome.done false st1) :
    cleanClausesLoop (cc :: rest) kept st = cleanClausesLoop rest (kept ++ [cc]) st1 := by
  simp [cleanClausesLoop, h]

theorem cleanClausesLoop_abort (st st1 : Solver) (a : Assertion) (cc : Nat)
    (rest kept : List Nat) (h : cleanClause st cc = Outcome.abort a st1) :
    cleanClausesLoop (cc :: rest) kept st = Outcome.abort a st1 := by
  simp [cleanClausesLoop, h]

theorem cleanClause_to_bin (s : Solver) (cc : Nat) (l1 l2 : Lit) (more : List Lit) (u v : Lit)
    (hlits : (s.clauses cc).lits = l1 :: l2 :: more)
    (hsize : (s.clauses cc).lits.length > 3)
    (hnoTrue : ¬ hasTrueLit s.value (s.clauses cc).lits)
    (huv : undefLits s.value (s.clauses cc).lits = [u, v]) :
    cleanClause s cc = Outcome.done true
      (((s.setClause cc ⟨[u, v], (s.clauses cc).learnt⟩).detachModifiedClause l1 l2
        (more.length + 2) cc).attachBinClause u v (s.clauses cc).learnt) := by
  have hlen : (s.clauses cc).lits.length = more.length + 2 := by rw [hlits]; simp
  rw [cleanClause_of_noTrue s cc hsize hnoTrue]
  simp only [huv]
  simp only [hlits]
  have : ¬ (more.length + 1 + 1 = 2) := by omega
  simp [this]

theorem cleanClause_to_tri (s : Solver) (cc : Nat) (l1 l2 : Lit) (more : List Lit)
    (u v w : Lit) (hlits : (s.clauses cc).lits = l1 :: l2 :: more)
    (hsize : (s.clauses cc).lits.length > 3)
    (hnoTrue : ¬ hasTrueLit s.value (s.clauses cc).lits)
    (huv : undefLits s.value (s.clauses cc).lits = [u, v, w]) :
    cleanClause s cc = Outcome.done true
      (((s.setClause cc ⟨[u, v, w], (s.clauses cc).learnt⟩).detachModifiedClause l1 l2
        (more.length + 2) cc).attachTriClause u v w (s.clauses cc).learnt) := by
  have hlen : (s.clauses cc).lits.length = more.length + 2 := by rw [hlits]; simp
  rw [cleanClause_of_noTrue s cc hsize hnoTrue]
  simp only [huv]
  simp only [hlits]
  have : ¬ (more.length + 1 + 1 = 3) := by omega
  simp [this]

/-- C5: a long clause `l1 :: l2 :: more` (size > 3) with no true literal whose
undefined literals are exactly `u, v` (in clause order) makes `cleanClause`
shrink it to `[u, v]`, call `detachModifiedClause` with `l1`, `l2` and the
size before compaction, then `attachBinClause(u, v, learnt)`, and return
`true`, so that the loop of `cleanClauses` calls `clauseFree` on it and does
not keep it in the list; with exactly three undefined literals `u, v, w` the
same holds with `attachTriClause(u, v, w, learnt)`. -/
theorem cleanClause_migrates (s : Solver) (cc : Nat) (l1 l2 : Lit) (more : List Lit)
    (hlits : (s.clauses cc).lits = l1 :: l2 :: more)
    (hsize : (s.clauses cc).lits.length > 3)
    (hnoTrue : ¬ hasTrueLit s.value (s.clauses cc).lits) :
    (∀ u v, undefLits s.value (s.clauses cc).lits = [u, v] →
      cleanClause s cc = Outcome.done true
        (((s.setClause cc ⟨[u, v], (s.clauses cc).learnt⟩).detachModifiedClause l1 l2
          (more.length + 2) cc).attachBinClause u v (s.clauses cc).learnt) ∧
      (cleanClause s cc).state.calls = s.calls ++
        [Call.detachModifiedClause l1 l2 (more.length + 2) cc,
         Call.attachBinClause u v (s.clauses cc).learnt] ∧
      ∀ rest kept, cleanClausesLoop (cc :: rest) kept s =
        cleanClausesLoop rest kept
          ((((s.setClause cc ⟨[u, v], (s.clauses cc).learnt⟩).detachModifiedClause l1 l2
            (more.length + 2) cc).attachBinClause u v (s.clauses cc).learnt).clauseFree cc)) ∧
    (∀ u v w, undefLits s.value (s.clauses cc).lits = [u, v, w] →
      cleanClause s cc = Outcome.done true
        (((s.setClause cc ⟨[u, v, w], (s.clauses cc).learnt⟩).detachModifiedClause l1 l2
          (more.length + 2) cc).attachTriClause u v w (s.clauses cc).learnt) ∧
      (cleanClause s cc).state.calls = s.calls ++
        [Call.detachModifiedClause l1 l2 (more.length + 2) cc,
         Call.attachTriClause u v w (s.clauses cc).learnt] ∧
      ∀ rest kept, cleanClausesLoop (cc :: rest) kept s =
        cleanClausesLoop rest kept
          ((((s.setClause cc ⟨[u, v, w], (s.clauses cc).learnt⟩).detachModifiedClause l1 l2
            (more.length + 2) cc).attachTriClause u v w (s.clauses cc).learnt).clauseFree cc)) := by
  constructor
  · intro u v huv
    have hcc := cleanClause_to_bin s cc l1 l2 more u v hlits hsize hnoTrue huv
    refine ⟨hcc, ?_, fun rest kept => cleanClausesLoop_done_true _ _ _ _ _ hcc⟩
    rw [hcc]
    simp [Outcome.state, Solver.attachBinClause, Solver.detachModifiedClause, Solver.setClause]
  · intro u v w huv
    have hcc := cleanClause_to_tri s cc l1 l2 more u v w hlits hsize hnoTrue huv
    refine ⟨hcc, ?_, fun rest kept => cleanClausesLoop_done_true _ _ _ _ _ hcc⟩
    rw [hcc]
    simp [Outcome.state, Solver.attachTriClause, Solver.detachModifiedClause, Solver.setClause]

/-- Witness for C5: in `exampleExplicit` the learnt clause `[0,4,6,2]` at
address 2 (4 and 6 false) yields the binary `(0,2)`, and the non-learnt clause
`[0,4,2,8]` at address 3 yields the ternary `(0,2,8)`. -/
theorem cleanClause_migrates_witness :
    (cleanClause exampleExplicit 2).state.calls =
        [Call.detachModifiedClause 0 4 4 2, Call.attachBinClause 0 2 true] ∧
      (cleanClause exampleExplicit 3).state.calls =
        [Call.detachModifiedClause 0 4 4 3, Call.attachTriClause 0 2 8 false] :=
  ⟨((cleanClause_migrates exampleExplicit 2 0 4 [6, 2] rfl (by decide) (by decide)).1 0 2
      (by decide)).2.1,
   ((cleanClause_migrates exampleExplicit 3 0 4 [2, 8] rfl (by decide) (by decide)).2 0 2 8
      (by decide)).2.1⟩

theorem undefLits_cons_undef (value : Lit → lbool) (l : Lit) (rest : List Lit)
    (h : value l = l_Undef) : undefLits value (l :: rest) = l :: undefLits value rest := by
  simp [undefLits, h]

theorem undefLits_cons_false (value : Lit → lbool) (l : Lit) (rest : List Lit)
    (h : value l = l_False) : undefLits value (l :: rest) = undefLits value rest := by
  simp [undefLits, h]

theorem undefLits_nil (value : Lit → lbool) : undefLits value [] = [] := rfl

theorem not_hasTrueLit_of_forall (value : Lit → lbool) (lits : List Lit)
    (h : ∀ l ∈ lits, value l ≠ l_True) : ¬ hasTrueLit value lits :=
  fun ⟨l, hl, e⟩ => h l hl e

/-- Counterexample to C4 as stated: in `exampleExplicit` the non-learnt clause
`[0,2,4,6,8]` at address 0 has 4 and 6 false and 0, 2, 8 undefined; the sweep
does not keep it: the resulting list is empty, the clause was detached,
attached as the ternary `(0,2,8)` and freed, and `irredLits` was not
decreased by the sweeper. -/
theorem cleanClauses_five_counterexample :
    exampleExplicit.clauses 0 = ⟨[0, 2, 4, 6, 8], false⟩ ∧
    exampleExplicit.value 4 = l_False ∧ exampleExplicit.value 6 = l_False ∧
    exampleExplicit.value 0 = l_Undef ∧ exampleExplicit.value 2 = l_Undef ∧
    exampleExplicit.value 8 = l_Undef ∧
    (cleanClauses exampleExplicit [0]).result = some [] ∧
    (cleanClauses exampleExplicit [0]).state.calls =
      [Call.detachModifiedClause 0 2 5 0, Call.attachTriClause 0 2 8 false,
       Call.clauseFree 0] ∧
    (cleanClauses exampleExplicit [0]).state.irredLits = exampleExplicit.irredLits := by
  refine ⟨rfl, rfl, rfl, rfl, rfl, rfl, ?_, ?_, ?_⟩ <;> decide

/-- C4 (amended): for a non-learnt long clause `[a,b,c,d,e]` with `c`, `d`
false and `a`, `b`, `e` undefined, the explicit sweep shrinks the clause to
`[a,b,e]` and, three literals being left, migrates it: it calls
`detachModifiedClause(a, b, 5)`, `attachTriClause(a, b, e, false)` and
`clauseFree`, and drops the clause from the list. A clause is kept without
attach or detach when four literals or more are left: the non-learnt clause
`[a,b,c,d,e,f]` with `f` undefined too stays in the list with literals
`[a,b,e,f]`, and `irredLits` is decreased by 2 (modulo `2^64`); no other
field of the solver changes. -/
theorem cleanClauses_shrink_amended (s : Solver) (cc : Nat) (a b c d e : Lit)
    (hlevel : s.decisionLevel = 0) (hq : s.qhead = s.trailSize)
    (ha : s.value a = l_Undef) (hb : s.value b = l_Undef) (hc : s.value c = l_False)
    (hd : s.value d = l_False) (he : s.value e = l_Undef) :
    (s.clauses cc = ⟨[a, b, c, d, e], false⟩ →
      cleanClauses s [cc] = Outcome.done []
        ((((s.setClause cc ⟨[a, b, e], false⟩).detachModifiedClause a b 5 cc).attachTriClause
          a b e false).clauseFree cc)) ∧
    (∀ f, s.value f = l_Undef → s.clauses cc = ⟨[a, b, c, d, e, f], false⟩ →
      cleanClauses s [cc] = Outcome.done [cc]
        { s.setClause cc ⟨[a, b, e, f], false⟩ with irredLits := sub64 s.irredLits 2 }) := by
  have hct : s.value c ≠ l_True := by rw [hc]; decide
  have hdt : s.value d ≠ l_True := by rw [hd]; decide
  have hat : s.value a ≠ l_True := by rw [ha]; decide
  have hbt : s.value b ≠ l_True := by rw [hb]; decide
  have het : s.value e ≠ l_True := by rw [he]; decide
  constructor
  · intro hcl
    have hno : ¬ hasTrueLit s.value (s.clauses cc).lits := by
      apply not_hasTrueLit_of_forall
      rw [hcl]; simp [hat, hbt, hct, hdt, het]
    have hu : undefLits s.value (s.clauses cc).lits = [a, b, e] := by
      rw [hcl]
      simp [undefLits, ha, hb, hc, hd, he]
    have hm := cleanClause_to_tri s cc a b [c, d, e] a b e (by rw [hcl]) (by rw [hcl]; simp)
      hno hu
    have hst := cleanClausesLoop_done_true s _ cc [] [] hm
    rw [hcl] at hst
    simp only [cleanClauses, hlevel, hq, ne_eq, not_true_eq_false, if_false]
    rw [hst]
    simp [cleanClausesLoop]
  · intro f hf hcl
    have hft : s.value f ≠ l_True := by rw [hf]; decide
    have hno : ¬ hasTrueLit s.value (s.clauses cc).lits := by
      apply not_hasTrueLit_of_forall
      rw [hcl]; simp [hat, hbt, hct, hdt, het, hft]
    have hu : undefLits s.value (s.clauses cc).lits = [a, b, e, f] := by
      rw [hcl]
      simp [undefLits, ha, hb, hc, hd, he, hf]
    have hcc : cleanClause s cc = Outcome.done false
        { s.setClause cc ⟨[a, b, e, f], false⟩ with irredLits := sub64 s.irredLits 2 } := by
      rw [cleanClause_of_noTrue s cc (by rw [hcl]; simp) hno]
      simp only [hu]
      simp [hcl, Solver.setClause]
    simp only [cleanClauses, hlevel, hq, ne_eq, not_true_eq_false, if_false]
    rw [cleanClausesLoop_done_false _ _ _ _ _ hcc]
    simp [cleanClausesLoop]

/-- Witness for C4 (amended): the clauses at addresses 0 and 1 of
`exampleExplicit`. -/
theorem cleanClauses_shrink_amended_witness :
    cleanClauses exampleExplicit [0] = Outcome.done []
        ((((exampleExplicit.setClause 0 ⟨[0, 2, 8], false⟩).detachModifiedClause 0 2 5
          0).attachTriClause 0 2 8 false).clauseFree 0) ∧
      cleanClauses exampleExplicit [1] = Outcome.done [1]
        { exampleExplicit.setClause 1 ⟨[0, 2, 8, 10], false⟩ with irredLits := sub64 23 2 } :=
  ⟨(cleanClauses_shrink_amended exampleExplicit 0 0 2 4 6 8 rfl rfl rfl rfl rfl rfl rfl).1 rfl,
   (cleanClauses_shrink_amended exampleExplicit 1 0 2 4 6 8 rfl rfl rfl rfl rfl rfl rfl).2 10
      rfl rfl⟩

/-! ## The scan of one watch list -/

theorem treatTri_fst (value : Lit → lbool) (lit l1 l2 : Lit) (learnt : Bool)
    (ta : List BinaryClause) :
    (treatTri value lit (Watched.tri l1 l2 learnt) ta).1
      = removes value lit (Watched.tri l1 l2 learnt) := by
  cases h1 : value lit <;> cases h2 : value l1 <;> cases h3 : value l2 <;>
    simp [treatTri, removes, Watched.lit1, Watched.lit2, h1, h2, h3]

theorem treatTri_snd (value : Lit → lbool) (lit l1 l2 : Lit) (learnt : Bool)
    (ta : List BinaryClause) :
    (treatTri value lit (Watched.tri l1 l2 learnt) ta).2
      = ta ++ enqueued value lit (Watched.tri l1 l2 learnt) := by
  cases h1 : value lit <;> cases h2 : value l1 <;> cases h3 : value l2 <;>
    by_cases hlt : lit < l1 <;>
    simp [treatTri, enqueued, Watched.isTri, Watched.lit1, Watched.lit2, h1, h2, h3, hlt]

theorem tallied_nil (value : Lit → lbool) (lit : Lit) (loc : Locals) :
    tallied value lit [] loc = loc := by
  simp [tallied]

theorem scanWatchList_of_passes (value : Lit → lbool) (lit : Lit) (ws kept : List Watched)
    (loc : Locals) (h : ws.all (passesAsserts value lit) = true) :
    scanWatchList value lit ws kept loc =
      Except.ok (kept ++ ws.filter (fun w => !removes value lit w), tallied value lit ws loc) := by
  induction ws generalizing kept loc with
  | nil => simp [scanWatchList, tallied]
  | cons w rest ih =>
    simp only [List.all_cons, Bool.and_eq_true] at h
    obtain ⟨hw, hrest⟩ := h
    cases w with
    | clause off =>
      simp [scanWatchList, Watched.isClause, ih _ _ hrest, removes, tallied, Watched.isBinary,
        Watched.isTri, enqueued]
    | binary l1 learnt =>
      cases h1 : value lit <;> cases h2 : value l1 <;> cases learnt <;>
        simp [passesAsserts, h1, h2] at hw <;>
        simp [scanWatchList, Watched.isClause, Watched.isBinary, Watched.isTri, satisfied,
          Watched.lit1, Watched.learnt, ih _ _ hrest, removes, tallied, enqueued, h1, h2,
          List.countP_cons, Nat.add_assoc, Nat.add_comm 1]
    | tri l1 l2 learnt =>
      have hf := treatTri_fst value lit l1 l2 learnt loc.toAttach
      have hs := treatTri_snd value lit l1 l2 learnt loc.toAttach
      cases hr : removes value lit (Watched.tri l1 l2 learnt) <;> cases learnt <;>
        simp [scanWatchList, Watched.isClause, Watched.isBinary, Watched.isTri,
          Watched.learnt, ih _ _ hrest, tallied, hf, hs, hr,
          List.countP_cons, Nat.add_assoc, Nat.add_comm 1]

theorem scanWatchList_passes_of_ok (value : Lit → lbool) (lit : Lit) (ws kept : List Watched)
    (loc : Locals) (r : List Watched × Locals)
    (h : scanWatchList value lit ws kept loc = Except.ok r) :
    ws.all (passesAsserts value lit) = true := by
  induction ws generalizing kept loc with
  | nil => simp
  | cons w rest ih =>
    simp only [List.all_cons, Bool.and_eq_true]
    cases w with
    | clause off =>
      simp only [scanWatchList, Watched.isClause, if_true] at h
      exact ⟨rfl, ih _ _ h⟩
    | binary l1 learnt =>
      cases h1 : value lit <;> cases h2 : value l1 <;> cases learnt <;>
        simp [scanWatchList, Watched.isClause, Watched.isBinary, satisfied,
          Watched.lit1, Watched.learnt, h1, h2] at h <;>
        exact ⟨by simp [passesAsserts, h1, h2], ih _ _ h⟩
    | tri l1 l2 learnt =>
      refine ⟨rfl, ?_⟩
      simp only [scanWatchList, Watched.isClause, Watched.isBinary, Watched.isTri] at h
      simp only [Bool.false_eq_true, if_false, Bool.not_true] at h
      split at h
      · split at h <;> exact ih _ _ h
      · exact ih _ _ h

/-! ## The scan of the table -/

theorem scanWatches_of_passes (value : Lit → lbool) (base : Nat)
    (table scanned : List (List Watched)) (loc : Locals)
    (h : tablePasses value base table = true) :
    scanWatches value base table scanned loc =
      Except.ok (scanned ++ keptTable value base table, talliedTable value base table loc) := by
  induction table generalizing base scanned loc with
  | nil => simp [scanWatches, keptTable, talliedTable]
  | cons ws rest ih =>
    simp only [tablePasses, Bool.and_eq_true] at h
    simp only [scanWatches, Lit.toLit, scanWatchList_of_passes value base ws [] loc h.1]
    rw [ih _ _ _ h.2]
    simp [keptTable, talliedTable]

theorem scanWatches_passes_of_ok (value : Lit → lbool) (base : Nat)
    (table scanned : List (List Watched)) (loc : Locals)
    (r : List (List Watched) × Locals)
    (h : scanWatches value base table scanned loc = Except.ok r) :
    tablePasses value base table = true := by
  induction table generalizing base scanned loc with
  | nil => simp [tablePasses]
  | cons ws rest ih =>
    simp only [scanWatches, Lit.toLit] at h
    cases hws : scanWatchList value base ws [] loc with
    | error e => rw [hws] at h; simp at h
    | ok r1 =>
      rw [hws] at h
      simp only [tablePasses, Bool.and_eq_true]
      exact ⟨scanWatchList_passes_of_ok value base ws [] loc r1 hws, ih _ _ _ h⟩

theorem scanWatches_error_of_not_passes (value : Lit → lbool) (base : Nat)
    (table scanned : List (List Watched)) (loc : Locals)
    (h : tablePasses value base table = false) :
    ∃ e, scanWatches value base table scanned loc = Except.error e := by
  cases hr : scanWatches value base table scanned loc with
  | error e => exact ⟨e, rfl⟩
  | ok r =>
    have := scanWatches_passes_of_ok value base table scanned loc r hr
    rw [h] at this; cases this

theorem keptTable_getElem? (value : Lit → lbool) (base : Nat) (table : List (List Watched))
    (i : Nat) :
    (keptTable value base table)[i]? =
      (table[i]?).map (fun ws => ws.filter (fun w => !removes value (base + i) w)) := by
  induction table generalizing base i with
  | nil => simp [keptTable]
  | cons ws rest ih =>
    cases i with
    | zero => simp [keptTable]
    | succ n =>
      simp only [keptTable, List.getElem?_cons_succ, ih]
      have : base + 1 + n = base + (n + 1) := by omega
      rw [this]

theorem keptTable_length (value : Lit → lbool) (base : Nat) (table : List (List Watched)) :
    (keptTable value base table).length = table.length := by
  induction table generalizing base with
  | nil => rfl
  | cons ws rest ih => simp [keptTable, ih]

theorem tablePasses_iff (value : Lit → lbool) (base : Nat) (table : List (List Watched)) :
    tablePasses value base table = true ↔
      ∀ i ws, table[i]? = some ws → ∀ w ∈ ws, passesAsserts value (base + i) w = true := by
  induction table generalizing base with
  | nil => simp [tablePasses]
  | cons l rest ih =>
    simp only [tablePasses, Bool.and_eq_true, List.all_eq_true, ih]
    constructor
    · rintro ⟨h0, hr⟩ i ws hi w hw
      cases i with
      | zero =>
        simp only [List.getElem?_cons_zero, Option.some.injEq] at hi
        subst hi; exact h0 w hw
      | succ n =>
        simp only [List.getElem?_cons_succ] at hi
        have := hr n ws hi w hw
        have e : base + 1 + n = base + (n + 1) := by omega
        rwa [e] at this
    · intro h
      refine ⟨fun w hw => h 0 l (by simp) w hw, fun i ws hi w hw => ?_⟩
      have := h (i + 1) ws (by simpa using hi) w hw
      have e : base + 1 + i = base + (i + 1) := by omega
      rwa [e]

theorem tableUndef_iff (value : Lit → lbool) (base : Nat) (table : List (List Watched)) :
    tableUndef value base table = true ↔
      ∀ i ws, table[i]? = some ws → ∀ w ∈ ws, allUndef value (base + i) w = true := by
  induction table generalizing base with
  | nil => simp [tableUndef]
  | cons l rest ih =>
    simp only [tableUndef, Bool.and_eq_true, List.all_eq_true, ih]
    constructor
    · rintro ⟨h0, hr⟩ i ws hi w hw
      cases i with
      | zero =>
        simp only [List.getElem?_cons_zero, Option.some.injEq] at hi
        subst hi; exact h0 w hw
      | succ n =>
        simp only [List.getElem?_cons_succ] at hi
        have := hr n ws hi w hw
        have e : base + 1 + n = base + (n + 1) := by omega
        rwa [e] at this
    · intro h
      refine ⟨fun w hw => h 0 l (by simp) w hw, fun i ws hi w hw => ?_⟩
      have := h (i + 1) ws (by simpa using hi) w hw
      have e : base + 1 + i = base + (i + 1) := by omega
      rwa [e]

theorem allUndef_of_kept (value : Lit → lbool) (lit : Lit) (w : Watched)
    (hp : passesAsserts value lit w = true) (hr : removes value lit w = false) :
    allUndef value lit w = true := by
  cases w with
  | clause off => rfl
  | binary l1 learnt =>
    cases h1 : value lit <;> cases h2 : value l1 <;>
      simp [passesAsserts, removes, allUndef, h1, h2] at hp hr ⊢
  | tri l1 l2 learnt =>
    simpa [removes, allUndef] using hr

theorem passes_of_allUndef (value : Lit → lbool) (lit : Lit) (w : Watched)
    (h : allUndef value lit w = true) :
    passesAsserts value lit w = true ∧ removes value lit w = false
      ∧ enqueued value lit w = [] := by
  cases w with
  | clause off => simp [passesAsserts, removes, enqueued, Watched.isTri]
  | binary l1 learnt =>
    simp only [allUndef, Bool.and_eq_true, decide_eq_true_eq] at h
    simp [passesAsserts, removes, enqueued, Watched.isTri, h.1, h.2]
  | tri l1 l2 learnt =>
    simp only [allUndef, Bool.and_eq_true, decide_eq_true_eq] at h
    simp [passesAsserts, removes, enqueued, Watched.isTri, treatTri, Watched.lit1,
      Watched.lit2, h.1.1, h.1.2, h.2]

theorem keptTable_undef (value : Lit → lbool) (base : Nat) (table : List (List Watched))
    (h : tablePasses value base table = true) :
    tableUndef value base (keptTable value base table) = true := by
  induction table generalizing base with
  | nil => simp [keptTable, tableUndef]
  | cons ws rest ih =>
    simp only [tablePasses, Bool.and_eq_true, List.all_eq_true] at h
    simp only [keptTable, tableUndef, Bool.and_eq_true, List.all_eq_true, ih _ h.2, and_true]
    intro w hw
    rw [List.mem_filter] at hw
    exact allUndef_of_kept value base w (h.1 w hw.1) (by simpa using hw.2)

theorem keptTable_of_undef (value : Lit → lbool) (base : Nat) (table : List (List Watched))
    (h : tableUndef value base table = true) :
    tablePasses value base table = true ∧ keptTable value base table = table
      ∧ ∀ loc, talliedTable value base table loc = loc := by
  induction table generalizing base with
  | nil => simp [keptTable, tablePasses, talliedTable]
  | cons ws rest ih =>
    simp only [tableUndef, Bool.and_eq_true, List.all_eq_true] at h
    obtain ⟨ih1, ih2, ih3⟩ := ih _ h.2
    have hws : ∀ w ∈ ws, passesAsserts value base w = true ∧ removes value base w = false
        ∧ enqueued value base w = [] := fun w hw => passes_of_allUndef value base w (h.1 w hw)
    refine ⟨?_, ?_, ?_⟩
    · simp only [tablePasses, Bool.and_eq_true, List.all_eq_true, ih1, and_true]
      exact fun w hw => (hws w hw).1
    · simp only [keptTable, ih2]
      congr 1
      rw [List.filter_eq_self]
      intro w hw; simp [(hws w hw).2.1]
    · intro loc
      simp only [talliedTable, ih3]
      have hc : ∀ (p : Watched → Bool), (∀ w ∈ ws, removes value base w = false → p w = false) →
          ws.countP p = 0 := by
        intro p hp
        rw [List.countP_eq_zero]
        intro w hw; simp [hp w hw (hws w hw).2.1]
      have hfm : ws.flatMap (enqueued value base) = [] := by
        rw [List.flatMap_eq_nil_iff]
        exact fun w hw => (hws w hw).2.2
      simp only [tallied, hfm, List.append_nil]
      rw [hc _ (fun w _ hr => by simp [hr]), hc _ (fun w _ hr => by simp [hr]),
        hc _ (fun w _ hr => by simp [hr]), hc _ (fun w _ hr => by simp [hr])]
      simp

/-! ## The delayed attach -/

theorem attachBinClause_value (s : Solver) (a b : Lit) (learnt : Bool) :
    (s.attachBinClause a b learnt).value = s.value := rfl

theorem attachAll_value (bs : List BinaryClause) (s : Solver) :
    (attachAll bs s).value = s.value := by
  induction bs generalizing s with
  | nil => rfl
  | cons b rest ih =>
    simp only [attachAll, List.foldl_cons] at ih ⊢
    rw [ih]; rfl

theorem attachAll_decisionLevel (bs : List BinaryClause) (s : Solver) :
    (attachAll bs s).decisionLevel = s.decisionLevel := by
  induction bs generalizing s with
  | nil => rfl
  | cons b rest ih =>
    simp only [attachAll, List.foldl_cons] at ih ⊢
    rw [ih]; rfl

theorem attachDelayed_of_undef (bs : List BinaryClause) (s : Solver)
    (h : ∀ b ∈ bs, s.value b.getLit1 = l_Undef ∧ s.value b.getLit2 = l_Undef) :
    attachDelayed bs s = Outcome.done () (attachAll bs s) := by
  induction bs generalizing s with
  | nil => rfl
  | cons b rest ih =>
    have hb := h b (by simp)
    simp only [attachDelayed, hb.1, hb.2, ne_eq, not_true_eq_false, if_false]
    rw [ih]
    · rfl
    · intro b1 hb1
      exact h b1 (by simp [hb1])

theorem attachDelayed_undef_of_done (bs : List BinaryClause) (s s1 : Solver)
    (h : attachDelayed bs s = Outcome.done () s1) :
    ∀ b ∈ bs, s.value b.getLit1 = l_Undef ∧ s.value b.getLit2 = l_Undef := by
  induction bs generalizing s with
  | nil => simp
  | cons b rest ih =>
    simp only [attachDelayed, ne_eq] at h
    by_cases h1 : s.value b.getLit1 = l_Undef
    · by_cases h2 : s.value b.getLit2 = l_Undef
      · simp only [h1, h2, not_true_eq_false, if_false] at h
        intro b1 hb1
        rcases List.mem_cons.1 hb1 with rfl | hb1
        · exact ⟨h1, h2⟩
        · exact ih _ h b1 hb1
      · simp [h1, h2] at h
    · simp [h1] at h

theorem attachDelayed_abort_kind (bs : List BinaryClause) (s s1 : Solver) (a : Assertion)
    (h : attachDelayed bs s = Outcome.abort a s1) :
    a = Assertion.attachLit1Undef ∨ a = Assertion.attachLit2Undef := by
  induction bs generalizing s with
  | nil => simp [attachDelayed] at h
  | cons b rest ih =>
    simp only [attachDelayed, ne_eq] at h
    by_cases h1 : s.value b.getLit1 = l_Undef
    · by_cases h2 : s.value b.getLit2 = l_Undef
      · simp only [h1, h2, not_true_eq_false, if_false] at h
        exact ih _ h
      · simp only [h1, h2, not_true_eq_false, not_false_eq_true, if_true, if_false,
          Outcome.abort.injEq] at h
        exact Or.inr h.1.symm
    · simp only [h1, not_false_eq_true, if_true, Outcome.abort.injEq] at h
      exact Or.inl h.1.symm

theorem pushWatch_undef (value : Lit → lbool) (base : Nat) (table : List (List Watched))
    (i : Nat) (w : Watched) (ht : tableUndef value base table = true)
    (hw : allUndef value (base + i) w = true) :
    tableUndef value base (pushWatch table i w) = true := by
  induction table generalizing base i with
  | nil => simp [pushWatch, tableUndef]
  | cons ws rest ih =>
    simp only [tableUndef, Bool.and_eq_true] at ht
    cases i with
    | zero =>
      simp only [pushWatch, tableUndef, Bool.and_eq_true, ht.2, and_true, List.all_append,
        ht.1, Bool.true_and]
      simpa using hw
    | succ n =>
      simp only [pushWatch, tableUndef, Bool.and_eq_true, ht.1, true_and]
      apply ih _ _ ht.2
      have e : base + 1 + n = base + (n + 1) := by omega
      rwa [e]

theorem attachAll_undef (bs : List BinaryClause) (s : Solver)
    (ht : tableUndef s.value 0 s.watches = true)
    (h : ∀ b ∈ bs, s.value b.getLit1 = l_Undef ∧ s.value b.getLit2 = l_Undef) :
    tableUndef s.value 0 (attachAll bs s).watches = true := by
  induction bs generalizing s with
  | nil => exact ht
  | cons b rest ih =>
    have hb := h b (by simp)
    simp only [attachAll, List.foldl_cons] at ih ⊢
    apply ih (s.attachBinClause b.getLit1 b.getLit2 b.getLearnt)
    · simp only [Solver.attachBinClause]
      apply pushWatch_undef
      · apply pushWatch_undef _ _ _ _ _ ht
        simp [allUndef, hb.1, hb.2]
      · simp [allUndef, hb.1, hb.2]
    · intro b1 hb1
      exact h b1 (by simp [hb1])

/-! ## `treatImplicitClauses` as a whole -/

theorem treatImplicitClauses_done_iff (check : Solver → Bool) (s s1 : Solver) :
    treatImplicitClauses check s = Outcome.done () s1 ↔
      s.decisionLevel = 0 ∧ tablePasses s.value 0 s.watches = true ∧
      (∀ b ∈ (talliedTable s.value 0 s.watches Locals.init).toAttach,
        s.value b.getLit1 = l_Undef ∧ s.value b.getLit2 = l_Undef) ∧
      (talliedTable s.value 0 s.watches Locals.init).remNonLBin % 2 = 0 ∧
      (talliedTable s.value 0 s.watches Locals.init).remLBin % 2 = 0 ∧
      (talliedTable s.value 0 s.watches Locals.init).remNonLTri % 3 = 0 ∧
      (talliedTable s.value 0 s.watches Locals.init).remLTri % 3 = 0 ∧
      s1 = applyTallies
        (attachAll (talliedTable s.value 0 s.watches Locals.init).toAttach
          { s with watches := keptTable s.value 0 s.watches })
        (talliedTable s.value 0 s.watches Locals.init) ∧
      check s1 = true := by
  unfold treatImplicitClauses
  by_cases hl : s.decisionLevel = 0
  swap
  · simp [hl]
  rw [if_neg (by simp [hl])]
  cases hp : tablePasses s.value 0 s.watches
  · obtain ⟨e, he⟩ := scanWatches_error_of_not_passes s.value 0 s.watches [] Locals.init hp
    rw [he]; simp
  · rw [scanWatches_of_passes s.value 0 s.watches [] Locals.init hp]
    simp only [List.nil_append]
    have hv : ({ s with watches := keptTable s.value 0 s.watches } : Solver).value = s.value := rfl
    generalize ({ s with watches := keptTable s.value 0 s.watches } : Solver) = s0 at hv ⊢
    generalize talliedTable s.value 0 s.watches Locals.init = loc
    have hvb : (∀ b ∈ loc.toAttach, s.value b.getLit1 = l_Undef ∧ s.value b.getLit2 = l_Undef) ↔
        (∀ b ∈ loc.toAttach, s0.value b.getLit1 = l_Undef ∧ s0.value b.getLit2 = l_Undef) := by
      rw [hv]
    rw [hvb]
    cases hat : attachDelayed loc.toAttach s0 with
    | abort a s2 =>
      constructor
      · intro h; simp at h
      · rintro ⟨-, -, hu, -⟩
        rw [attachDelayed_of_undef _ _ hu] at hat
        cases hat
    | done u s2 =>
      have hu := attachDelayed_undef_of_done _ _ _ hat
      rw [attachDelayed_of_undef _ _ hu] at hat
      simp only [Outcome.done.injEq, true_and] at hat
      subst hat
      simp only [List.nil_append]
      by_cases h1 : loc.remNonLBin % 2 = 0
      swap
      · simp [h1]
      by_cases h2 : loc.remLBin % 2 = 0
      swap
      · simp [h1, h2]
      by_cases h3 : loc.remNonLTri % 3 = 0
      swap
      · simp [h1, h2, h3]
      by_cases h4 : loc.remLTri % 3 = 0
      swap
      · simp [h1, h2, h3, h4]
      simp only [h1, h2, h3, h4, ne_eq, not_true_eq_false, if_false, true_and]
      constructor
      · intro h
        by_cases hc : check (applyTallies (attachAll loc.toAttach s0) loc) = true
        · simp only [hc, if_true, Outcome.done.injEq, true_and] at h
          subst h
          exact ⟨hl, hu, rfl, hc⟩
        · simp [hc] at h
      · rintro ⟨-, -, rfl, hc⟩
        simp [hc]

theorem applyTallies_init (s : Solver) : applyTallies s Locals.init = s := by
  simp [applyTallies, Locals.init, sub64_zero]

theorem treatImplicitClauses_of_undef (check : Solver → Bool) (s : Solver)
    (hlevel : s.decisionLevel = 0) (hU : tableUndef s.value 0 s.watches = true) :
    treatImplicitClauses check s =
      if check s then Outcome.done () s else Outcome.abort Assertion.checkImplicitStats s := by
  obtain ⟨hp, hk, ht⟩ := keptTable_of_undef s.value 0 s.watches hU
  unfold treatImplicitClauses
  rw [if_neg (by simp [hlevel]), scanWatches_of_passes s.value 0 s.watches [] Locals.init hp]
  simp only [List.nil_append, hk, ht]
  simp [Locals.init, attachDelayed, applyTallies, sub64_zero]

theorem treatImplicitClauses_undef_of_done (check : Solver → Bool) (s s1 : Solver)
    (h : treatImplicitClauses check s = Outcome.done () s1) :
    s1.value = s.value ∧ s1.decisionLevel = 0 ∧ tableUndef s1.value 0 s1.watches = true := by
  obtain ⟨hl, hp, hu, -, -, -, -, hs1, -⟩ := (treatImplicitClauses_done_iff check s s1).1 h
  have hv : s1.value = s.value := by
    rw [hs1]
    simp only [applyTallies]
    exact attachAll_value _ _
  have hd : s1.decisionLevel = 0 := by
    rw [hs1]
    simp only [applyTallies]
    rw [attachAll_decisionLevel]; exact hl
  refine ⟨hv, hd, ?_⟩
  rw [hv, hs1]
  simp only [applyTallies]
  exact attachAll_undef _ { s with watches := keptTable s.value 0 s.watches }
    (keptTable_undef s.value 0 s.watches hp) hu

/-- C1: when `treatImplicitClauses` runs to completion, the assignment is the
one it started with, and every binary and every ternary entry of every watch
list of the final table, whether kept by the scan or inserted by the delayed
attach, has all its literals (the literal owning the list and the stored
ones) undefined. -/
theorem treatImplicitClauses_post (check : Solver → Bool) (s s1 : Solver)
    (h : treatImplicitClauses check s = Outcome.done () s1) :
    s1.value = s.value ∧
    ∀ (lit : Lit) (ws : List Watched), s1.watches[lit]? = some ws → ∀ w ∈ ws,
      (∀ l1 learnt, w = Watched.binary l1 learnt →
        s1.value lit = l_Undef ∧ s1.value l1 = l_Undef) ∧
      (∀ l1 l2 learnt, w = Watched.tri l1 l2 learnt →
        s1.value lit = l_Undef ∧ s1.value l1 = l_Undef ∧ s1.value l2 = l_Undef) := by
  obtain ⟨hv, -, hU⟩ := treatImplicitClauses_undef_of_done check s s1 h
  refine ⟨hv, fun lit ws hws w hw => ?_⟩
  have hw1 := (tableUndef_iff s1.value 0 s1.watches).1 hU lit ws hws w hw
  rw [Nat.zero_add] at hw1
  constructor
  · rintro l1 learnt rfl
    simpa [allUndef] using hw1
  · rintro l1 l2 learnt rfl
    simpa [allUndef, and_assoc] using hw1

/-- Witness for C1: the sweep of `exampleImplicit` completes; in the final
table the list of literal 2 holds the kept entry of `(2 ∨ 6)` and the entry of
the attached binary clause `(0 ∨ 2)`, and 2 and 0 are undefined. -/
theorem treatImplicitClauses_post_witness :
    (treatImplicitClauses (fun _ => true) exampleImplicit).state.watches =
        [[Watched.clause 7, Watched.binary 2 false], [],
         [Watched.binary 6 true, Watched.binary 0 false], [], [], [],
         [Watched.binary 2 true], [Watched.clause 7]] ∧
      (treatImplicitClauses (fun _ => true) exampleImplicit).state.value 2 = l_Undef ∧
      (treatImplicitClauses (fun _ => true) exampleImplicit).state.value 0 = l_Undef :=
  ⟨by decide,
   ((treatImplicitClauses_post (fun _ => true) exampleImplicit
      (treatImplicitClauses (fun _ => true) exampleImplicit).state rfl).2 2
      [Watched.binary 6 true, Watched.binary 0 false] (by decide)
      (Watched.binary 0 false) (by decide)).1 0 false rfl⟩

/-! ## Sweeps when nothing is assigned, and the sweep run twice -/

theorem setClause_self (s : Solver) (cc : Nat) : s.setClause cc (s.clauses cc) = s := by
  have : (fun a => if a = cc then s.clauses cc else s.clauses a) = s.clauses := by
    funext a
    by_cases h : a = cc
    · simp [h]
    · simp [h]
  simp [Solver.setClause, this]

theorem cleanClause_of_undef (s : Solver) (cc : Nat)
    (hsize : (s.clauses cc).lits.length > 3)
    (h : ∀ l ∈ (s.clauses cc).lits, s.value l = l_Undef) :
    cleanClause s cc = Outcome.done false s := by
  have hno : ¬ hasTrueLit s.value (s.clauses cc).lits := by
    rintro ⟨l, hl, e⟩
    rw [h l hl] at e; cases e
  rw [cleanClause_of_noTrue s cc hsize hno]
  have hk := undefLits_eq_self s.value (s.clauses cc).lits h
  simp only [hk]
  have h1 : (s.clauses cc).lits.length > 1 := by omega
  simp only [h1, not_true_eq_false, if_false, ne_eq]
  exact congrArg (Outcome.done false) (setClause_self s cc)

theorem cleanClausesLoop_of_undef (s : Solver) (cs kept : List Nat)
    (h : ∀ cc ∈ cs, ∀ l ∈ (s.clauses cc).lits, s.value l = l_Undef) :
    (cleanClausesLoop cs kept s).state = s ∧
      ((∀ cc ∈ cs, (s.clauses cc).lits.length > 3) →
        cleanClausesLoop cs kept s = Outcome.done (kept ++ cs) s) := by
  induction cs generalizing kept with
  | nil => simp [cleanClausesLoop, Outcome.state]
  | cons cc rest ih =>
    have hrest : ∀ c ∈ rest, ∀ l ∈ (s.clauses c).lits, s.value l = l_Undef :=
      fun c hc => h c (by simp [hc])
    by_cases hsize : (s.clauses cc).lits.length > 3
    · have hcc := cleanClause_of_undef s cc hsize (h cc (by simp))
      rw [cleanClausesLoop_done_false _ _ _ _ _ hcc]
      refine ⟨(ih _ hrest).1, fun hs => ?_⟩
      rw [(ih _ hrest).2 (fun c hc => hs c (by simp [hc]))]
      simp
    · have hcc : cleanClause s cc = Outcome.abort Assertion.sizeGt3 s := by
        simp [cleanClause, hsize]
      rw [cleanClausesLoop_abort _ _ _ _ _ _ hcc]
      exact ⟨rfl, fun hs => absurd (hs cc (by simp)) hsize⟩

/-- C9: in a solver state at decision level 0 in which every literal of every
binary and ternary watch entry (the literal owning the list included) and
every literal of every clause of the list `cs` is undefined, the implicit
sweep ends in the state it started in (same watch lists, same counters,
nothing attached): it completes when the self-check `checkImplicitStats`
passes on that state, and the only other way it ends is by that self-check
failing; the explicit sweep on `cs` also ends in the state it started in
(same clauses, same counters, no call of detach, attach or free), and when
the propagation queue is empty and every clause of `cs` has more than three
literals, it completes with the list `cs` unchanged. -/
theorem sweeps_noop (check : Solver → Bool) (s : Solver) (cs : List Nat)
    (hlevel : s.decisionLevel = 0)
    (hW : ∀ (lit : Lit) (ws : List Watched), s.watches[lit]? = some ws →
      ∀ w ∈ ws, allUndef s.value lit w = true)
    (hC : ∀ cc ∈ cs, ∀ l ∈ (s.clauses cc).lits, s.value l = l_Undef) :
    (treatImplicitClauses check s =
      if check s then Outcome.done () s else Outcome.abort Assertion.checkImplicitStats s) ∧
    (treatImplicitClauses check s).state = s ∧
    (cleanClauses s cs).state = s ∧
    (s.qhead = s.trailSize → (∀ cc ∈ cs, (s.clauses cc).lits.length > 3) →
      cleanClauses s cs = Outcome.done cs s) := by
  have hU : tableUndef s.value 0 s.watches = true := by
    rw [tableUndef_iff]
    intro i ws hi w hw
    rw [Nat.zero_add]
    exact hW i ws hi w hw
  have himp := treatImplicitClauses_of_undef check s hlevel hU
  refine ⟨himp, ?_, ?_, ?_⟩
  · rw [himp]
    by_cases hc : check s = true <;> simp [hc, Outcome.state]
  · unfold cleanClauses
    rw [if_neg (by simp [hlevel])]
    by_cases hq : s.qhead = s.trailSize
    · rw [if_neg (by simp [hq])]
      exact (cleanClausesLoop_of_undef s cs [] hC).1
    · simp [hq, Outcome.state]
  · intro hq hs
    unfold cleanClauses
    rw [if_neg (by simp [hlevel]), if_neg (by simp [hq])]
    simpa using (cleanClausesLoop_of_undef s cs [] hC).2 hs

/-- Witness for C9: `exampleUnassigned` with the clause list `[7]`. -/
theorem sweeps_noop_witness :
    (treatImplicitClauses (fun _ => true) exampleUnassigned).state = exampleUnassigned ∧
    cleanClauses exampleUnassigned [7] = Outcome.done [7] exampleUnassigned :=
  ⟨(sweeps_noop (fun _ => true) exampleUnassigned [7] rfl
      ((tableUndef_iff exampleUnassigned.value 0 exampleUnassigned.watches).1 (by decide))
      (by decide)).2.1,
   (sweeps_noop (fun _ => true) exampleUnassigned [7] rfl
      ((tableUndef_iff exampleUnassigned.value 0 exampleUnassigned.watches).1 (by decide))
      (by decide)).2.2.2 rfl (by decide)⟩

/-- C10: when `treatImplicitClauses` completes in state `s1`, running it again
from `s1` (same assignment) completes too and ends in `s1` itself: the watch
lists, the six counters and the call log are those of `s1`, so the second run
removes no entry and attaches no binary clause. -/
theorem treatImplicitClauses_twice (check : Solver → Bool) (s s1 : Solver)
    (h : treatImplicitClauses check s = Outcome.done () s1) :
    treatImplicitClauses check s1 = Outcome.done () s1 := by
  obtain ⟨-, hd, hU⟩ := treatImplicitClauses_undef_of_done check s s1 h
  have hc : check s1 = true := ((treatImplicitClauses_done_iff check s s1).1 h).2.2.2.2.2.2.2.2
  rw [treatImplicitClauses_of_undef check s1 hd hU, hc]
  rfl

/-- Witness for C10: the sweep of `exampleImplicit` completes, and a second
sweep from the state it ends in completes in that same state. -/
theorem treatImplicitClauses_twice_witness :
    treatImplicitClauses (fun _ => true)
        (treatImplicitClauses (fun _ => true) exampleImplicit).state =
      Outcome.done () (treatImplicitClauses (fun _ => true) exampleImplicit).state :=
  treatImplicitClauses_twice (fun _ => true) exampleImplicit
    (treatImplicitClauses (fun _ => true) exampleImplicit).state rfl

/-! ## The loop of `cleanClauses` -/

theorem freedBy_append (xs ys : List Call) : freedBy (xs ++ ys) = freedBy xs ++ freedBy ys := by
  simp [freedBy, List.filterMap_append]

theorem cleanClause_frame (st : Solver) (cc : Nat) :
    (cleanClause st cc).state.value = st.value ∧
      (∀ a, a ≠ cc → (cleanClause st cc).state.clauses a = st.clauses a) ∧
      freedBy (cleanClause st cc).state.calls = freedBy st.calls := by
  unfold cleanClause
  by_cases hsize : (st.clauses cc).lits.length > 3
  swap
  · simp [hsize, Outcome.state]
  simp only [hsize, not_true_eq_false, if_false]
  cases scanLits st.value (st.clauses cc).lits [] with
  | foundTrue kept =>
    refine ⟨rfl, fun a ha => ?_, ?_⟩
    · simp [Outcome.state, Solver.detachModifiedClause, Solver.setClause, ha]
    · simp [Outcome.state, Solver.detachModifiedClause, Solver.setClause, freedBy_append,
        freedBy]
  | finished kept =>
    simp only
    split_ifs <;> refine ⟨rfl, ?_, ?_⟩
    all_goals first
      | (intro a ha
         simp [Outcome.state, Solver.detachModifiedClause, Solver.attachBinClause,
           Solver.attachTriClause, Solver.setClause, ha])
      | (simp [Outcome.state, Solver.detachModifiedClause, Solver.attachBinClause,
           Solver.attachTriClause, Solver.setClause, freedBy_append, freedBy])

theorem cleanClause_result_congr (s st : Solver) (cc : Nat) (hv : st.value = s.value)
    (hc : st.clauses cc = s.clauses cc) :
    (cleanClause st cc).result = (cleanClause s cc).result := by
  unfold cleanClause
  simp only [hv, hc]
  by_cases hsize : (s.clauses cc).lits.length > 3
  swap
  · simp [hsize, Outcome.result]
  simp only [hsize, not_true_eq_false, if_false]
  cases scanLits s.value (s.clauses cc).lits [] with
  | foundTrue kept => rfl
  | finished kept =>
    simp only
    split_ifs <;> rfl

theorem cleanClausesLoop_filter (s : Solver) (rest kept : List Nat) (st s1 : Solver)
    (cs1 : List Nat) (hnd : rest.Nodup) (hv : st.value = s.value)
    (hc : ∀ cc ∈ rest, st.clauses cc = s.clauses cc)
    (h : cleanClausesLoop rest kept st = Outcome.done cs1 s1) :
    cs1 = kept ++ rest.filter (fun cc => decide ((cleanClause s cc).result = some false)) ∧
      freedBy s1.calls = freedBy st.calls ++
        rest.filter (fun cc => decide ((cleanClause s cc).result = some true)) ∧
      ∀ cc ∈ rest, (cleanClause s cc).result = some true ∨
        (cleanClause s cc).result = some false := by
  induction rest generalizing kept st with
  | nil =>
    simp only [cleanClausesLoop, Outcome.done.injEq] at h
    obtain ⟨rfl, rfl⟩ := h
    exact ⟨by simp, by simp, by simp⟩
  | cons cc rest ih =>
    have hres := cleanClause_result_congr s st cc hv (hc cc (by simp))
    obtain ⟨fv, fc, ffree⟩ := cleanClause_frame st cc
    have hcc : cc ∉ rest := (List.nodup_cons.1 hnd).1
    have hnd1 : rest.Nodup := (List.nodup_cons.1 hnd).2
    cases hcl : cleanClause st cc with
    | abort a st1 => rw [cleanClausesLoop_abort _ _ _ _ _ _ hcl] at h; cases h
    | done b st1 =>
      rw [hcl] at hres fv fc ffree
      have hres1 : (cleanClause s cc).result = some b := hres.symm
      simp only [Outcome.state] at fv fc ffree
      have hc1 : ∀ c ∈ rest, st1.clauses c = s.clauses c := by
        intro c hcm
        rw [fc c (fun e => hcc (e ▸ hcm))]
        exact hc c (by simp [hcm])
      cases b with
      | true =>
        rw [cleanClausesLoop_done_true _ _ _ _ _ hcl] at h
        obtain ⟨h1, h2, h3⟩ := ih kept (st1.clauseFree cc) hnd1 (by rw [← hv, ← fv]; rfl) hc1 h
        refine ⟨?_, ?_, ?_⟩
        · rw [h1]; simp [hres1]
        rotate_left
        · intro c hcm
          rcases List.mem_cons.1 hcm with rfl | hcm
          · exact Or.inl hres1
          · exact h3 c hcm
        · have hone : freedBy [Call.clauseFree cc] = [cc] := rfl
          rw [h2]
          simp [Solver.clauseFree, freedBy_append, ffree, hres1, hone]
      | false =>
        rw [cleanClausesLoop_done_false _ _ _ _ _ hcl] at h
        obtain ⟨h1, h2, h3⟩ := ih (kept ++ [cc]) st1 hnd1 (by rw [← hv, ← fv]) hc1 h
        refine ⟨?_, ?_, ?_⟩
        · rw [h1]; simp [hres1]
        rotate_left
        · intro c hcm
          rcases List.mem_cons.1 hcm with rfl | hcm
          · exact Or.inr hres1
          · exact h3 c hcm
        · rw [h2, ffree]; simp [hres1]

theorem cleanClausesLoop_returns (rest kept : List Nat) (st s1 : Solver) (cs1 : List Nat)
    (h : cleanClausesLoop rest kept st = Outcome.done cs1 s1) :
    (cleanReturns rest st).length = rest.length ∧
      cs1 = kept ++ withReturn rest (cleanReturns rest st) false ∧
      freedBy s1.calls = freedBy st.calls ++ withReturn rest (cleanReturns rest st) true := by
  induction rest generalizing kept st with
  | nil =>
    simp only [cleanClausesLoop, Outcome.done.injEq] at h
    obtain ⟨rfl, rfl⟩ := h
    simp [cleanReturns, withReturn]
  | cons cc rest ih =>
    have ffree := (cleanClause_frame st cc).2.2
    cases hcl : cleanClause st cc with
    | abort a st1 => rw [cleanClausesLoop_abort _ _ _ _ _ _ hcl] at h; cases h
    | done b st1 =>
      rw [hcl] at ffree
      simp only [Outcome.state] at ffree
      cases b with
      | true =>
        rw [cleanClausesLoop_done_true _ _ _ _ _ hcl] at h
        obtain ⟨h1, h2, h3⟩ := ih kept (st1.clauseFree cc) h
        have hone : freedBy [Call.clauseFree cc] = [cc] := rfl
        simp only [cleanReturns, hcl]
        refine ⟨by simp [h1], ?_, ?_⟩
        · rw [h2]; simp [withReturn]
        · rw [h3]
          simp [withReturn, Solver.clauseFree, freedBy_append, ffree, hone]
      | false =>
        rw [cleanClausesLoop_done_false _ _ _ _ _ hcl] at h
        obtain ⟨h1, h2, h3⟩ := ih (kept ++ [cc]) st1 h
        simp only [cleanReturns, hcl]
        refine ⟨by simp [h1], ?_, ?_⟩
        · rw [h2]; simp [withReturn]
        · rw [h3, ffree]; simp [withReturn]

/-- C7: when `cleanClauses` completes on the list `cs`, one call of
`cleanClause` was made, and returned, for each entry of `cs`; the resulting
list holds, in their original order, exactly the entries of `cs` whose call
returned `false`; and the addresses passed to `clauseFree` during the sweep
are, one call each and in order, exactly the entries whose call returned
`true`. When the addresses of `cs` are distinct, the value returned on a
clause is the one `cleanClause` returns on it in the state the sweep started
in, so the resulting list is `cs` filtered by "returns `false`" and the freed
clauses are `cs` filtered by "returns `true`". -/
theorem cleanClauses_filter (s s1 : Solver) (cs cs1 : List Nat)
    (h : cleanClauses s cs = Outcome.done cs1 s1) :
    (cleanReturns cs s).length = cs.length ∧
      cs1 = withReturn cs (cleanReturns cs s) false ∧
      freedBy s1.calls = freedBy s.calls ++ withReturn cs (cleanReturns cs s) true ∧
      (cs.Nodup →
        cs1 = cs.filter (fun cc => decide ((cleanClause s cc).result = some false)) ∧
        freedBy s1.calls = freedBy s.calls ++
          cs.filter (fun cc => decide ((cleanClause s cc).result = some true)) ∧
        ∀ cc ∈ cs, (cleanClause s cc).result = some true ∨
          (cleanClause s cc).result = some false) := by
  unfold cleanClauses at h
  by_cases h1 : s.decisionLevel ≠ 0
  · simp [h1] at h
  · by_cases h2 : s.qhead ≠ s.trailSize
    · simp [h1, h2] at h
    · rw [if_neg h1, if_neg h2] at h
      obtain ⟨r1, r2, r3⟩ := cleanClausesLoop_returns cs [] s s1 cs1 h
      refine ⟨r1, by simpa using r2, r3, fun hnd => ?_⟩
      simpa using cleanClausesLoop_filter s cs [] s s1 cs1 hnd rfl (fun _ _ => rfl) h

/-- Witness for C7: on the list `[1, 0, 6, 4]` of `exampleExplicit` the sweep
keeps the clauses 1 and 6 and frees the clauses 0 and 4. -/
theorem cleanClauses_filter_witness :
    [1, 6] = withReturn [1, 0, 6, 4] (cleanReturns [1, 0, 6, 4] exampleExplicit) false ∧
      [1, 6] = [1, 0, 6, 4].filter
        (fun cc => decide ((cleanClause exampleExplicit cc).result = some false)) ∧
      freedBy (cleanClauses exampleExplicit [1, 0, 6, 4]).state.calls =
        freedBy exampleExplicit.calls ++ [1, 0, 6, 4].filter
          (fun cc => decide ((cleanClause exampleExplicit cc).result = some true)) ∧
      freedBy (cleanClauses exampleExplicit [1, 0, 6, 4]).state.calls = [0, 4] :=
  ⟨(cleanClauses_filter exampleExplicit (cleanClauses exampleExplicit [1, 0, 6, 4]).state
      [1, 0, 6, 4] [1, 6] rfl).2.1,
   ((cleanClauses_filter exampleExplicit (cleanClauses exampleExplicit [1, 0, 6, 4]).state
      [1, 0, 6, 4] [1, 6] rfl).2.2.2 (by decide)).1,
   ((cleanClauses_filter exampleExplicit (cleanClauses exampleExplicit [1, 0, 6, 4]).state
      [1, 0, 6, 4] [1, 6] rfl).2.2.2 (by decide)).2.1,
   by decide⟩

/-! ## The binary clauses enqueued by the scan -/

theorem talliedTable_toAttach (value : Lit → lbool) (base : Nat) (table : List (List Watched))
    (loc : Locals) :
    (talliedTable value base table loc).toAttach =
      loc.toAttach ++ enqueuedTable value base table := by
  induction table generalizing base loc with
  | nil => simp [talliedTable, enqueuedTable]
  | cons ws rest ih => simp [talliedTable, enqueuedTable, ih, tallied]

theorem eraseWatch_getElem?_ne (table : List (List Watched)) (i j : Nat) (w : Watched)
    (h : j ≠ i) : (eraseWatch table i w)[j]? = table[j]? := by
  induction table generalizing i j with
  | nil => simp [eraseWatch]
  | cons ws rest ih =>
    cases i with
    | zero =>
      cases j with
      | zero => exact absurd rfl h
      | succ m => simp [eraseWatch]
    | succ n =>
      cases j with
      | zero => simp [eraseWatch]
      | succ m =>
        simp only [eraseWatch, List.getElem?_cons_succ]
        exact ih n m (fun e => h (by rw [e]))

theorem enqueuedTable_eraseWatch (value : Lit → lbool) (base : Nat)
    (table : List (List Watched)) (i : Nat) (w : Watched) (ws : List Watched)
    (hi : table[i]? = some ws) (hw : w ∈ ws) :
    List.Perm (enqueuedTable value base table)
      (enqueued value (base + i) w ++ enqueuedTable value base (eraseWatch table i w)) := by
  induction table generalizing base i with
  | nil => simp at hi
  | cons l rest ih =>
    cases i with
    | zero =>
      simp only [List.getElem?_cons_zero, Option.some.injEq] at hi
      subst hi
      simp only [enqueuedTable, eraseWatch, Nat.add_zero]
      have h1 : List.Perm (l.flatMap (enqueued value base))
          ((w :: l.erase w).flatMap (enqueued value base)) :=
        List.Perm.flatMap_right _ (List.perm_cons_erase hw)
      rw [List.flatMap_cons] at h1
      rw [← List.append_assoc]
      exact List.Perm.append h1 (List.Perm.refl _)
    | succ n =>
      simp only [List.getElem?_cons_succ] at hi
      have h1 := ih (base + 1) n hi
      have e : base + 1 + n = base + (n + 1) := by omega
      rw [e] at h1
      simp only [enqueuedTable, eraseWatch]
      refine (List.Perm.append (List.Perm.refl _) h1).trans ?_
      rw [← List.append_assoc, ← List.append_assoc]
      exact List.Perm.append List.perm_append_comm (List.Perm.refl _)

theorem tablePasses_eraseWatch (value : Lit → lbool) (base : Nat)
    (table : List (List Watched)) (i : Nat) (w : Watched)
    (h : tablePasses value base table = true) :
    tablePasses value base (eraseWatch table i w) = true := by
  induction table generalizing base i with
  | nil => simp [eraseWatch, tablePasses]
  | cons l rest ih =>
    simp only [tablePasses, Bool.and_eq_true, List.all_eq_true] at h
    cases i with
    | zero =>
      simp only [eraseWatch, tablePasses, Bool.and_eq_true, List.all_eq_true, h.2, and_true]
      exact fun x hx => h.1 x (List.mem_of_mem_erase hx)
    | succ n =>
      simp only [eraseWatch, tablePasses, Bool.and_eq_true, List.all_eq_true]
      exact ⟨h.1, ih _ _ h.2⟩

theorem attachAll_calls (bs : List BinaryClause) (s : Solver) :
    (attachAll bs s).calls = s.calls ++ bs.map attachCall := by
  induction bs generalizing s with
  | nil => simp [attachAll]
  | cons b rest ih =>
    simp only [attachAll, List.foldl_cons] at ih ⊢
    rw [ih]
    simp [Solver.attachBinClause, attachCall]

theorem enqueued_of_not_lt (value : Lit → lbool) (lit l1 l2 : Lit) (learnt : Bool)
    (h : ¬ lit < l1) : enqueued value lit (Watched.tri l1 l2 learnt) = [] := by
  cases h1 : value lit <;> cases h2 : value l1 <;> cases h3 : value l2 <;>
    simp [enqueued, treatTri, Watched.isTri, Watched.lit1, Watched.lit2, h, h1, h2, h3]

theorem enqueued_of_lt (value : Lit → lbool) (a b c : Lit) (learnt : Bool) (u v : Lit)
    (hab : a < b)
    (hval : (value a = l_False ∧ value b = l_Undef ∧ value c = l_Undef ∧ u = b ∧ v = c) ∨
      (value a = l_Undef ∧ value b = l_False ∧ value c = l_Undef ∧ u = a ∧ v = c) ∨
      (value a = l_Undef ∧ value b = l_Undef ∧ value c = l_False ∧ u = a ∧ v = b)) :
    enqueued value a (Watched.tri b c learnt) = [BinaryClause.mk u v learnt] := by
  rcases hval with ⟨h1, h2, h3, rfl, rfl⟩ | ⟨h1, h2, h3, rfl, rfl⟩ | ⟨h1, h2, h3, rfl, rfl⟩ <;>
    simp [enqueued, treatTri, Watched.isTri, Watched.lit1, Watched.lit2, Watched.learnt, hab,
      h1, h2, h3]

/-- Counterexample to C2 as stated: in `exampleUnsorted` the clause
`(0 ∨ 2 ∨ 4)` is stored as three ternary entries, one in the list of each of
its literals, each holding the other two literals and the same learnt flag;
4 is false, 0 and 2 are undefined. The sweep completes and attaches two
binary clauses for it, `(0, 2)` and `(2, 0)`. -/
theorem treatImplicitClauses_unsorted_counterexample :
    exampleUnsorted.watches =
        [[Watched.tri 2 4 false], [], [Watched.tri 4 0 false], [], [Watched.tri 0 2 false], []] ∧
      exampleUnsorted.value 0 = l_Undef ∧ exampleUnsorted.value 2 = l_Undef ∧
      exampleUnsorted.value 4 = l_False ∧
      (treatImplicitClauses (fun _ => true) exampleUnsorted).failed = none ∧
      (treatImplicitClauses (fun _ => true) exampleUnsorted).state.calls =
        [Call.attachBinClause 0 2 false, Call.attachBinClause 2 0 false] ∧
      (treatImplicitClauses (fun _ => true) exampleUnsorted).state.watches =
        [[Watched.binary 2 false, Watched.binary 2 false], [],
         [Watched.binary 0 false, Watched.binary 0 false], [], [], []] := by
  refine ⟨rfl, rfl, rfl, rfl, ?_, ?_, ?_⟩ <;> decide

/-- C2 (amended): let the ternary clause over `a < b < c` be stored as three
ternary entries, one in the list of each of its literals, each holding the
other two literals in ascending order and the flag `learnt`, with exactly one
of its literals false and the other two, `u` and `v`, undefined. When the
sweep completes, none of the three entries is left in its list; the scan
enqueues, up to order, what it enqueues on the table without the three
entries, plus exactly one binary clause, `(u, v, learnt)`; and the sweep calls
`attachBinClause` once for each enqueued clause. -/
theorem treatImplicitClauses_shrinks_once (check : Solver → Bool) (s s1 : Solver)
    (a b c : Lit) (learnt : Bool) (u v : Lit) (wa wb wc : List Watched)
    (hab : a < b) (hbc : b < c)
    (hdone : treatImplicitClauses check s = Outcome.done () s1)
    (ha : s.watches[a]? = some wa) (hea : Watched.tri b c learnt ∈ wa)
    (hb : s.watches[b]? = some wb) (heb : Watched.tri a c learnt ∈ wb)
    (hc : s.watches[c]? = some wc) (hec : Watched.tri a b learnt ∈ wc)
    (hval : (s.value a = l_False ∧ s.value b = l_Undef ∧ s.value c = l_Undef ∧ u = b ∧ v = c) ∨
      (s.value a = l_Undef ∧ s.value b = l_False ∧ s.value c = l_Undef ∧ u = a ∧ v = c) ∨
      (s.value a = l_Undef ∧ s.value b = l_Undef ∧ s.value c = l_False ∧ u = a ∧ v = b)) :
    (∀ ws, s1.watches[a]? = some ws → Watched.tri b c learnt ∉ ws) ∧
    (∀ ws, s1.watches[b]? = some ws → Watched.tri a c learnt ∉ ws) ∧
    (∀ ws, s1.watches[c]? = some ws → Watched.tri a b learnt ∉ ws) ∧
    ∃ table loc table0 loc0,
      scanWatches s.value 0 s.watches [] Locals.init = Except.ok (table, loc) ∧
      scanWatches s.value 0 (withoutTri s.watches a b c learnt) [] Locals.init =
        Except.ok (table0, loc0) ∧
      List.Perm loc.toAttach (BinaryClause.mk u v learnt :: loc0.toAttach) ∧
      s1.calls = s.calls ++ loc.toAttach.map attachCall := by
  obtain ⟨hv, -, hU⟩ := treatImplicitClauses_undef_of_done check s s1 hdone
  obtain ⟨-, hp, -, -, -, -, -, hs1, -⟩ := (treatImplicitClauses_done_iff check s s1).1 hdone
  have hnot : ¬ (s.value a = l_Undef ∧ s.value b = l_Undef ∧ s.value c = l_Undef) := by
    rcases hval with ⟨h1, -⟩ | ⟨-, h2, -⟩ | ⟨-, -, h3, -⟩
    · rw [h1]; simp
    · rw [h2]; simp
    · rw [h3]; simp
  have hiff := (tableUndef_iff s1.value 0 s1.watches).1 hU
  rw [hv] at hiff
  refine ⟨?_, ?_, ?_, ?_⟩
  · intro ws hws hmem
    have := hiff a ws hws _ hmem
    simp only [allUndef, Nat.zero_add, Bool.and_eq_true, decide_eq_true_eq] at this
    exact hnot ⟨this.1.1, this.1.2, this.2⟩
  · intro ws hws hmem
    have := hiff b ws hws _ hmem
    simp only [allUndef, Nat.zero_add, Bool.and_eq_true, decide_eq_true_eq] at this
    exact hnot ⟨this.1.2, this.1.1, this.2⟩
  · intro ws hws hmem
    have := hiff c ws hws _ hmem
    simp only [allUndef, Nat.zero_add, Bool.and_eq_true, decide_eq_true_eq] at this
    exact hnot ⟨this.1.2, this.2, this.1.1⟩
  · have hba : b ≠ a := Nat.ne_of_gt hab
    have hca : c ≠ a := Nat.ne_of_gt (Nat.lt_trans hab hbc)
    have hcb : c ≠ b := Nat.ne_of_gt hbc
    have hp0 : tablePasses s.value 0 (withoutTri s.watches a b c learnt) = true := by
      unfold withoutTri
      exact tablePasses_eraseWatch _ _ _ _ _
        (tablePasses_eraseWatch _ _ _ _ _ (tablePasses_eraseWatch _ _ _ _ _ hp))
    refine ⟨_, _, _, _, scanWatches_of_passes s.value 0 s.watches [] Locals.init hp,
      scanWatches_of_passes s.value 0 _ [] Locals.init hp0, ?_, ?_⟩
    · rw [talliedTable_toAttach, talliedTable_toAttach]
      simp only [Locals.init, List.nil_append]
      have e1 := enqueuedTable_eraseWatch s.value 0 s.watches a _ wa ha hea
      have hb1 : (eraseWatch s.watches a (Watched.tri b c learnt))[b]? = some wb := by
        rw [eraseWatch_getElem?_ne _ _ _ _ hba]; exact hb
      have e2 := enqueuedTable_eraseWatch s.value 0 _ b _ wb hb1 heb
      have hc1 : (eraseWatch (eraseWatch s.watches a (Watched.tri b c learnt)) b
          (Watched.tri a c learnt))[c]? = some wc := by
        rw [eraseWatch_getElem?_ne _ _ _ _ hcb, eraseWatch_getElem?_ne _ _ _ _ hca]; exact hc
      have e3 := enqueuedTable_eraseWatch s.value 0 _ c _ wc hc1 hec
      rw [Nat.zero_add] at e1 e2 e3
      rw [enqueued_of_lt s.value a b c learnt u v hab hval] at e1
      rw [enqueued_of_not_lt s.value b a c learnt (Nat.lt_asymm hab), List.nil_append] at e2
      rw [enqueued_of_not_lt s.value c a b learnt (Nat.lt_asymm (Nat.lt_trans hab hbc)),
        List.nil_append] at e3
      unfold withoutTri
      exact e1.trans (List.Perm.cons _ (e2.trans e3))
    · rw [hs1]
      simp only [applyTallies]
      rw [attachAll_calls]

/-- Witness for C2 (amended): the clause `(0 ∨ 2 ∨ 4)` of `exampleImplicit`,
with 4 false; the sweep attaches the binary clause `(0, 2)` and nothing
else. -/
theorem treatImplicitClauses_shrinks_once_witness :
    Watched.tri 2 4 false ∉ [Watched.clause 7, Watched.binary 2 false] ∧
      (treatImplicitClauses (fun _ => true) exampleImplicit).state.watches[0]? =
        some [Watched.clause 7, Watched.binary 2 false] ∧
      (treatImplicitClauses (fun _ => true) exampleImplicit).state.calls =
        [Call.attachBinClause 0 2 false] :=
  ⟨(treatImplicitClauses_shrinks_once (fun _ => true) exampleImplicit
      (treatImplicitClauses (fun _ => true) exampleImplicit).state 0 2 4 false 0 2
      [Watched.clause 7, Watched.tri 2 4 false, Watched.binary 5 false]
      [Watched.tri 0 4 false, Watched.binary 6 true] [Watched.tri 0 2 false]
      (by decide) (by decide) rfl rfl (by decide) rfl (by decide) rfl (by decide)
      (Or.inr (Or.inr ⟨rfl, rfl, rfl, rfl, rfl⟩))).1
      [Watched.clause 7, Watched.binary 2 false] (by decide),
   by decide, by decide⟩

/-! ## The tallies of removed entries -/

theorem talliedTable_eq (value : Lit → lbool) (base : Nat) (table : List (List Watched))
    (loc : Locals) :
    talliedTable value base table loc =
      { remNonLBin := loc.remNonLBin + (located base table).countP
          (fun e => e.2.isBinary && !e.2.learnt && removes value e.1 e.2)
        remLBin := loc.remLBin + (located base table).countP
          (fun e => e.2.isBinary && e.2.learnt && removes value e.1 e.2)
        remNonLTri := loc.remNonLTri + (located base table).countP
          (fun e => e.2.isTri && !e.2.learnt && removes value e.1 e.2)
        remLTri := loc.remLTri + (located base table).countP
          (fun e => e.2.isTri && e.2.learnt && removes value e.1 e.2)
        toAttach := loc.toAttach ++ enqueuedTable value base table } := by
  induction table generalizing base loc with
  | nil => simp [talliedTable, located, enqueuedTable]
  | cons ws rest ih =>
    simp only [talliedTable, ih, tallied, located, enqueuedTable, List.countP_append,
      List.countP_map, List.append_assoc, Nat.add_assoc]
    rfl

theorem located_keptTable (value : Lit → lbool) (base : Nat) (table : List (List Watched)) :
    located base (keptTable value base table) =
      (located base table).filter (fun e => !removes value e.1 e.2) := by
  induction table generalizing base with
  | nil => simp [keptTable, located]
  | cons ws rest ih =>
    simp only [keptTable, located, ih, List.filter_append, List.filter_map]
    rfl

theorem countP_removed_add (value : Lit → lbool) (l : List (Lit × Watched))
    (q : Lit × Watched → Bool) :
    l.countP (fun e => q e && removes value e.1 e.2) +
      (l.filter (fun e => !removes value e.1 e.2)).countP q = l.countP q := by
  rw [List.countP_eq_countP_filter_add l q (fun e => removes value e.1 e.2)]
  simp only [List.countP_filter]

theorem countP_flatten_mod (k : Nat) (P : Lit × Watched → Bool)
    (groups : List (List (Lit × Watched))) (h : ∀ g ∈ groups, g.countP P % k = 0) :
    groups.flatten.countP P % k = 0 := by
  induction groups with
  | nil => simp
  | cons g rest ih =>
    rw [List.flatten_cons, List.countP_append, Nat.add_mod, h g (by simp),
      ih (fun g1 hg1 => h g1 (by simp [hg1]))]
    simp

theorem countP_of_perm_filter (P kind : Lit × Watched → Bool) (l l1 : List (Lit × Watched))
    (hP : ∀ e, P e = true → kind e = true) (hperm : List.Perm (l.filter kind) l1) :
    l.countP P = l1.countP P := by
  rw [← List.Perm.countP_eq P hperm, List.countP_filter]
  congr 1
  funext e
  cases h : P e
  · simp
  · simp [hP e h]

theorem binGroup_countP (value : Lit → lbool) (flag : Bool) (g : List (Lit × Watched))
    (hg : isBinGroup g) :
    g.countP (fun e => e.2.isBinary && (e.2.learnt == flag) && removes value e.1 e.2) % 2 = 0 := by
  obtain ⟨x, y, learnt, rfl⟩ := hg
  cases h1 : value x <;> cases h2 : value y <;> cases learnt <;> cases flag <;>
    simp [List.countP_cons, removes, Watched.isBinary, Watched.learnt, h1, h2]

theorem removes_tri_swap (value : Lit → lbool) (a b c : Lit) (l : Bool) :
    removes value a (Watched.tri c b l) = removes value a (Watched.tri b c l) := by
  cases h1 : value a <;> cases h2 : value b <;> cases h3 : value c <;>
    simp [removes, h1, h2, h3]

theorem removes_tri_second (value : Lit → lbool) (a b c : Lit) (l : Bool) :
    removes value b (Watched.tri a c l) = removes value a (Watched.tri b c l) := by
  cases h1 : value a <;> cases h2 : value b <;> cases h3 : value c <;>
    simp [removes, h1, h2, h3]

theorem removes_tri_third (value : Lit → lbool) (a b c : Lit) (l : Bool) :
    removes value c (Watched.tri a b l) = removes value a (Watched.tri b c l) := by
  cases h1 : value a <;> cases h2 : value b <;> cases h3 : value c <;>
    simp [removes, h1, h2, h3]

theorem triGroup_countP (value : Lit → lbool) (flag : Bool) (g : List (Lit × Watched))
    (hg : isTriGroup g) :
    g.countP (fun e => e.2.isTri && (e.2.learnt == flag) && removes value e.1 e.2) % 3 = 0 := by
  obtain ⟨a, b, c, learnt, wa, wb, wc, rfl, ha, hb, hc⟩ := hg
  have pa : (wa.isTri && (wa.learnt == flag) && removes value a wa) =
      ((learnt == flag) && removes value a (Watched.tri b c learnt)) := by
    rcases ha with rfl | rfl
    · simp [Watched.isTri, Watched.learnt]
    · rw [removes_tri_swap value a b c]; simp [Watched.isTri, Watched.learnt]
  have pb : (wb.isTri && (wb.learnt == flag) && removes value b wb) =
      ((learnt == flag) && removes value a (Watched.tri b c learnt)) := by
    rcases hb with rfl | rfl
    · rw [removes_tri_second value a b c]; simp [Watched.isTri, Watched.learnt]
    · rw [removes_tri_swap value b a c, removes_tri_second value a b c]
      simp [Watched.isTri, Watched.learnt]
  have pc : (wc.isTri && (wc.learnt == flag) && removes value c wc) =
      ((learnt == flag) && removes value a (Watched.tri b c learnt)) := by
    rcases hc with rfl | rfl
    · rw [removes_tri_third value a b c]; simp [Watched.isTri, Watched.learnt]
    · rw [removes_tri_swap value c a b, removes_tri_third value a b c]
      simp [Watched.isTri, Watched.learnt]
  simp only [List.countP_cons, List.countP_nil, pa, pb, pc]
  cases ((learnt == flag) && removes value a (Watched.tri b c learnt)) <;> simp

theorem scanWatchList_error_kind (value : Lit → lbool) (lit : Lit) (ws kept : List Watched)
    (loc : Locals) (a : Assertion) (k : List Watched)
    (h : scanWatchList value lit ws kept loc = Except.error (a, k)) :
    a = Assertion.binLit1Undef ∨ a = Assertion.binLitUndef := by
  induction ws generalizing kept loc with
  | nil => simp [scanWatchList] at h
  | cons w rest ih =>
    cases w with
    | clause off =>
      simp only [scanWatchList, Watched.isClause, if_true] at h
      exact ih _ _ h
    | binary l1 learnt =>
      cases h1 : value lit <;> cases h2 : value l1 <;> cases learnt <;>
        simp [scanWatchList, Watched.isClause, Watched.isBinary, satisfied,
          Watched.lit1, Watched.learnt, h1, h2] at h <;>
        first
          | exact ih _ _ h
          | exact Or.inl h.1.symm
          | exact Or.inr h.1.symm
    | tri l1 l2 learnt =>
      simp only [scanWatchList, Watched.isClause, Watched.isBinary, Watched.isTri] at h
      simp only [Bool.false_eq_true, if_false, Bool.not_true] at h
      split at h
      · split at h <;> exact ih _ _ h
      · exact ih _ _ h

theorem scanWatches_error_kind (value : Lit → lbool) (base : Nat)
    (table scanned : List (List Watched)) (loc : Locals) (a : Assertion)
    (t : List (List Watched))
    (h : scanWatches value base table scanned loc = Except.error (a, t)) :
    a = Assertion.binLit1Undef ∨ a = Assertion.binLitUndef := by
  induction table generalizing base scanned loc with
  | nil => simp [scanWatches] at h
  | cons ws rest ih =>
    simp only [scanWatches, Lit.toLit] at h
    cases hws : scanWatchList value base ws [] loc with
    | error e =>
      rw [hws] at h
      obtain ⟨a1, k1⟩ := e
      simp only [Except.error.injEq, Prod.mk.injEq] at h
      rw [← h.1]
      exact scanWatchList_error_kind value base ws [] loc a1 k1 hws
    | ok r =>
      rw [hws] at h
      exact ih _ _ _ h

theorem parity_abort_of_treatImplicitClauses (check : Solver → Bool) (s st : Solver)
    (a : Assertion) (h : treatImplicitClauses check s = Outcome.abort a st)
    (ha : a = Assertion.parityNonLBin ∨ a = Assertion.parityLBin ∨
      a = Assertion.parityNonLTri ∨ a = Assertion.parityLTri) :
    ∃ table loc, scanWatches s.value 0 s.watches [] Locals.init = Except.ok (table, loc) ∧
      ¬ (loc.remNonLBin % 2 = 0 ∧ loc.remLBin % 2 = 0 ∧ loc.remNonLTri % 3 = 0 ∧
        loc.remLTri % 3 = 0) := by
  unfold treatImplicitClauses at h
  by_cases hl : s.decisionLevel ≠ 0
  · rw [if_pos hl] at h
    simp only [Outcome.abort.injEq] at h
    rcases ha with e | e | e | e <;> rw [e] at h <;> exact absurd h.1 (by decide)
  rw [if_neg hl] at h
  cases hscan : scanWatches s.value 0 s.watches [] Locals.init with
  | error e =>
    obtain ⟨a1, t1⟩ := e
    rw [hscan] at h
    simp only [Outcome.abort.injEq] at h
    have hk := scanWatches_error_kind _ _ _ _ _ _ _ hscan
    rw [h.1] at hk
    rcases ha with e | e | e | e <;> rw [e] at hk <;> rcases hk with k | k <;> cases k
  | ok r =>
    obtain ⟨table, loc⟩ := r
    refine ⟨table, loc, rfl, ?_⟩
    rw [hscan] at h
    simp only at h
    cases hat : attachDelayed loc.toAttach { s with watches := table } with
    | abort a1 s2 =>
      rw [hat] at h
      simp only [Outcome.abort.injEq] at h
      have hk := attachDelayed_abort_kind _ _ _ _ hat
      rw [h.1] at hk
      rcases ha with e | e | e | e <;> rw [e] at hk <;> rcases hk with k | k <;> cases k
    | done u s2 =>
      rw [hat] at h
      simp only at h
      rintro ⟨p1, p2, p3, p4⟩
      rw [if_neg (by simp [p1]), if_neg (by simp [p2]), if_neg (by simp [p3]),
        if_neg (by simp [p4])] at h
      by_cases hc : check (applyTallies s2 loc) = true
      · simp [hc] at h
      · simp only [hc, Bool.false_eq_true, if_false, Outcome.abort.injEq] at h
        rcases ha with e | e | e | e <;> rw [e] at h <;> exact absurd h.1 (by decide)

theorem located_countP_bin_mod (value : Lit → lbool) (table : List (List Watched))
    (bins : List (List (Lit × Watched))) (flag : Bool) (hbins : ∀ g ∈ bins, isBinGroup g)
    (hB : List.Perm ((located 0 table).filter (fun e => e.2.isBinary)) bins.flatten) :
    (located 0 table).countP
      (fun e => e.2.isBinary && (e.2.learnt == flag) && removes value e.1 e.2) % 2 = 0 := by
  rw [countP_of_perm_filter _ (fun e => e.2.isBinary) _ _ _ hB]
  · exact countP_flatten_mod 2 _ bins (fun g hg => binGroup_countP value flag g (hbins g hg))
  · intro e he
    simp only [Bool.and_eq_true] at he
    exact he.1.1

theorem located_countP_tri_mod (value : Lit → lbool) (table : List (List Watched))
    (tris : List (List (Lit × Watched))) (flag : Bool) (htris : ∀ g ∈ tris, isTriGroup g)
    (hT : List.Perm ((located 0 table).filter (fun e => e.2.isTri)) tris.flatten) :
    (located 0 table).countP
      (fun e => e.2.isTri && (e.2.learnt == flag) && removes value e.1 e.2) % 3 = 0 := by
  rw [countP_of_perm_filter _ (fun e => e.2.isTri) _ _ _ hT]
  · exact countP_flatten_mod 3 _ tris (fun g hg => triGroup_countP value flag g (htris g hg))
  · intro e he
    simp only [Bool.and_eq_true] at he
    exact he.1.1

theorem not_eq_beq_false (kind : Watched → Bool) (value : Lit → lbool) :
    (fun e : Lit × Watched => kind e.2 && !e.2.learnt && removes value e.1 e.2) =
      (fun e => kind e.2 && (e.2.learnt == false) && removes value e.1 e.2) := by
  funext e
  cases e.2.learnt <;> simp

theorem eq_beq_true (kind : Watched → Bool) (value : Lit → lbool) :
    (fun e : Lit × Watched => kind e.2 && e.2.learnt && removes value e.1 e.2) =
      (fun e => kind e.2 && (e.2.learnt == true) && removes value e.1 e.2) := by
  funext e
  cases e.2.learnt <;> simp

/-- C3: let the binary entries of the table be, up to order, the two entries
of each clause of a list of binary clauses (one in the list of each of its
literals, same learnt flag), and its ternary entries the three entries of
each clause of a list of ternary clauses (one in the list of each of its
literals, each holding the other two, same learnt flag). Then whenever the
scan of the table reaches its end, each of the four tallies is the number of
entries of its kind (binary or ternary, learnt or not) that the scan took out
of the table, the two binary tallies are even and the two ternary tallies are
multiples of 3; so `treatImplicitClauses` never stops at one of the four
parity assertions. -/
theorem treatImplicitClauses_parity (check : Solver → Bool) (s : Solver)
    (bins tris : List (List (Lit × Watched)))
    (hbins : ∀ g ∈ bins, isBinGroup g) (htris : ∀ g ∈ tris, isTriGroup g)
    (hB : List.Perm ((located 0 s.watches).filter (fun e => e.2.isBinary)) bins.flatten)
    (hT : List.Perm ((located 0 s.watches).filter (fun e => e.2.isTri)) tris.flatten) :
    (∀ table loc, scanWatches s.value 0 s.watches [] Locals.init = Except.ok (table, loc) →
      (loc.remNonLBin + (located 0 table).countP (fun e => e.2.isBinary && !e.2.learnt) =
          (located 0 s.watches).countP (fun e => e.2.isBinary && !e.2.learnt) ∧
        loc.remLBin + (located 0 table).countP (fun e => e.2.isBinary && e.2.learnt) =
          (located 0 s.watches).countP (fun e => e.2.isBinary && e.2.learnt) ∧
        loc.remNonLTri + (located 0 table).countP (fun e => e.2.isTri && !e.2.learnt) =
          (located 0 s.watches).countP (fun e => e.2.isTri && !e.2.learnt) ∧
        loc.remLTri + (located 0 table).countP (fun e => e.2.isTri && e.2.learnt) =
          (located 0 s.watches).countP (fun e => e.2.isTri && e.2.learnt)) ∧
      loc.remNonLBin % 2 = 0 ∧ loc.remLBin % 2 = 0 ∧
      loc.remNonLTri % 3 = 0 ∧ loc.remLTri % 3 = 0) ∧
    (∀ st, treatImplicitClauses check s ≠ Outcome.abort Assertion.parityNonLBin st) ∧
    (∀ st, treatImplicitClauses check s ≠ Outcome.abort Assertion.parityLBin st) ∧
    (∀ st, treatImplicitClauses check s ≠ Outcome.abort Assertion.parityNonLTri st) ∧
    (∀ st, treatImplicitClauses check s ≠ Outcome.abort Assertion.parityLTri st) := by
  have hscan : ∀ table loc,
      scanWatches s.value 0 s.watches [] Locals.init = Except.ok (table, loc) →
      (loc.remNonLBin + (located 0 table).countP (fun e => e.2.isBinary && !e.2.learnt) =
          (located 0 s.watches).countP (fun e => e.2.isBinary && !e.2.learnt) ∧
        loc.remLBin + (located 0 table).countP (fun e => e.2.isBinary && e.2.learnt) =
          (located 0 s.watches).countP (fun e => e.2.isBinary && e.2.learnt) ∧
        loc.remNonLTri + (located 0 table).countP (fun e => e.2.isTri && !e.2.learnt) =
          (located 0 s.watches).countP (fun e => e.2.isTri && !e.2.learnt) ∧
        loc.remLTri + (located 0 table).countP (fun e => e.2.isTri && e.2.learnt) =
          (located 0 s.watches).countP (fun e => e.2.isTri && e.2.learnt)) ∧
      loc.remNonLBin % 2 = 0 ∧ loc.remLBin % 2 = 0 ∧
      loc.remNonLTri % 3 = 0 ∧ loc.remLTri % 3 = 0 := by
    intro table loc h
    have hp := scanWatches_passes_of_ok _ _ _ _ _ _ h
    rw [scanWatches_of_passes s.value 0 s.watches [] Locals.init hp] at h
    simp only [List.nil_append, Except.ok.injEq, Prod.mk.injEq] at h
    obtain ⟨rfl, rfl⟩ := h
    rw [talliedTable_eq, located_keptTable]
    simp only [Locals.init, Nat.zero_add]
    refine ⟨⟨countP_removed_add s.value _ _, countP_removed_add s.value _ _,
      countP_removed_add s.value _ _, countP_removed_add s.value _ _⟩, ?_, ?_, ?_, ?_⟩
    · rw [not_eq_beq_false]
      exact located_countP_bin_mod s.value s.watches bins false hbins hB
    · rw [eq_beq_true]
      exact located_countP_bin_mod s.value s.watches bins true hbins hB
    · rw [not_eq_beq_false]
      exact located_countP_tri_mod s.value s.watches tris false htris hT
    · rw [eq_beq_true]
      exact located_countP_tri_mod s.value s.watches tris true htris hT
  refine ⟨hscan, ?_, ?_, ?_, ?_⟩ <;> intro st h
  · obtain ⟨table, loc, h1, h2⟩ := parity_abort_of_treatImplicitClauses check s st _ h (Or.inl rfl)
    exact h2 (hscan table loc h1).2
  · obtain ⟨table, loc, h1, h2⟩ :=
      parity_abort_of_treatImplicitClauses check s st _ h (Or.inr (Or.inl rfl))
    exact h2 (hscan table loc h1).2
  · obtain ⟨table, loc, h1, h2⟩ :=
      parity_abort_of_treatImplicitClauses check s st _ h (Or.inr (Or.inr (Or.inl rfl)))
    exact h2 (hscan table loc h1).2
  · obtain ⟨table, loc, h1, h2⟩ :=
      parity_abort_of_treatImplicitClauses check s st _ h (Or.inr (Or.inr (Or.inr rfl)))
    exact h2 (hscan table loc h1).2

/-- Witness for C3: the table of `exampleImplicit` stores two binary clauses
and one ternary clause; the scan removes 2 non-learnt binary entries and 3
non-learnt ternary entries. -/
theorem treatImplicitClauses_parity_witness :
    scanWatches exampleImplicit.value 0 exampleImplicit.watches [] Locals.init =
        Except.ok
          ([[Watched.clause 7], [], [Watched.binary 6 true], [], [], [],
            [Watched.binary 2 true], [Watched.clause 7]],
           { remNonLBin := 2, remLBin := 0, remNonLTri := 3, remLTri := 0,
             toAttach := [BinaryClause.mk 0 2 false] }) ∧
      (2 % 2 = 0 ∧ 0 % 2 = 0 ∧ 3 % 3 = 0 ∧ 0 % 3 = 0) :=
  ⟨rfl,
   ((treatImplicitClauses_parity (fun _ => true) exampleImplicit
      [[(0, Watched.binary 5 false), (5, Watched.binary 0 false)],
       [(2, Watched.binary 6 true), (6, Watched.binary 2 true)]]
      [[(0, Watched.tri 2 4 false), (2, Watched.tri 0 4 false), (4, Watched.tri 0 2 false)]]
      (by
        intro g hg
        simp only [List.mem_cons, List.mem_singleton, List.not_mem_nil, or_false] at hg
        rcases hg with rfl | rfl
        · exact ⟨0, 5, false, rfl⟩
        · exact ⟨2, 6, true, rfl⟩)
      (by
        intro g hg
        simp only [List.mem_singleton] at hg
        subst hg
        exact ⟨0, 2, 4, false, _, _, _, rfl, Or.inl rfl, Or.inl rfl, Or.inl rfl⟩)
      (by decide) (by decide)).1
      [[Watched.clause 7], [], [Watched.binary 6 true], [], [], [],
        [Watched.binary 2 true], [Watched.clause 7]]
      { remNonLBin := 2, remLBin := 0, remNonLTri := 3, remLTri := 0,
        toAttach := [BinaryClause.mk 0 2 false] } rfl).2⟩

/-! ## The scan, list by list and entry by entry -/

theorem removes_clause (value : Lit → lbool) (lit : Lit) (w : Watched)
    (h : w.isClause = true) : removes value lit w = false := by
  cases w <;> simp [Watched.isClause, removes] at h ⊢

theorem filter_isClause_kept (value : Lit → lbool) (lit : Lit) (ws : List Watched) :
    (ws.filter (fun w => !removes value lit w)).filter Watched.isClause =
      ws.filter Watched.isClause := by
  rw [List.filter_filter]
  apply List.filter_congr
  intro w _
  cases hc : w.isClause
  · simp
  · simp [removes_clause value lit w hc]

/-- C20: when the scan phase of the implicit sweep reaches its end, the table
has as many lists as before, and the list of every literal is its old list
without the entries the scan drops (`removes`: binary entries with a true
literal, ternary entries with a true or false literal), the other entries in
their old order; every clause-reference entry is still there, the
clause-reference entries of the new list are those of the old list in the
same order, and every entry of the new list is an entry of the old one. -/
theorem scanWatches_subsequence (value : Lit → lbool) (table table1 : List (List Watched))
    (loc : Locals)
    (h : scanWatches value 0 table [] Locals.init = Except.ok (table1, loc)) :
    table1.length = table.length ∧
    ∀ (lit : Lit) (ws : List Watched), table[lit]? = some ws →
      ∃ ws1, table1[lit]? = some ws1 ∧
        ws1 = ws.filter (fun w => !removes value lit w) ∧
        List.Sublist ws1 ws ∧
        ws1.filter Watched.isClause = ws.filter Watched.isClause ∧
        (∀ w ∈ ws, w.isClause = true → w ∈ ws1) ∧
        (∀ w ∈ ws, w ∉ ws1 → (w.isBinary = true ∨ w.isTri = true) ∧
          removes value lit w = true) := by
  have hp := scanWatches_passes_of_ok _ _ _ _ _ _ h
  rw [scanWatches_of_passes value 0 table [] Locals.init hp] at h
  simp only [List.nil_append, Except.ok.injEq, Prod.mk.injEq] at h
  obtain ⟨rfl, -⟩ := h
  refine ⟨keptTable_length value 0 table, fun lit ws hws => ?_⟩
  refine ⟨ws.filter (fun w => !removes value lit w), ?_, rfl, List.filter_sublist ws,
    filter_isClause_kept value lit ws, ?_, ?_⟩
  · rw [keptTable_getElem?, hws, Nat.zero_add]; rfl
  · intro w hw hc
    rw [List.mem_filter]
    exact ⟨hw, by simp [removes_clause value lit w hc]⟩
  · intro w hw hnot
    have hr : removes value lit w = true := by
      by_contra hr
      exact hnot (List.mem_filter.2 ⟨hw, by simpa using hr⟩)
    refine ⟨?_, hr⟩
    cases w with
    | clause off => simp [removes] at hr
    | binary l1 learnt => exact Or.inl rfl
    | tri l1 l2 learnt => exact Or.inr rfl

/-- Witness for C20: the scan of the table of `exampleImplicit`; the list of
literal 0 keeps its clause reference and loses its ternary and its binary
entry. -/
theorem scanWatches_subsequence_witness :
    ([[Watched.clause 7], [], [Watched.binary 6 true], [], [], [],
        [Watched.binary 2 true], [Watched.clause 7]] : List (List Watched)).length =
      exampleImplicit.watches.length :=
  (scanWatches_subsequence exampleImplicit.value exampleImplicit.watches
    [[Watched.clause 7], [], [Watched.binary 6 true], [], [], [],
      [Watched.binary 2 true], [Watched.clause 7]]
    { remNonLBin := 2, remLBin := 0, remNonLTri := 3, remLTri := 0,
      toAttach := [BinaryClause.mk 0 2 false] } rfl).1

/-- C18: for a ternary clause over `a < b < c` whose three entries store their
two peers in ascending order, in each of the three cases (`a` false, `b`
false, or `c` false, the other two undefined) the guard `lit < i->lit1()`
holds for the entry in the list of `a` and fails for the entries in the lists
of `b` and `c`: all three entries are removed, the entry of `a` pushes exactly
one binary clause on `toAttach`, `(b, c)`, `(a, c)` or `(a, b)` respectively,
with the learnt flag of the clause, and the other two entries push nothing. -/
theorem treatTri_leader (value : Lit → lbool) (a b c : Lit) (learnt : Bool)
    (ta : List BinaryClause) (hab : a < b) (hbc : b < c) :
    (a < b ∧ ¬ b < a ∧ ¬ c < a) ∧
    (value a = l_False → value b = l_Undef → value c = l_Undef →
      treatTri value a (Watched.tri b c learnt) ta = (true, ta ++ [BinaryClause.mk b c learnt]) ∧
      treatTri value b (Watched.tri a c learnt) ta = (true, ta) ∧
      treatTri value c (Watched.tri a b learnt) ta = (true, ta)) ∧
    (value a = l_Undef → value b = l_False → value c = l_Undef →
      treatTri value a (Watched.tri b c learnt) ta = (true, ta ++ [BinaryClause.mk a c learnt]) ∧
      treatTri value b (Watched.tri a c learnt) ta = (true, ta) ∧
      treatTri value c (Watched.tri a b learnt) ta = (true, ta)) ∧
    (value a = l_Undef → value b = l_Undef → value c = l_False →
      treatTri value a (Watched.tri b c learnt) ta = (true, ta ++ [BinaryClause.mk a b learnt]) ∧
      treatTri value b (Watched.tri a c learnt) ta = (true, ta) ∧
      treatTri value c (Watched.tri a b learnt) ta = (true, ta)) := by
  have hba : ¬ b < a := Nat.lt_asymm hab
  have hca : ¬ c < a := Nat.lt_asymm (Nat.lt_trans hab hbc)
  refine ⟨⟨hab, hba, hca⟩, ?_, ?_, ?_⟩ <;> intro h1 h2 h3 <;>
    simp [treatTri, Watched.lit1, Watched.lit2, Watched.learnt, h1, h2, h3, hab, hba, hca]

/-- Witness for C18: the clause over the literals 0, 2, 4 with 4 false; only
the entry in the list of 0 pushes a binary clause, `(0, 2)`. -/
theorem treatTri_leader_witness :
    treatTri exampleImplicit.value 0 (Watched.tri 2 4 false) [] =
        (true, [] ++ [BinaryClause.mk 0 2 false]) ∧
      treatTri exampleImplicit.value 2 (Watched.tri 0 4 false) [] = (true, []) ∧
      treatTri exampleImplicit.value 4 (Watched.tri 0 2 false) [] = (true, []) :=
  (treatTri_leader exampleImplicit.value 0 2 4 false [] (by decide) (by decide)).2.2.2
    rfl rfl rfl

theorem pushWatch_getElem? (table : List (List Watched)) (j : Lit) (w : Watched) (i : Nat) :
    (pushWatch table j w)[i]? =
      (table[i]?).map (fun ws => if i = j then ws ++ [w] else ws) := by
  induction table generalizing i j with
  | nil => simp [pushWatch]
  | cons l rest ih =>
    cases j with
    | zero =>
      cases i with
      | zero => simp [pushWatch]
      | succ n => simp [pushWatch]
    | succ m =>
      cases i with
      | zero => simp [pushWatch]
      | succ n =>
        simp only [pushWatch, List.getElem?_cons_succ, ih]
        simp

theorem pushWatch_length (table : List (List Watched)) (j : Lit) (w : Watched) :
    (pushWatch table j w).length = table.length := by
  induction table generalizing j with
  | nil => simp [pushWatch]
  | cons l rest ih =>
    cases j with
    | zero => simp [pushWatch]
    | succ m => simp [pushWatch, ih]

theorem pushWatch_mem (table : List (List Watched)) (j : Lit) (w : Watched) (i : Nat)
    (ws : List Watched) (h : table[i]? = some ws) :
    ∃ added, (pushWatch table j w)[i]? = some (ws ++ added) := by
  rw [pushWatch_getElem?, h]
  by_cases e : i = j
  · exact ⟨[w], by simp [e]⟩
  · exact ⟨[], by simp [e]⟩

theorem attachAll_watches_mem (bs : List BinaryClause) (s : Solver) (i : Nat)
    (ws : List Watched) (h : s.watches[i]? = some ws) :
    ∃ added, (attachAll bs s).watches[i]? = some (ws ++ added) := by
  induction bs generalizing s ws with
  | nil => exact ⟨[], by simpa [attachAll] using h⟩
  | cons b rest ih =>
    simp only [attachAll, List.foldl_cons] at ih ⊢
    obtain ⟨add0, h0⟩ := pushWatch_mem s.watches b.getLit1
      (Watched.binary b.getLit2 b.getLearnt) i ws h
    obtain ⟨add1, h1⟩ := pushWatch_mem _ b.getLit2
      (Watched.binary b.getLit1 b.getLearnt) i _ h0
    obtain ⟨add2, h2⟩ := ih (s.attachBinClause b.getLit1 b.getLit2 b.getLearnt) _ h1
    exact ⟨add0 ++ add1 ++ add2, by rw [h2]; simp [List.append_assoc]⟩

theorem treatImplicitClauses_aborts_of_not_passes (check : Solver → Bool) (s : Solver)
    (h : tablePasses s.value 0 s.watches = false) :
    ∃ a st, treatImplicitClauses check s = Outcome.abort a st ∧
      (a = Assertion.implicitDecisionLevel ∨ a = Assertion.binLit1Undef ∨
        a = Assertion.binLitUndef) := by
  unfold treatImplicitClauses
  by_cases hl : s.decisionLevel ≠ 0
  · exact ⟨_, _, by rw [if_pos hl], Or.inl rfl⟩
  · rw [if_neg hl]
    obtain ⟨e, he⟩ := scanWatches_error_of_not_passes s.value 0 s.watches [] Locals.init h
    obtain ⟨a, t⟩ := e
    rw [he]
    exact ⟨a, _, rfl, Or.inr (scanWatches_error_kind _ _ _ _ _ _ _ he)⟩

/-- C19: for a binary entry `(other, learnt)` of the watch list of `L`: the
loop iteration on it drops it (and tallies it) when `L` or `other` is true,
keeps it when both are undefined, and otherwise fails the assertion of line
80 or of line 81. For the whole sweep: when `L` or `other` is true, no such
entry is left in the list of `L` after a completed sweep; when both are
undefined, the entry is still in the list of `L` after a completed sweep; in
every other case (neither literal true, one of them false) the sweep does not
complete: it stops at an assertion (that of line 42, 80 or 81). -/
theorem binary_entry_fate (check : Solver → Bool) (s : Solver) (L other : Lit)
    (learnt : Bool) (ws : List Watched)
    (hws : s.watches[L]? = some ws) (hmem : Watched.binary other learnt ∈ ws) :
    (∀ rest kept loc,
      scanWatchList s.value L (Watched.binary other learnt :: rest) kept loc =
        if s.value L = l_True ∨ s.value other = l_True then
          scanWatchList s.value L rest kept
            (if learnt then { loc with remLBin := loc.remLBin + 1 }
              else { loc with remNonLBin := loc.remNonLBin + 1 })
        else if s.value other ≠ l_Undef then Except.error (Assertion.binLit1Undef, kept)
        else if s.value L ≠ l_Undef then Except.error (Assertion.binLitUndef, kept)
        else scanWatchList s.value L rest (kept ++ [Watched.binary other learnt]) loc) ∧
    (s.value L = l_True ∨ s.value other = l_True →
      ∀ s1, treatImplicitClauses check s = Outcome.done () s1 →
        ∀ ws1, s1.watches[L]? = some ws1 → Watched.binary other learnt ∉ ws1) ∧
    (s.value L = l_Undef ∧ s.value other = l_Undef →
      ∀ s1, treatImplicitClauses check s = Outcome.done () s1 →
        ∃ ws1, s1.watches[L]? = some ws1 ∧ Watched.binary other learnt ∈ ws1) ∧
    (¬ (s.value L = l_True ∨ s.value other = l_True) →
      ¬ (s.value L = l_Undef ∧ s.value other = l_Undef) →
      ∃ a st, treatImplicitClauses check s = Outcome.abort a st ∧
        (a = Assertion.implicitDecisionLevel ∨ a = Assertion.binLit1Undef ∨
          a = Assertion.binLitUndef)) := by
  refine ⟨?_, ?_, ?_, ?_⟩
  · intro rest kept loc
    cases h1 : s.value L <;> cases h2 : s.value other <;> cases learnt <;>
      simp [scanWatchList, Watched.isClause, Watched.isBinary, satisfied, Watched.lit1,
        Watched.learnt, h1, h2]
  · intro htrue s1 hdone ws1 hws1 hin
    obtain ⟨hv, -, hU⟩ := treatImplicitClauses_undef_of_done check s s1 hdone
    have := (tableUndef_iff s1.value 0 s1.watches).1 hU L ws1 hws1 _ hin
    rw [hv] at this
    simp only [allUndef, Nat.zero_add, Bool.and_eq_true, decide_eq_true_eq] at this
    rcases htrue with h | h
    · rw [this.1] at h; cases h
    · rw [this.2] at h; cases h
  · intro hundef s1 hdone
    obtain ⟨-, hp, -, -, -, -, -, hs1, -⟩ := (treatImplicitClauses_done_iff check s s1).1 hdone
    have hk : (keptTable s.value 0 s.watches)[L]? =
        some (ws.filter (fun w => !removes s.value L w)) := by
      rw [keptTable_getElem?, hws, Nat.zero_add]; rfl
    obtain ⟨added, hadd⟩ := attachAll_watches_mem
      (talliedTable s.value 0 s.watches Locals.init).toAttach
      { s with watches := keptTable s.value 0 s.watches } L _ hk
    refine ⟨_, by rw [hs1]; simpa only [applyTallies] using hadd, ?_⟩
    apply List.mem_append_left
    rw [List.mem_filter]
    exact ⟨hmem, by simp [removes, hundef.1, hundef.2]⟩
  · intro hnt hnu
    apply treatImplicitClauses_aborts_of_not_passes
    cases hp : tablePasses s.value 0 s.watches
    · rfl
    · have := (tablePasses_iff s.value 0 s.watches).1 hp L ws hws _ hmem
      simp only [passesAsserts, Nat.zero_add, Bool.or_eq_true, Bool.and_eq_true,
        decide_eq_true_eq] at this
      rcases this with h | h
      · exact absurd h hnt
      · exact absurd ⟨h.2, h.1⟩ hnu

/-- Witness for C19: in `exampleImplicit` the entry `(5, non-learnt)` of the
list of literal 0 has a true literal, 5, and is not in the list after the
sweep. -/
theorem binary_entry_fate_witness :
    Watched.binary 5 false ∉ [Watched.clause 7, Watched.binary 2 false] :=
  (binary_entry_fate (fun _ => true) exampleImplicit 0 5 false
    [Watched.clause 7, Watched.tri 2 4 false, Watched.binary 5 false] rfl (by decide)).2.1
    (Or.inr rfl) (treatImplicitClauses (fun _ => true) exampleImplicit).state rfl
    [Watched.clause 7, Watched.binary 2 false] (by decide)

/-! ## Clauses that `cleanClause` keeps -/

theorem length_eq_undef_add_false (value : Lit → lbool) (lits : List Lit)
    (h : ¬ hasTrueLit value lits) :
    lits.length = (undefLits value lits).length +
      lits.countP (fun l => decide (value l = l_False)) := by
  induction lits with
  | nil => simp [undefLits]
  | cons l rest ih =>
    have hr : ¬ hasTrueLit value rest := fun ⟨x, hx, e⟩ => h ⟨x, by simp [hx], e⟩
    have hl : value l ≠ l_True := fun e => h ⟨l, by simp, e⟩
    have := ih hr
    cases hv : value l
    · exact absurd hv hl
    · simp [undefLits, List.countP_cons, hv] at this ⊢
      omega
    · simp [undefLits, List.countP_cons, hv] at this ⊢
      omega

theorem cleanClause_kept (st st1 : Solver) (cc : Nat)
    (h : cleanClause st cc = Outcome.done false st1) :
    (st.clauses cc).lits.length > 3 ∧ ¬ hasTrueLit st.value (st.clauses cc).lits ∧
      3 < (undefLits st.value (st.clauses cc).lits).length ∧
      st1 = { st.setClause cc ⟨undefLits st.value (st.clauses cc).lits, (st.clauses cc).learnt⟩
        with
          redLits := if (st.clauses cc).learnt then
              sub64 st.redLits ((st.clauses cc).lits.length -
                (undefLits st.value (st.clauses cc).lits).length)
            else st.redLits
          irredLits := if (st.clauses cc).learnt then st.irredLits
            else sub64 st.irredLits ((st.clauses cc).lits.length -
                (undefLits st.value (st.clauses cc).lits).length) } := by
  by_cases hsize : (st.clauses cc).lits.length > 3
  swap
  · simp [cleanClause, hsize] at h
  by_cases ht : hasTrueLit st.value (st.clauses cc).lits
  · obtain ⟨k, -, hk⟩ := cleanClause_of_true st cc hsize ht
    rw [hk] at h
    simp at h
  refine ⟨hsize, ht, ?_⟩
  rw [cleanClause_of_noTrue st cc hsize ht] at h
  simp only at h
  have hle := undefLits_length_le st.value (st.clauses cc).lits
  by_cases c1 : (undefLits st.value (st.clauses cc).lits).length > 1
  swap
  · rw [if_pos c1] at h; cases h
  rw [if_neg (not_not.2 c1)] at h
  by_cases c2 : (st.clauses cc).lits.length ≠ (undefLits st.value (st.clauses cc).lits).length
  swap
  · rw [if_neg c2] at h
    simp only [Outcome.done.injEq, true_and] at h
    have hk : (st.clauses cc).lits.length =
        (undefLits st.value (st.clauses cc).lits).length := not_not.1 c2
    refine ⟨by omega, ?_⟩
    rw [← h]
    simp [hk, sub64_zero, Solver.setClause]
  rw [if_pos c2] at h
  by_cases c3 : (undefLits st.value (st.clauses cc).lits).length = 2
  · rw [if_pos c3] at h; simp at h
  rw [if_neg c3] at h
  by_cases c4 : (undefLits st.value (st.clauses cc).lits).length = 3
  · rw [if_pos c4] at h; simp at h
  rw [if_neg c4] at h
  by_cases c5 : (st.clauses cc).learnt = true
  · rw [if_pos c5] at h
    simp only [Outcome.done.injEq, true_and] at h
    refine ⟨by omega, ?_⟩
    rw [← h]
    simp [c5, Solver.setClause]
  · rw [if_neg c5] at h
    simp only [Outcome.done.injEq, true_and] at h
    refine ⟨by omega, ?_⟩
    rw [← h]
    simp [c5, Solver.setClause]

/-- C17: when `cleanClause` returns `false` on a clause of which `k` literals
are false, the clause is left with its undefined literals (`k` fewer), the
literal counter of its class (`redLits` if learnt, `irredLits` if not) is the
old one minus `k` modulo `2^64` (the old one minus `k` when it was at least
`k` and below `2^64`), the other literal counter and the four clause counters
are unchanged, the watch lists are unchanged and no call (detach, attach or
free) is made; when `k = 0` all six counters are unchanged. -/
theorem cleanClause_kept_counters (st st1 : Solver) (cc : Nat)
    (h : cleanClause st cc = Outcome.done false st1) :
    (st.clauses cc).lits.length = (st1.clauses cc).lits.length +
        (st.clauses cc).lits.countP (fun l => decide (st.value l = l_False)) ∧
    st1.redLits = (if (st.clauses cc).learnt then
        sub64 st.redLits ((st.clauses cc).lits.countP (fun l => decide (st.value l = l_False)))
      else st.redLits) ∧
    st1.irredLits = (if (st.clauses cc).learnt then st.irredLits
      else sub64 st.irredLits
        ((st.clauses cc).lits.countP (fun l => decide (st.value l = l_False)))) ∧
    ((st.clauses cc).learnt = true →
      (st.clauses cc).lits.countP (fun l => decide (st.value l = l_False)) ≤ st.redLits →
      st.redLits < 18446744073709551616 →
      st1.redLits + (st.clauses cc).lits.countP (fun l => decide (st.value l = l_False)) =
        st.redLits) ∧
    ((st.clauses cc).learnt = false →
      (st.clauses cc).lits.countP (fun l => decide (st.value l = l_False)) ≤ st.irredLits →
      st.irredLits < 18446744073709551616 →
      st1.irredLits + (st.clauses cc).lits.countP (fun l => decide (st.value l = l_False)) =
        st.irredLits) ∧
    st1.numBinsNonLearnt = st.numBinsNonLearnt ∧ st1.numBinsLearnt = st.numBinsLearnt ∧
    st1.numTrisNonLearnt = st.numTrisNonLearnt ∧ st1.numTrisLearnt = st.numTrisLearnt ∧
    st1.watches = st.watches ∧ st1.calls = st.calls ∧
    ((st.clauses cc).lits.countP (fun l => decide (st.value l = l_False)) = 0 →
      st1.redLits = st.redLits ∧ st1.irredLits = st.irredLits) := by
  obtain ⟨hsize, ht, h4, hs1⟩ := cleanClause_kept st st1 cc h
  have hlen := length_eq_undef_add_false st.value (st.clauses cc).lits ht
  have hk : (st.clauses cc).lits.length - (undefLits st.value (st.clauses cc).lits).length =
      (st.clauses cc).lits.countP (fun l => decide (st.value l = l_False)) := by omega
  rw [hk] at hs1
  have hcl : (st1.clauses cc).lits = undefLits st.value (st.clauses cc).lits := by
    rw [hs1]; simp [Solver.setClause]
  have hred : st1.redLits = (if (st.clauses cc).learnt then
        sub64 st.redLits ((st.clauses cc).lits.countP (fun l => decide (st.value l = l_False)))
      else st.redLits) := by rw [hs1]
  have hirred : st1.irredLits = (if (st.clauses cc).learnt then st.irredLits
      else sub64 st.irredLits
        ((st.clauses cc).lits.countP (fun l => decide (st.value l = l_False)))) := by rw [hs1]
  refine ⟨by rw [hcl]; exact hlen, hred, hirred, ?_, ?_, by rw [hs1]; rfl, by rw [hs1]; rfl,
    by rw [hs1]; rfl, by rw [hs1]; rfl, by rw [hs1]; rfl, by rw [hs1]; rfl, ?_⟩
  · intro hl hle hlt
    rw [hred, if_pos hl, sub64_of_le _ _ hle hlt]
    omega
  · intro hl hle hlt
    rw [hirred, hl, sub64_of_le _ _ hle hlt]
    simp only [Bool.false_eq_true, if_false]
    omega
  · intro h0
    rw [hred, hirred, h0, sub64_zero, sub64_zero]
    simp

/-- Witness for C17: the non-learnt clause `[0,2,4,6,8,10]` at address 1 of
`exampleExplicit` has two false literals; it is kept with four literals and
`irredLits` goes from 23 to 21. -/
theorem cleanClause_kept_counters_witness :
    (cleanClause exampleExplicit 1).state.irredLits + 2 = 23 ∧
      (cleanClause exampleExplicit 1).state.calls = [] :=
  ⟨(cleanClause_kept_counters exampleExplicit (cleanClause exampleExplicit 1).state 1
      rfl).2.2.2.2.1 rfl (by decide) (by decide),
   (cleanClause_kept_counters exampleExplicit (cleanClause exampleExplicit 1).state 1
      rfl).2.2.2.2.2.2.2.2.2.2.1⟩

theorem scanLits_foundTrue_split (value : Lit → lbool) (rest acc k : List Lit)
    (h : scanLits value rest acc = LitScan.foundTrue k) :
    ∃ pre l post, rest = pre ++ l :: post ∧ value l = l_True ∧
      k = acc ++ undefLits value pre := by
  induction rest generalizing acc with
  | nil => simp [scanLits] at h
  | cons x xs ih =>
    by_cases hu : value x = l_Undef
    · simp only [scanLits, hu, if_true] at h
      obtain ⟨pre, l, post, e1, e2, e3⟩ := ih _ h
      refine ⟨x :: pre, l, post, by rw [e1]; rfl, e2, ?_⟩
      rw [e3, undefLits_cons_undef value x pre hu]
      simp
    · by_cases ht : value x = l_True
      · simp only [scanLits, ht, if_true] at h
        simp only [show ¬ (l_True = l_Undef) by decide, if_false,
          LitScan.foundTrue.injEq] at h
        exact ⟨[], x, xs, rfl, ht, by simp [undefLits, h]⟩
      · simp only [scanLits, hu, ht, if_false] at h
        obtain ⟨pre, l, post, e1, e2, e3⟩ := ih _ h
        have hf : value x = l_False := by
          cases hv : value x
          · exact absurd hv ht
          · rfl
          · exact absurd hv hu
        refine ⟨x :: pre, l, post, by rw [e1]; rfl, e2, ?_⟩
        rw [e3, undefLits_cons_false value x pre hf]

theorem undefLits_idem (value : Lit → lbool) (lits : List Lit) :
    undefLits value (undefLits value lits) = undefLits value lits := by
  simp [undefLits, List.filter_filter]

theorem undefLits_all_undef (value : Lit → lbool) (lits : List Lit) :
    ∀ l ∈ undefLits value lits, value l = l_Undef := by
  intro l hl
  simpa using (List.mem_filter.1 hl).2

theorem cleanClause_true_stable (st st1 st2 : Solver) (cc : Nat)
    (h : cleanClause st cc = Outcome.done true st1)
    (hv : st2.value = st.value) (hc : st2.clauses cc = st1.clauses cc) :
    (cleanClause st2 cc).result ≠ some false := by
  by_cases hsize : (st.clauses cc).lits.length > 3
  swap
  · simp [cleanClause, hsize] at h
  by_cases ht : hasTrueLit st.value (st.clauses cc).lits
  · obtain ⟨k, hk, hcl⟩ := cleanClause_of_true st cc hsize ht
    rw [hcl] at h
    simp only [Outcome.done.injEq, true_and] at h
    have hc1 : (st1.clauses cc).lits = k ++ (st.clauses cc).lits.drop k.length := by
      rw [← h]; simp [Solver.detachModifiedClause, Solver.setClause]
    obtain ⟨pre, l, post, e1, e2, e3⟩ := scanLits_foundTrue_split _ _ _ _ hk
    simp only [List.nil_append] at e3
    have hkl : k.length ≤ pre.length := by
      rw [e3]; exact undefLits_length_le st.value pre
    have hmem : l ∈ (st2.clauses cc).lits := by
      rw [hc, hc1, e1, List.drop_append_of_le_length hkl]
      simp
    have hlen : (st2.clauses cc).lits.length > 3 := by
      rw [hc, hc1]
      have : k.length ≤ (st.clauses cc).lits.length := by rw [e1]; simp; omega
      simp only [List.length_append, List.length_drop]
      omega
    have ht2 : hasTrueLit st2.value (st2.clauses cc).lits := ⟨l, hmem, by rw [hv]; exact e2⟩
    obtain ⟨k2, -, hcl2⟩ := cleanClause_of_true st2 cc hlen ht2
    rw [hcl2]
    simp [Outcome.result]
  · rw [cleanClause_of_noTrue st cc hsize ht] at h
    simp only at h
    have hsmall : ¬ (st2.clauses cc).lits.length > 3 := by
      by_cases c1 : (undefLits st.value (st.clauses cc).lits).length > 1
      swap
      · rw [if_pos c1] at h; cases h
      rw [if_neg (not_not.2 c1)] at h
      by_cases c2 : (st.clauses cc).lits.length ≠
          (undefLits st.value (st.clauses cc).lits).length
      swap
      · rw [if_neg c2] at h; simp at h
      rw [if_pos c2] at h
      by_cases c3 : (undefLits st.value (st.clauses cc).lits).length = 2
      · rw [if_pos c3] at h
        simp only [Outcome.done.injEq, true_and] at h
        rw [hc, ← h]
        simp [Solver.attachBinClause, Solver.detachModifiedClause, Solver.setClause, c3]
      rw [if_neg c3] at h
      by_cases c4 : (undefLits st.value (st.clauses cc).lits).length = 3
      · rw [if_pos c4] at h
        simp only [Outcome.done.injEq, true_and] at h
        rw [hc, ← h]
        simp [Solver.attachTriClause, Solver.detachModifiedClause, Solver.setClause, c4]
      rw [if_neg c4] at h
      by_cases c5 : (st.clauses cc).learnt = true
      · rw [if_pos c5] at h; simp at h
      · rw [if_neg c5] at h; simp at h
    simp [cleanClause, hsmall, Outcome.result]

theorem cleanClausesLoop_keptForm (s : Solver) (rest kept : List Nat) (st s1 : Solver)
    (cs1 : List Nat) (hv : st.value = s.value)
    (hst : ∀ a, st.clauses a = s.clauses a ∨ keptForm s st a ∨
      (cleanClause st a).result ≠ some false)
    (hkept : ∀ a ∈ kept, keptForm s st a)
    (h : cleanClausesLoop rest kept st = Outcome.done cs1 s1) :
    ∀ a ∈ cs1, keptForm s s1 a := by
  induction rest generalizing kept st with
  | nil =>
    simp only [cleanClausesLoop, Outcome.done.injEq] at h
    obtain ⟨rfl, rfl⟩ := h
    exact hkept
  | cons cc rest ih =>
    obtain ⟨fv, fc, -⟩ := cleanClause_frame st cc
    cases hcl : cleanClause st cc with
    | abort a st1 => rw [cleanClausesLoop_abort _ _ _ _ _ _ hcl] at h; cases h
    | done b st1 =>
      rw [hcl] at fv fc
      simp only [Outcome.state] at fv fc
      have hother : ∀ a, a ≠ cc → (st1.clauses a = s.clauses a ∨ keptForm s st1 a ∨
          (cleanClause st1 a).result ≠ some false) := by
        intro a ha
        rcases hst a with h1 | h1 | h1
        · exact Or.inl (by rw [fc a ha]; exact h1)
        · exact Or.inr (Or.inl ⟨by rw [fc a ha]; exact h1.1, h1.2⟩)
        · exact Or.inr (Or.inr (by
            rw [cleanClause_result_congr st st1 a fv (fc a ha)]; exact h1))
      cases b with
      | true =>
        rw [cleanClausesLoop_done_true _ _ _ _ _ hcl] at h
        have hnk : ¬ keptForm s st cc := by
          intro hk
          have hall : ∀ l ∈ (st.clauses cc).lits, st.value l = l_Undef := by
            rw [hk.1, hv]; exact undefLits_all_undef s.value _
          have hsz : (st.clauses cc).lits.length > 3 := by rw [hk.1]; exact hk.2.2
          rw [cleanClause_of_undef st cc hsz hall] at hcl
          simp at hcl
        apply ih kept (st1.clauseFree cc) (by rw [← hv, ← fv]; rfl) _ _ h
        · intro a
          by_cases ha : a = cc
          · subst ha
            exact Or.inr (Or.inr (cleanClause_true_stable st st1 _ a hcl fv rfl))
          · rcases hother a ha with h1 | h1 | h1
            · exact Or.inl h1
            · exact Or.inr (Or.inl h1)
            · exact Or.inr (Or.inr (by
                rw [cleanClause_result_congr st1 (st1.clauseFree cc) a rfl rfl]; exact h1))
        · intro a ha
          have hka := hkept a ha
          have hne : a ≠ cc := fun e => hnk (e ▸ hka)
          exact ⟨by
            show st1.clauses a = _
            rw [fc a hne]; exact hka.1, hka.2⟩
      | false =>
        rw [cleanClausesLoop_done_false _ _ _ _ _ hcl] at h
        obtain ⟨hsize, hnt, h3, hs1⟩ := cleanClause_kept st st1 cc hcl
        have hcc1 : st1.clauses cc =
            ⟨undefLits st.value (st.clauses cc).lits, (st.clauses cc).learnt⟩ := by
          rw [hs1]; simp [Solver.setClause]
        have hkcc : keptForm s st1 cc := by
          rcases hst cc with h1 | h1 | h1
          · rw [h1, hv] at hcc1 hnt h3
            exact ⟨hcc1, hnt, h3⟩
          · refine ⟨?_, h1.2⟩
            rw [hcc1, h1.1, hv]
            simp [undefLits_idem]
          · rw [hcl] at h1
            exact absurd rfl h1
        apply ih (kept ++ [cc]) st1 (by rw [← hv, ← fv]) _ _ h
        · intro a
          by_cases ha : a = cc
          · subst ha; exact Or.inr (Or.inl hkcc)
          · exact hother a ha
        · intro a ha
          rcases List.mem_append.1 ha with ha | ha
          · by_cases hac : a = cc
            · subst hac; exact hkcc
            · have hka := hkept a ha
              exact ⟨by rw [fc a hac]; exact hka.1, hka.2⟩
          · simp only [List.mem_singleton] at ha
            subst ha; exact hkcc

/-- C16: after a completed `cleanClauses`, every clause remaining in the list
has more than three literals (hence at least two); its literals are exactly
the literals of the clause before the sweep whose value is undefined, in
their original order; none of its literals has a determined value; and its
learnt flag is unchanged. (A sweep that completes has read every clause of
the list with more than three literals.) -/
theorem cleanClauses_survivors (s s1 : Solver) (cs cs1 : List Nat)
    (h : cleanClauses s cs = Outcome.done cs1 s1) :
    s1.value = s.value ∧
    ∀ cc ∈ cs1,
      (s1.clauses cc).lits.length > 3 ∧
      (s1.clauses cc).lits =
        (s.clauses cc).lits.filter (fun l => decide (s.value l = l_Undef)) ∧
      List.Sublist (s1.clauses cc).lits (s.clauses cc).lits ∧
      (∀ l ∈ (s1.clauses cc).lits, s1.value l = l_Undef) ∧
      (s1.clauses cc).learnt = (s.clauses cc).learnt := by
  have hval : ∀ (rest kept : List Nat) (st : Solver) (r : List Nat) (s2 : Solver),
      cleanClausesLoop rest kept st = Outcome.done r s2 → s2.value = st.value := by
    intro rest
    induction rest with
    | nil =>
      intro kept st r s2 h
      simp only [cleanClausesLoop, Outcome.done.injEq] at h
      rw [h.2]
    | cons cc rest ih =>
      intro kept st r s2 h
      have fv := (cleanClause_frame st cc).1
      cases hcl : cleanClause st cc with
      | abort a st1 => rw [cleanClausesLoop_abort _ _ _ _ _ _ hcl] at h; cases h
      | done b st1 =>
        rw [hcl] at fv
        simp only [Outcome.state] at fv
        cases b with
        | true =>
          rw [cleanClausesLoop_done_true _ _ _ _ _ hcl] at h
          rw [ih _ _ _ _ h]; exact fv
        | false =>
          rw [cleanClausesLoop_done_false _ _ _ _ _ hcl] at h
          rw [ih _ _ _ _ h]; exact fv
  unfold cleanClauses at h
  by_cases h1 : s.decisionLevel ≠ 0
  · simp [h1] at h
  by_cases h2 : s.qhead ≠ s.trailSize
  · simp [h1, h2] at h
  rw [if_neg h1, if_neg h2] at h
  have hv1 := hval cs [] s cs1 s1 h
  refine ⟨hv1, fun cc hcc => ?_⟩
  obtain ⟨e1, -, e3⟩ := cleanClausesLoop_keptForm s cs [] s s1 cs1 rfl (fun a => Or.inl rfl)
    (by simp) h cc hcc
  refine ⟨by rw [e1]; exact e3, by rw [e1]; rfl, by rw [e1]; exact List.filter_sublist _, ?_,
    by rw [e1]⟩
  intro l hl
  rw [e1] at hl
  rw [hv1]
  exact undefLits_all_undef s.value _ l hl

/-- Witness for C16: the sweep of `[1, 0, 6, 4]` in `exampleExplicit` keeps
the clauses 1 and 6; clause 1, `[0,2,4,6,8,10]` before, is `[0,2,8,10]`
after. -/
theorem cleanClauses_survivors_witness :
    ((cleanClauses exampleExplicit [1, 0, 6, 4]).state.clauses 1).lits.length > 3 ∧
      ((cleanClauses exampleExplicit [1, 0, 6, 4]).state.clauses 1).lits =
        (exampleExplicit.clauses 1).lits.filter
          (fun l => decide (exampleExplicit.value l = l_Undef)) ∧
      ((cleanClauses exampleExplicit [1, 0, 6, 4]).state.clauses 1).lits = [0, 2, 8, 10] :=
  ⟨((cleanClauses_survivors exampleExplicit (cleanClauses exampleExplicit [1, 0, 6, 4]).state
      [1, 0, 6, 4] [1, 6] rfl).2 1 (by decide)).1,
   ((cleanClauses_survivors exampleExplicit (cleanClauses exampleExplicit [1, 0, 6, 4]).state
      [1, 0, 6, 4] [1, 6] rfl).2 1 (by decide)).2.1,
   by decide⟩

/-! ## Preconditions and runs that stop at an assertion -/

/-- C14: the code at the failing input. `exampleQueued` is at decision level 0
with a non-empty propagation queue (`qhead = 0`, one element on the trail).
`cleanClauses` stops at once at `assert(solver->qhead == solver->trail.size())`
in the state it was called in, but `treatImplicitClauses`, which asserts the
decision level only, runs to completion and rewrites the watch lists. -/
theorem treatImplicitClauses_ignores_queue :
    exampleQueued.decisionLevel = 0 ∧ exampleQueued.qhead ≠ exampleQueued.trailSize ∧
      (cleanClauses exampleQueued [7]).failed = some Assertion.explicitQhead ∧
      (cleanClauses exampleQueued [7]).state.watches = exampleQueued.watches ∧
      (treatImplicitClauses (fun _ => true) exampleQueued).failed = none ∧
      exampleQueued.watches =
        [[Watched.clause 7, Watched.tri 2 4 false, Watched.binary 5 false], [],
         [Watched.tri 0 4 false, Watched.binary 6 true], [], [Watched.tri 0 2 false],
         [Watched.binary 0 false], [Watched.binary 2 true], [Watched.clause 7]] ∧
      (treatImplicitClauses (fun _ => true) exampleQueued).state.watches =
        [[Watched.clause 7, Watched.binary 2 false], [],
         [Watched.binary 6 true, Watched.binary 0 false], [], [], [],
         [Watched.binary 2 true], [Watched.clause 7]] := by
  refine ⟨rfl, by decide, ?_, ?_, ?_, rfl, ?_⟩ <;> decide

theorem attachAll_counters (bs : List BinaryClause) (s : Solver) :
    (attachAll bs s).irredLits = s.irredLits + 2 * bs.countP (fun b => !b.getLearnt) ∧
    (attachAll bs s).redLits = s.redLits + 2 * bs.countP (fun b => b.getLearnt) ∧
    (attachAll bs s).numBinsNonLearnt = s.numBinsNonLearnt + bs.countP (fun b => !b.getLearnt) ∧
    (attachAll bs s).numBinsLearnt = s.numBinsLearnt + bs.countP (fun b => b.getLearnt) ∧
    (attachAll bs s).numTrisNonLearnt = s.numTrisNonLearnt ∧
    (attachAll bs s).numTrisLearnt = s.numTrisLearnt := by
  induction bs generalizing s with
  | nil => simp [attachAll]
  | cons b rest ih =>
    simp only [attachAll, List.foldl_cons] at ih ⊢
    obtain ⟨h1, h2, h3, h4, h5, h6⟩ := ih (s.attachBinClause b.getLit1 b.getLit2 b.getLearnt)
    rw [h1, h2, h3, h4, h5, h6]
    cases hb : b.getLearnt <;>
      simp [Solver.attachBinClause, List.countP_cons, hb] <;> omega

theorem attachDelayed_abort_prefix (bs : List BinaryClause) (s st : Solver) (a : Assertion)
    (h : attachDelayed bs s = Outcome.abort a st) :
    ∃ pre post, bs = pre ++ post ∧ st = attachAll pre s := by
  induction bs generalizing s with
  | nil => simp [attachDelayed] at h
  | cons b rest ih =>
    simp only [attachDelayed, ne_eq] at h
    by_cases h1 : s.value b.getLit1 = l_Undef
    · by_cases h2 : s.value b.getLit2 = l_Undef
      · simp only [h1, h2, not_true_eq_false, if_false] at h
        obtain ⟨pre, post, e1, e2⟩ := ih _ h
        exact ⟨b :: pre, post, by rw [e1]; rfl, by rw [e2]; rfl⟩
      · simp only [h1, h2, not_true_eq_false, not_false_eq_true, if_true, if_false,
          Outcome.abort.injEq] at h
        exact ⟨[], b :: rest, rfl, h.2.symm⟩
    · simp only [h1, not_false_eq_true, if_true, Outcome.abort.injEq] at h
      exact ⟨[], b :: rest, rfl, h.2.symm⟩

theorem cleanClause_failed_kind (s : Solver) (cc : Nat)
    (hsize : (s.clauses cc).lits.length > 3) :
    (cleanClause s cc).failed = none ∨ (cleanClause s cc).failed = some Assertion.sizeGt1 := by
  by_cases h : hasTrueLit s.value (s.clauses cc).lits
  · obtain ⟨k, _, hk⟩ := cleanClause_of_true s cc hsize h
    exact Or.inl (by rw [hk]; rfl)
  · rw [cleanClause_of_noTrue s cc hsize h]
    simp only
    split_ifs <;> simp [Outcome.failed]

theorem treatImplicitClauses_abort_state (check : Solver → Bool) (s st : Solver)
    (a : Assertion) (h : treatImplicitClauses check s = Outcome.abort a st)
    (ha : a ≠ Assertion.checkImplicitStats) :
    ∃ (bs : List BinaryClause) (table : List (List Watched)),
      st = attachAll bs { s with watches := table } ∧
      ((a = Assertion.implicitDecisionLevel ∨ a = Assertion.binLit1Undef ∨
        a = Assertion.binLitUndef) → bs = []) := by
  unfold treatImplicitClauses at h
  by_cases hl : s.decisionLevel ≠ 0
  · rw [if_pos hl] at h
    simp only [Outcome.abort.injEq] at h
    exact ⟨[], s.watches, h.2.symm, fun _ => rfl⟩
  rw [if_neg hl] at h
  cases hscan : scanWatches s.value 0 s.watches [] Locals.init with
  | error e =>
    obtain ⟨a1, t1⟩ := e
    rw [hscan] at h
    simp only [Outcome.abort.injEq] at h
    exact ⟨[], t1, h.2.symm, fun _ => rfl⟩
  | ok r =>
    obtain ⟨table, loc⟩ := r
    rw [hscan] at h
    simp only at h
    cases hat : attachDelayed loc.toAttach { s with watches := table } with
    | abort a1 s2 =>
      rw [hat] at h
      simp only [Outcome.abort.injEq] at h
      obtain ⟨pre, post, -, e2⟩ := attachDelayed_abort_prefix _ _ _ _ hat
      have hk := attachDelayed_abort_kind _ _ _ _ hat
      refine ⟨pre, table, by rw [← h.2]; exact e2, fun hx => ?_⟩
      rw [h.1] at hk
      rcases hx with e | e | e <;> rw [e] at hk <;> rcases hk with k | k <;> cases k
    | done u s2 =>
      rw [hat] at h
      simp only at h
      have hu := attachDelayed_undef_of_done _ _ _ hat
      rw [attachDelayed_of_undef _ _ hu] at hat
      simp only [Outcome.done.injEq, true_and] at hat
      have hpar : ∀ (x : Assertion),
          (Outcome.abort x s2 : Outcome Unit) = Outcome.abort a st →
          (x = Assertion.parityNonLBin ∨ x = Assertion.parityLBin ∨
            x = Assertion.parityNonLTri ∨ x = Assertion.parityLTri) →
          ∃ (bs : List BinaryClause) (table : List (List Watched)),
            st = attachAll bs { s with watches := table } ∧
            ((a = Assertion.implicitDecisionLevel ∨ a = Assertion.binLit1Undef ∨
              a = Assertion.binLitUndef) → bs = []) := by
        intro x hx hkind
        simp only [Outcome.abort.injEq] at hx
        refine ⟨loc.toAttach, table, by rw [← hx.2, ← hat], fun hy => ?_⟩
        rw [← hx.1] at hy
        rcases hkind with e | e | e | e <;> rw [e] at hy <;>
          rcases hy with k | k | k <;> cases k
      by_cases p1 : loc.remNonLBin % 2 ≠ 0
      · rw [if_pos p1] at h; exact hpar _ h (Or.inl rfl)
      rw [if_neg p1] at h
      by_cases p2 : loc.remLBin % 2 ≠ 0
      · rw [if_pos p2] at h; exact hpar _ h (Or.inr (Or.inl rfl))
      rw [if_neg p2] at h
      by_cases p3 : loc.remNonLTri % 3 ≠ 0
      · rw [if_pos p3] at h; exact hpar _ h (Or.inr (Or.inr (Or.inl rfl)))
      rw [if_neg p3] at h
      by_cases p4 : loc.remLTri % 3 ≠ 0
      · rw [if_pos p4] at h; exact hpar _ h (Or.inr (Or.inr (Or.inr rfl)))
      rw [if_neg p4] at h
      by_cases hc : check (applyTallies s2 loc) = true
      · simp [hc] at h
      · simp only [hc, Bool.false_eq_true, if_false, Outcome.abort.injEq] at h
        exact absurd h.1.symm ha

/-- Counterexample to C15 as stated: the explicit sweep of the list `[1, 5]`
in `exampleExplicit` keeps clause 1 after dropping two false literals, then
stops at `assert(c.size() > 1)` on clause 5, `[4,6,12,4]`, which has one
undefined literal and three false ones; `irredLits`, 23 before the sweep, is
21 in the state the run stops in. -/
theorem cleanClauses_partial_counterexample :
    exampleExplicit.clauses 5 = ⟨[4, 6, 12, 4], false⟩ ∧
      exampleExplicit.irredLits = 23 ∧
      (cleanClauses exampleExplicit [1, 5]).failed = some Assertion.sizeGt1 ∧
      (cleanClauses exampleExplicit [1, 5]).state.irredLits = 21 := by
  refine ⟨rfl, rfl, ?_, ?_⟩ <;> decide

/-- C15 (amended): `treatImplicitClauses` applies its own counter updates
(lines 149-154) in one block, after the scan, the delayed attach and the four
parity assertions. In every run of it that stops at an assertion before the
final self-check, the two ternary-clause counts equal their values before
the sweep and the other four counters are their values before the sweep plus
what the calls of `attachBinClause` made so far added (2 literals and 1
clause per call, in the class of the attached clause); no such call has been
made, and all six counters are unchanged, when the run stops at the level
assertion or in the scan. `cleanClauses` leaves the solver as it is when it
stops at one of its two precondition assertions. -/
theorem aborted_sweep_counters (check : Solver → Bool) (s st : Solver) (a : Assertion)
    (cs : List Nat) :
    (treatImplicitClauses check s = Outcome.abort a st → a ≠ Assertion.checkImplicitStats →
      ∃ bs : List BinaryClause,
        st.calls = s.calls ++ bs.map attachCall ∧
        st.irredLits = s.irredLits + 2 * bs.countP (fun b => !b.getLearnt) ∧
        st.redLits = s.redLits + 2 * bs.countP (fun b => b.getLearnt) ∧
        st.numBinsNonLearnt = s.numBinsNonLearnt + bs.countP (fun b => !b.getLearnt) ∧
        st.numBinsLearnt = s.numBinsLearnt + bs.countP (fun b => b.getLearnt) ∧
        st.numTrisNonLearnt = s.numTrisNonLearnt ∧
        st.numTrisLearnt = s.numTrisLearnt ∧
        ((a = Assertion.implicitDecisionLevel ∨ a = Assertion.binLit1Undef ∨
          a = Assertion.binLitUndef) → bs = [])) ∧
    (cleanClauses s cs = Outcome.abort a st →
      a = Assertion.explicitDecisionLevel ∨ a = Assertion.explicitQhead → st = s) := by
  constructor
  · intro h ha
    obtain ⟨bs, table, hst, hbs⟩ := treatImplicitClauses_abort_state check s st a h ha
    obtain ⟨h1, h2, h3, h4, h5, h6⟩ := attachAll_counters bs { s with watches := table }
    refine ⟨bs, ?_, ?_, ?_, ?_, ?_, ?_, ?_, hbs⟩
    · rw [hst, attachAll_calls]
    · rw [hst, h1]
    · rw [hst, h2]
    · rw [hst, h3]
    · rw [hst, h4]
    · rw [hst, h5]
    · rw [hst, h6]
  · intro h ha
    unfold cleanClauses at h
    by_cases h1 : s.decisionLevel ≠ 0
    · rw [if_pos h1] at h
      simp only [Outcome.abort.injEq] at h
      exact h.2.symm
    rw [if_neg h1] at h
    by_cases h2 : s.qhead ≠ s.trailSize
    · rw [if_pos h2] at h
      simp only [Outcome.abort.injEq] at h
      exact h.2.symm
    rw [if_neg h2] at h
    have hkind : ∀ (rest kept : List Nat) (s0 s2 : Solver) (x : Assertion),
        cleanClausesLoop rest kept s0 = Outcome.abort x s2 →
        x = Assertion.sizeGt3 ∨ x = Assertion.sizeGt1 := by
      intro rest
      induction rest with
      | nil => intro kept s0 s2 x hx; simp [cleanClausesLoop] at hx
      | cons cc rest ih =>
        intro kept s0 s2 x hx
        cases hcl : cleanClause s0 cc with
        | abort a1 st1 =>
          rw [cleanClausesLoop_abort _ _ _ _ _ _ hcl] at hx
          simp only [Outcome.abort.injEq] at hx
          have hf : (cleanClause s0 cc).failed = some a1 := by rw [hcl]; rfl
          by_cases hsz : (s0.clauses cc).lits.length > 3
          · rcases (cleanClause_failed_kind s0 cc hsz) with e | e
            · rw [e] at hf; cases hf
            · rw [e] at hf
              simp only [Option.some.injEq] at hf
              exact Or.inr (by rw [← hx.1, ← hf])
          · simp only [cleanClause, hsz, not_false_eq_true, if_true, Outcome.abort.injEq] at hcl
            exact Or.inl (by rw [← hx.1, ← hcl.1])
        | done b st1 =>
          cases b with
          | true =>
            rw [cleanClausesLoop_done_true _ _ _ _ _ hcl] at hx
            exact ih _ _ _ _ hx
          | false =>
            rw [cleanClausesLoop_done_false _ _ _ _ _ hcl] at hx
            exact ih _ _ _ _ hx
    rcases hkind _ _ _ _ _ h with e | e <;> rw [e] at ha <;> rcases ha with k | k <;> cases k

/-- Witness for C15 (amended): in `exampleQueued` with the decision level set
to 1 the implicit sweep stops at the level assertion with `irredLits`
unchanged. -/
theorem aborted_sweep_counters_witness :
    (treatImplicitClauses (fun _ => true)
        { exampleQueued with decisionLevel := 1 }).state.irredLits = 9 := by
  obtain ⟨bs, -, h2, -, -, -, -, -, h8⟩ :=
    (aborted_sweep_counters (fun _ => true) { exampleQueued with decisionLevel := 1 }
      (treatImplicitClauses (fun _ => true) { exampleQueued with decisionLevel := 1 }).state
      Assertion.implicitDecisionLevel []).1 rfl (by decide)
  rw [h2, h8 (Or.inl rfl)]
  rfl

/-! ## The scan as a function of the located entries -/

theorem enqueuedTable_eq_flatMap (value : Lit → lbool) (base : Nat)
    (table : List (List Watched)) :
    enqueuedTable value base table =
      (located base table).flatMap (fun e => enqueued value e.1 e.2) := by
  induction table generalizing base with
  | nil => simp [enqueuedTable, located]
  | cons ws rest ih =>
    simp only [enqueuedTable, located, List.flatMap_append, List.flatMap_map, ih]

theorem tablePasses_iff_located (value : Lit → lbool) (base : Nat)
    (table : List (List Watched)) :
    tablePasses value base table = true ↔
      ∀ e ∈ located base table, passesAsserts value e.1 e.2 = true := by
  induction table generalizing base with
  | nil => simp [tablePasses, located]
  | cons ws rest ih =>
    simp only [tablePasses, located, Bool.and_eq_true, List.all_eq_true, ih, List.mem_append,
      List.mem_map]
    constructor
    · rintro ⟨h1, h2⟩ e (⟨w, hw, rfl⟩ | he)
      · exact h1 w hw
      · exact h2 e he
    · intro h
      exact ⟨fun w hw => h (base, w) (Or.inl ⟨w, hw, rfl⟩), fun e he => h e (Or.inr he)⟩

theorem tableUndef_iff_located (value : Lit → lbool) (base : Nat)
    (table : List (List Watched)) :
    tableUndef value base table = true ↔
      ∀ e ∈ located base table, allUndef value e.1 e.2 = true := by
  induction table generalizing base with
  | nil => simp [tableUndef, located]
  | cons ws rest ih =>
    simp only [tableUndef, located, Bool.and_eq_true, List.all_eq_true, ih, List.mem_append,
      List.mem_map]
    constructor
    · rintro ⟨h1, h2⟩ e (⟨w, hw, rfl⟩ | he)
      · exact h1 w hw
      · exact h2 e he
    · intro h
      exact ⟨fun w hw => h (base, w) (Or.inl ⟨w, hw, rfl⟩), fun e he => h e (Or.inr he)⟩

theorem located_eraseWatch (base : Nat) (table : List (List Watched)) (i : Nat) (w : Watched)
    (ws : List Watched) (hi : table[i]? = some ws) (hw : w ∈ ws) :
    List.Perm (located base table) ((base + i, w) :: located base (eraseWatch table i w)) := by
  induction table generalizing base i with
  | nil => simp at hi
  | cons l rest ih =>
    cases i with
    | zero =>
      simp only [List.getElem?_cons_zero, Option.some.injEq] at hi
      subst hi
      simp only [located, eraseWatch, Nat.add_zero]
      have h1 : List.Perm (l.map (fun x => (base, x)))
          ((w :: l.erase w).map (fun x => (base, x))) :=
        List.Perm.map _ (List.perm_cons_erase hw)
      rw [List.map_cons] at h1
      exact (List.Perm.append h1 (List.Perm.refl _))
    | succ n =>
      simp only [List.getElem?_cons_succ] at hi
      have h1 := ih (base + 1) n hi
      have e : base + 1 + n = base + (n + 1) := by omega
      rw [e] at h1
      simp only [located, eraseWatch]
      exact (List.Perm.append (List.Perm.refl _) h1).trans List.perm_middle

theorem filter_erase_of_neg (p : Watched → Bool) (w : Watched) (l : List Watched)
    (hp : p w = false) : (l.erase w).filter p = l.filter p := by
  induction l with
  | nil => simp
  | cons x xs ih =>
    by_cases hx : x = w
    · subst hx
      simp [hp]
    · have hne : (x == w) = false := by simpa using hx
      rw [List.erase_cons, hne]
      simp only [Bool.false_eq_true, if_false, List.filter_cons, ih]

theorem keptTable_eraseWatch (value : Lit → lbool) (base : Nat)
    (table : List (List Watched)) (i : Nat) (w : Watched)
    (hr : removes value (base + i) w = true) :
    keptTable value base (eraseWatch table i w) = keptTable value base table := by
  induction table generalizing base i with
  | nil => simp [eraseWatch]
  | cons l rest ih =>
    cases i with
    | zero =>
      simp only [eraseWatch, keptTable]
      rw [filter_erase_of_neg _ w l (by simpa using hr)]
    | succ n =>
      simp only [eraseWatch, keptTable]
      rw [ih (base + 1) n (by
        have e : base + 1 + n = base + (n + 1) := by omega
        rw [e]; exact hr)]

theorem countP_removes_of_undef (value : Lit → lbool) (l : List (Lit × Watched))
    (q : Lit × Watched → Bool) (h : ∀ e ∈ l, allUndef value e.1 e.2 = true) :
    l.countP (fun e => q e && removes value e.1 e.2) = 0 := by
  rw [List.countP_eq_zero]
  intro e he
  simp [(passes_of_allUndef value e.1 e.2 (h e he)).2.1]

theorem treatImplicitClauses_no_attach (check : Solver → Bool) (s : Solver)
    (hlevel : s.decisionLevel = 0) (hp : tablePasses s.value 0 s.watches = true)
    (table : List (List Watched)) (loc : Locals)
    (hk : keptTable s.value 0 s.watches = table)
    (hloc : talliedTable s.value 0 s.watches Locals.init = loc)
    (hta : loc.toAttach = [])
    (h1 : loc.remNonLBin % 2 = 0) (h2 : loc.remLBin % 2 = 0)
    (h3 : loc.remNonLTri % 3 = 0) (h4 : loc.remLTri % 3 = 0) :
    treatImplicitClauses check s =
      if check (applyTallies { s with watches := table } loc) then
        Outcome.done () (applyTallies { s with watches := table } loc)
      else Outcome.abort Assertion.checkImplicitStats
        (applyTallies { s with watches := table } loc) := by
  unfold treatImplicitClauses
  rw [if_neg (by simp [hlevel]), scanWatches_of_passes s.value 0 s.watches [] Locals.init hp]
  simp only [List.nil_append, hk, hloc, hta, attachDelayed]
  rw [if_neg (by simp [h1]), if_neg (by simp [h2]), if_neg (by simp [h3]),
    if_neg (by simp [h4])]

/-- Outcome of the scan on a table whose entries are, up to order, the
entries `ents`, all removed by the scan without a binary clause being
enqueued, and the entries of the table `table0`, which all have only
undefined literals. -/
theorem scan_of_removed_entries (value : Lit → lbool) (table table0 : List (List Watched))
    (ents : List (Lit × Watched))
    (hperm : List.Perm (located 0 table) (ents ++ located 0 table0))
    (hkept : keptTable value 0 table = keptTable value 0 table0)
    (hents : ∀ e ∈ ents, passesAsserts value e.1 e.2 = true ∧ removes value e.1 e.2 = true ∧
      enqueued value e.1 e.2 = [])
    (h0 : tableUndef value 0 table0 = true) :
    tablePasses value 0 table = true ∧ keptTable value 0 table = table0 ∧
      talliedTable value 0 table Locals.init =
        { remNonLBin := ents.countP (fun e => e.2.isBinary && !e.2.learnt)
          remLBin := ents.countP (fun e => e.2.isBinary && e.2.learnt)
          remNonLTri := ents.countP (fun e => e.2.isTri && !e.2.learnt)
          remLTri := ents.countP (fun e => e.2.isTri && e.2.learnt)
          toAttach := [] } := by
  have hU := (tableUndef_iff_located value 0 table0).1 h0
  obtain ⟨hp0, hk0, -⟩ := keptTable_of_undef value 0 table0 h0
  refine ⟨?_, by rw [hkept, hk0], ?_⟩
  · rw [tablePasses_iff_located]
    intro e he
    rcases List.mem_append.1 (hperm.mem_iff.1 he) with h | h
    · exact (hents e h).1
    · exact (passes_of_allUndef value e.1 e.2 (hU e h)).1
  · have hcount : ∀ q : Lit × Watched → Bool,
        (located 0 table).countP (fun e => q e && removes value e.1 e.2) = ents.countP q := by
      intro q
      rw [List.Perm.countP_eq _ hperm, List.countP_append,
        countP_removes_of_undef value _ q hU, Nat.add_zero]
      apply List.countP_congr
      intro e he
      simp [(hents e he).2.1]
    have hta : enqueuedTable value 0 table = [] := by
      rw [enqueuedTable_eq_flatMap]
      apply List.Perm.eq_nil
      refine (List.Perm.flatMap_right _ hperm).trans ?_
      rw [List.flatMap_append]
      have e1 : ents.flatMap (fun e => enqueued value e.1 e.2) = [] :=
        List.flatMap_eq_nil_iff.2 (fun e he => (hents e he).2.2)
      have e2 : (located 0 table0).flatMap (fun e => enqueued value e.1 e.2) = [] :=
        List.flatMap_eq_nil_iff.2
          (fun e he => (passes_of_allUndef value e.1 e.2 (hU e he)).2.2)
      rw [e1, e2]
      exact List.Perm.refl _
    rw [talliedTable_eq, hcount, hcount, hcount, hcount, hta]
    simp [Locals.init]

/-! ## Removal of one satisfied clause -/

theorem treatTri_of_true (value : Lit → lbool) (lit l1 l2 : Lit) (learnt : Bool)
    (ta : List BinaryClause)
    (h : value lit = l_True ∨ value l1 = l_True ∨ value l2 = l_True) :
    treatTri value lit (Watched.tri l1 l2 learnt) ta = (true, ta) := by
  cases h1 : value lit <;> cases h2 : value l1 <;> cases h3 : value l2 <;>
    simp [treatTri, Watched.lit1, Watched.lit2, h1, h2, h3] at h ⊢

theorem tri_of_true_removed (value : Lit → lbool) (lit l1 l2 : Lit) (learnt : Bool)
    (h : value lit = l_True ∨ value l1 = l_True ∨ value l2 = l_True) :
    passesAsserts value lit (Watched.tri l1 l2 learnt) = true ∧
      removes value lit (Watched.tri l1 l2 learnt) = true ∧
      enqueued value lit (Watched.tri l1 l2 learnt) = [] := by
  refine ⟨rfl, ?_, ?_⟩
  · rw [← treatTri_fst value lit l1 l2 learnt [], treatTri_of_true value lit l1 l2 learnt [] h]
  · simp [enqueued, Watched.isTri, treatTri_of_true value lit l1 l2 learnt [] h]

/-- A satisfied ternary clause taken alone: each of its three entries is
removed with nothing pushed on `toAttach`; after a completed sweep none is in
its list; when the level is 0 and every other binary or ternary entry has
only undefined literals, the sweep ends in the state that differs from the
initial one in the three entries and the two counters of the clause's class. -/
theorem tri_satisfied_isolated (check : Solver → Bool) (s : Solver)
    (p q r : Lit) (learnt : Bool) (ep eq er : Watched) (wp wq wr : List Watched)
    (hpq : p ≠ q) (hqr : q ≠ r) (hpr : p ≠ r)
    (hep : ep = Watched.tri q r learnt ∨ ep = Watched.tri r q learnt)
    (heq : eq = Watched.tri p r learnt ∨ eq = Watched.tri r p learnt)
    (her : er = Watched.tri p q learnt ∨ er = Watched.tri q p learnt)
    (hp : s.watches[p]? = some wp) (hmp : ep ∈ wp)
    (hq : s.watches[q]? = some wq) (hmq : eq ∈ wq)
    (hr : s.watches[r]? = some wr) (hmr : er ∈ wr)
    (htrue : s.value p = l_True ∨ s.value q = l_True ∨ s.value r = l_True) :
    (∀ ta, treatTri s.value p ep ta = (true, ta) ∧ treatTri s.value q eq ta = (true, ta) ∧
      treatTri s.value r er ta = (true, ta)) ∧
    (∀ s1, treatImplicitClauses check s = Outcome.done () s1 →
      (∀ ws, s1.watches[p]? = some ws → ep ∉ ws) ∧
      (∀ ws, s1.watches[q]? = some ws → eq ∉ ws) ∧
      (∀ ws, s1.watches[r]? = some ws → er ∉ ws)) ∧
    (s.decisionLevel = 0 →
      tableUndef s.value 0 (eraseWatch (eraseWatch (eraseWatch s.watches p ep) q eq) r er)
        = true →
      (treatImplicitClauses check s).state =
        { s with
          watches := eraseWatch (eraseWatch (eraseWatch s.watches p ep) q eq) r er
          irredLits := if learnt then s.irredLits else sub64 s.irredLits 3
          redLits := if learnt then sub64 s.redLits 3 else s.redLits
          numTrisNonLearnt := if learnt then s.numTrisNonLearnt
            else sub64 s.numTrisNonLearnt 1
          numTrisLearnt := if learnt then sub64 s.numTrisLearnt 1 else s.numTrisLearnt } ∧
      (check (treatImplicitClauses check s).state = true →
        treatImplicitClauses check s =
          Outcome.done () (treatImplicitClauses check s).state) ∧
      ((treatImplicitClauses check s).failed = none ∨
        (treatImplicitClauses check s).failed = some Assertion.checkImplicitStats)) := by
  have tp : s.value p = l_True ∨ s.value q = l_True ∨ s.value r = l_True := htrue
  have tp' : s.value p = l_True ∨ s.value r = l_True ∨ s.value q = l_True := by
    rcases htrue with h | h | h
    · exact Or.inl h
    · exact Or.inr (Or.inr h)
    · exact Or.inr (Or.inl h)
  have tq : s.value q = l_True ∨ s.value p = l_True ∨ s.value r = l_True := by
    rcases htrue with h | h | h
    · exact Or.inr (Or.inl h)
    · exact Or.inl h
    · exact Or.inr (Or.inr h)
  have tq' : s.value q = l_True ∨ s.value r = l_True ∨ s.value p = l_True := by
    rcases htrue with h | h | h
    · exact Or.inr (Or.inr h)
    · exact Or.inl h
    · exact Or.inr (Or.inl h)
  have tr : s.value r = l_True ∨ s.value p = l_True ∨ s.value q = l_True := by
    rcases htrue with h | h | h
    · exact Or.inr (Or.inl h)
    · exact Or.inr (Or.inr h)
    · exact Or.inl h
  have tr' : s.value r = l_True ∨ s.value q = l_True ∨ s.value p = l_True := by
    rcases htrue with h | h | h
    · exact Or.inr (Or.inr h)
    · exact Or.inr (Or.inl h)
    · exact Or.inl h
  have fp : ep.isTri = true ∧ ep.learnt = learnt ∧
      (∀ ta, treatTri s.value p ep ta = (true, ta)) ∧
      passesAsserts s.value p ep = true ∧ removes s.value p ep = true ∧
      enqueued s.value p ep = [] := by
    rcases hep with rfl | rfl
    · exact ⟨rfl, rfl, fun ta => treatTri_of_true _ _ _ _ _ ta tp, tri_of_true_removed _ _ _ _ _ tp⟩
    · exact ⟨rfl, rfl, fun ta => treatTri_of_true _ _ _ _ _ ta tp',
        tri_of_true_removed _ _ _ _ _ tp'⟩
  have fq : eq.isTri = true ∧ eq.learnt = learnt ∧
      (∀ ta, treatTri s.value q eq ta = (true, ta)) ∧
      passesAsserts s.value q eq = true ∧ removes s.value q eq = true ∧
      enqueued s.value q eq = [] := by
    rcases heq with rfl | rfl
    · exact ⟨rfl, rfl, fun ta => treatTri_of_true _ _ _ _ _ ta tq, tri_of_true_removed _ _ _ _ _ tq⟩
    · exact ⟨rfl, rfl, fun ta => treatTri_of_true _ _ _ _ _ ta tq',
        tri_of_true_removed _ _ _ _ _ tq'⟩
  have fr : er.isTri = true ∧ er.learnt = learnt ∧
      (∀ ta, treatTri s.value r er ta = (true, ta)) ∧
      passesAsserts s.value r er = true ∧ removes s.value r er = true ∧
      enqueued s.value r er = [] := by
    rcases her with rfl | rfl
    · exact ⟨rfl, rfl, fun ta => treatTri_of_true _ _ _ _ _ ta tr, tri_of_true_removed _ _ _ _ _ tr⟩
    · exact ⟨rfl, rfl, fun ta => treatTri_of_true _ _ _ _ _ ta tr',
        tri_of_true_removed _ _ _ _ _ tr'⟩
  have hbin : ep.isBinary = false ∧ eq.isBinary = false ∧ er.isBinary = false := by
    refine ⟨?_, ?_, ?_⟩
    · rcases hep with rfl | rfl <;> rfl
    · rcases heq with rfl | rfl <;> rfl
    · rcases her with rfl | rfl <;> rfl
  refine ⟨fun ta => ⟨fp.2.2.1 ta, fq.2.2.1 ta, fr.2.2.1 ta⟩, ?_, ?_⟩
  · intro s1 hdone
    obtain ⟨hv, -, hU⟩ := treatImplicitClauses_undef_of_done check s s1 hdone
    have hiff := (tableUndef_iff s1.value 0 s1.watches).1 hU
    rw [hv] at hiff
    have key : ∀ (lit : Lit) (e : Watched), removes s.value lit e = true →
        ∀ ws, s1.watches[lit]? = some ws → e ∉ ws := by
      intro lit e hrem ws hws hin
      have h1 := hiff lit ws hws e hin
      rw [Nat.zero_add] at h1
      rw [(passes_of_allUndef s.value lit e h1).2.1] at hrem
      cases hrem
    exact ⟨key p ep fp.2.2.2.2.1, key q eq fq.2.2.2.2.1, key r er fr.2.2.2.2.1⟩
  · intro hlevel h0
    have hq1 : (eraseWatch s.watches p ep)[q]? = some wq := by
      rw [eraseWatch_getElem?_ne _ _ _ _ (Ne.symm hpq)]; exact hq
    have hr1 : (eraseWatch (eraseWatch s.watches p ep) q eq)[r]? = some wr := by
      rw [eraseWatch_getElem?_ne _ _ _ _ (Ne.symm hqr),
        eraseWatch_getElem?_ne _ _ _ _ (Ne.symm hpr)]
      exact hr
    have p1 := located_eraseWatch 0 s.watches p _ wp hp hmp
    have p2 := located_eraseWatch 0 _ q _ wq hq1 hmq
    have p3 := located_eraseWatch 0 _ r _ wr hr1 hmr
    rw [Nat.zero_add] at p1 p2 p3
    have hperm : List.Perm (located 0 s.watches)
        ([(p, ep), (q, eq), (r, er)] ++
          located 0 (eraseWatch (eraseWatch (eraseWatch s.watches p ep) q eq) r er)) :=
      p1.trans (List.Perm.cons _ (p2.trans (List.Perm.cons _ p3)))
    have hkept : keptTable s.value 0 s.watches =
        keptTable s.value 0 (eraseWatch (eraseWatch (eraseWatch s.watches p ep) q eq) r er) := by
      rw [keptTable_eraseWatch s.value 0 _ r _ (by rw [Nat.zero_add]; exact fr.2.2.2.2.1),
        keptTable_eraseWatch s.value 0 _ q _ (by rw [Nat.zero_add]; exact fq.2.2.2.2.1),
        keptTable_eraseWatch s.value 0 _ p _ (by rw [Nat.zero_add]; exact fp.2.2.2.2.1)]
    obtain ⟨hpass, hk, hloc⟩ := scan_of_removed_entries s.value s.watches _ _ hperm hkept
      (by
        intro e he
        simp only [List.mem_cons, List.mem_singleton, List.not_mem_nil, or_false] at he
        rcases he with rfl | rfl | rfl
        · exact fp.2.2.2
        · exact fq.2.2.2
        · exact fr.2.2.2) h0
    have hrun := treatImplicitClauses_no_attach check s hlevel hpass _ _ hk hloc rfl
      (by simp [List.countP_cons, hbin.1, hbin.2.1, hbin.2.2])
      (by simp [List.countP_cons, hbin.1, hbin.2.1, hbin.2.2])
      (by cases learnt <;>
        simp [List.countP_cons, fp.1, fq.1, fr.1, fp.2.1, fq.2.1, fr.2.1])
      (by cases learnt <;>
        simp [List.countP_cons, fp.1, fq.1, fr.1, fp.2.1, fq.2.1, fr.2.1])
    have hst : applyTallies
        { s with watches := eraseWatch (eraseWatch (eraseWatch s.watches p ep) q eq) r er }
        { remNonLBin := [(p, ep), (q, eq), (r, er)].countP
            (fun e => e.2.isBinary && !e.2.learnt)
          remLBin := [(p, ep), (q, eq), (r, er)].countP (fun e => e.2.isBinary && e.2.learnt)
          remNonLTri := [(p, ep), (q, eq), (r, er)].countP (fun e => e.2.isTri && !e.2.learnt)
          remLTri := [(p, ep), (q, eq), (r, er)].countP (fun e => e.2.isTri && e.2.learnt)
          toAttach := [] } =
        { s with
          watches := eraseWatch (eraseWatch (eraseWatch s.watches p ep) q eq) r er
          irredLits := if learnt then s.irredLits else sub64 s.irredLits 3
          redLits := if learnt then sub64 s.redLits 3 else s.redLits
          numTrisNonLearnt := if learnt then s.numTrisNonLearnt
            else sub64 s.numTrisNonLearnt 1
          numTrisLearnt := if learnt then sub64 s.numTrisLearnt 1 else s.numTrisLearnt } := by
      cases learnt <;>
        simp [applyTallies, List.countP_cons, fp.1, fq.1, fr.1, fp.2.1, fq.2.1, fr.2.1,
          hbin.1, hbin.2.1, hbin.2.2, sub64_zero]
    rw [hst] at hrun
    generalize ({ s with
          watches := eraseWatch (eraseWatch (eraseWatch s.watches p ep) q eq) r er
          irredLits := if learnt then s.irredLits else sub64 s.irredLits 3
          redLits := if learnt then sub64 s.redLits 3 else s.redLits
          numTrisNonLearnt := if learnt then s.numTrisNonLearnt
            else sub64 s.numTrisNonLearnt 1
          numTrisLearnt := if learnt then sub64 s.numTrisLearnt 1 else s.numTrisLearnt }
        : Solver) = s2 at hrun ⊢
    rw [hrun]
    by_cases hc : check s2 = true
    · simp [hc, Outcome.state, Outcome.failed]
    · simp [hc, Outcome.state, Outcome.failed]

/-! ## Counters and the number of stored clauses -/

theorem sub64_of_le_of_lt (a b : Nat) (hb : b ≤ a) (hlt : b < 18446744073709551616) :
    sub64 a b = a - b := by
  unfold sub64
  rw [Nat.mod_eq_of_lt hlt]
  simp [hb]

theorem located_length_pos (base : Nat) (table : List (List Watched)) (e : Lit × Watched)
    (h : e ∈ located base table) : e.1 < base + table.length := by
  induction table generalizing base with
  | nil => simp [located] at h
  | cons ws rest ih =>
    simp only [located, List.mem_append, List.mem_map] at h
    rcases h with ⟨w, -, rfl⟩ | h
    · simp only [List.length_cons]
      exact Nat.lt_add_of_pos_right (Nat.succ_pos _)
    · have := ih (base + 1) h
      simp only [List.length_cons]
      have e1 : base + 1 + rest.length = base + (rest.length + 1) := by
        rw [Nat.add_assoc, Nat.add_comm 1]
      rw [e1] at this
      exact this

theorem located_pushWatch (base : Nat) (table : List (List Watched)) (i : Nat) (w : Watched)
    (hi : i < table.length) :
    List.Perm (located base (pushWatch table i w)) ((base + i, w) :: located base table) := by
  induction table generalizing base i with
  | nil => simp at hi
  | cons l rest ih =>
    cases i with
    | zero =>
      simp only [pushWatch, located, List.map_append, List.map_cons, List.map_nil,
        Nat.add_zero, List.append_assoc, List.singleton_append]
      exact List.perm_middle
    | succ n =>
      simp only [List.length_cons, Nat.add_lt_add_iff_right] at hi
      have h1 := ih (base + 1) n hi
      have e : base + 1 + n = base + (n + 1) := by omega
      rw [e] at h1
      simp only [pushWatch, located]
      exact (List.Perm.append (List.Perm.refl _) h1).trans List.perm_middle

theorem numEntries_pushWatch (kind : Watched → Bool) (table : List (List Watched)) (i : Nat)
    (w : Watched) (hi : i < table.length) :
    numEntries kind (pushWatch table i w) =
      numEntries kind table + (if kind w then 1 else 0) := by
  unfold numEntries
  rw [List.Perm.countP_eq _ (located_pushWatch 0 table i w hi), List.countP_cons]

theorem attachAll_watches_length (bs : List BinaryClause) (s : Solver) :
    (attachAll bs s).watches.length = s.watches.length := by
  induction bs generalizing s with
  | nil => rfl
  | cons b rest ih =>
    simp only [attachAll, List.foldl_cons] at ih ⊢
    rw [ih]
    simp [Solver.attachBinClause, pushWatch_length]

theorem numEntries_attachAll (bs : List BinaryClause) (s : Solver)
    (hrange : ∀ b ∈ bs, b.getLit1 < s.watches.length ∧ b.getLit2 < s.watches.length) :
    numEntries isNonLBin (attachAll bs s).watches =
        numEntries isNonLBin s.watches + 2 * bs.countP (fun b => !b.getLearnt) ∧
      numEntries isLBin (attachAll bs s).watches =
        numEntries isLBin s.watches + 2 * bs.countP (fun b => b.getLearnt) ∧
      numEntries isNonLTri (attachAll bs s).watches = numEntries isNonLTri s.watches ∧
      numEntries isLTri (attachAll bs s).watches = numEntries isLTri s.watches := by
  induction bs generalizing s with
  | nil => simp [attachAll]
  | cons b rest ih =>
    have hb := hrange b (by simp)
    simp only [attachAll, List.foldl_cons] at ih ⊢
    have hlen : (s.attachBinClause b.getLit1 b.getLit2 b.getLearnt).watches.length =
        s.watches.length := by
      simp [Solver.attachBinClause, pushWatch_length]
    obtain ⟨h1, h2, h3, h4⟩ := ih (s.attachBinClause b.getLit1 b.getLit2 b.getLearnt)
      (fun b1 hb1 => by rw [hlen]; exact hrange b1 (by simp [hb1]))
    rw [h1, h2, h3, h4]
    have hw : ∀ kind : Watched → Bool,
        numEntries kind (s.attachBinClause b.getLit1 b.getLit2 b.getLearnt).watches =
          numEntries kind s.watches +
            (if kind (Watched.binary b.getLit2 b.getLearnt) then 1 else 0) +
            (if kind (Watched.binary b.getLit1 b.getLearnt) then 1 else 0) := by
      intro kind
      simp only [Solver.attachBinClause]
      rw [numEntries_pushWatch kind _ _ _ (by rw [pushWatch_length]; exact hb.2),
        numEntries_pushWatch kind _ _ _ hb.1]
    rw [hw isNonLBin, hw isLBin, hw isNonLTri, hw isLTri]
    cases hl : b.getLearnt <;>
      simp [isNonLBin, isLBin, isNonLTri, isLTri, Watched.isBinary, Watched.isTri,
        Watched.learnt, List.countP_cons, hl] <;> omega

theorem tallies_add_kept (value : Lit → lbool) (table : List (List Watched)) :
    (talliedTable value 0 table Locals.init).remNonLBin +
        numEntries isNonLBin (keptTable value 0 table) = numEntries isNonLBin table ∧
      (talliedTable value 0 table Locals.init).remLBin +
        numEntries isLBin (keptTable value 0 table) = numEntries isLBin table ∧
      (talliedTable value 0 table Locals.init).remNonLTri +
        numEntries isNonLTri (keptTable value 0 table) = numEntries isNonLTri table ∧
      (talliedTable value 0 table Locals.init).remLTri +
        numEntries isLTri (keptTable value 0 table) = numEntries isLTri table := by
  rw [talliedTable_eq]
  simp only [numEntries, located_keptTable, Locals.init, Nat.zero_add]
  exact ⟨countP_removed_add value _ (fun e => isNonLBin e.2),
    countP_removed_add value _ (fun e => isLBin e.2),
    countP_removed_add value _ (fun e => isNonLTri e.2),
    countP_removed_add value _ (fun e => isLTri e.2)⟩

theorem countP_add_le_of_disjoint (p q : Lit × Watched → Bool) (l : List (Lit × Watched))
    (h : ∀ e, p e = true → q e = false) : l.countP p + l.countP q ≤ l.length := by
  induction l with
  | nil => simp
  | cons x xs ih =>
    simp only [List.countP_cons, List.length_cons]
    cases hp : p x
    · by_cases hq : q x = true
      · simp [hq]; omega
      · simp [hq]; omega
    · simp [h x hp]; omega

theorem numEntries_parity (table : List (List Watched))
    (bins tris : List (List (Lit × Watched)))
    (hbins : ∀ g ∈ bins, isBinGroup g) (htris : ∀ g ∈ tris, isTriGroup g)
    (hB : List.Perm ((located 0 table).filter (fun e => e.2.isBinary)) bins.flatten)
    (hT : List.Perm ((located 0 table).filter (fun e => e.2.isTri)) tris.flatten) :
    numEntries isNonLBin table % 2 = 0 ∧ numEntries isLBin table % 2 = 0 ∧
      numEntries isNonLTri table % 3 = 0 ∧ numEntries isLTri table % 3 = 0 := by
  have hrem : ∀ (lit : Lit) (w : Watched), w.isBinary = true ∨ w.isTri = true →
      removes (fun _ => l_True) lit w = true := by
    intro lit w hw
    cases w <;> simp [removes, Watched.isBinary, Watched.isTri] at hw ⊢
  have b0 := located_countP_bin_mod (fun _ => l_True) table bins false hbins hB
  have b1 := located_countP_bin_mod (fun _ => l_True) table bins true hbins hB
  have t0 := located_countP_tri_mod (fun _ => l_True) table tris false htris hT
  have t1 := located_countP_tri_mod (fun _ => l_True) table tris true htris hT
  have conv : ∀ (kind : Watched → Bool) (flag : Bool),
      (∀ w, kind w = true → w.isBinary = true ∨ w.isTri = true) →
      (located 0 table).countP
          (fun e => kind e.2 && (e.2.learnt == flag) && removes (fun _ => l_True) e.1 e.2) =
        (located 0 table).countP (fun e => kind e.2 && (e.2.learnt == flag)) := by
    intro kind flag hk
    apply List.countP_congr
    intro e _
    cases hke : kind e.2
    · simp
    · simp [hrem e.1 e.2 (hk e.2 hke)]
  rw [conv Watched.isBinary false (fun w h => Or.inl h)] at b0
  rw [conv Watched.isBinary true (fun w h => Or.inl h)] at b1
  rw [conv Watched.isTri false (fun w h => Or.inr h)] at t0
  rw [conv Watched.isTri true (fun w h => Or.inr h)] at t1
  have e0 : ∀ kind : Watched → Bool,
      (fun e : Lit × Watched => kind e.2 && (e.2.learnt == false)) =
        (fun e => kind e.2 && !e.2.learnt) := by
    intro kind; funext e; cases e.2.learnt <;> simp
  have e1 : ∀ kind : Watched → Bool,
      (fun e : Lit × Watched => kind e.2 && (e.2.learnt == true)) =
        (fun e => kind e.2 && e.2.learnt) := by
    intro kind; funext e; cases e.2.learnt <;> simp
  rw [e0] at b0 t0
  rw [e1] at b1 t1
  exact ⟨b0, b1, t0, t1⟩

theorem enqueued_lits (value : Lit → lbool) (lit : Lit) (w : Watched) (b : BinaryClause)
    (h : b ∈ enqueued value lit w) :
    w.isTri = true ∧
      (b.getLit1 = lit ∨ b.getLit1 = w.lit1 ∨ b.getLit1 = w.lit2) ∧
      (b.getLit2 = lit ∨ b.getLit2 = w.lit1 ∨ b.getLit2 = w.lit2) := by
  cases w with
  | clause off => simp [enqueued, Watched.isTri] at h
  | binary l1 learnt => simp [enqueued, Watched.isTri] at h
  | tri l1 l2 learnt =>
    refine ⟨rfl, ?_⟩
    by_cases hlt : lit < l1
    · cases h1 : value lit <;> cases h2 : value l1 <;> cases h3 : value l2 <;>
        simp [enqueued, treatTri, Watched.isTri, Watched.lit1, Watched.lit2, Watched.learnt,
          h1, h2, h3, hlt] at h <;> subst h <;> simp [Watched.lit1, Watched.lit2]
    · rw [enqueued_of_not_lt value lit l1 l2 learnt hlt] at h
      simp at h

theorem triGroup_owner (g : List (Lit × Watched)) (hg : isTriGroup g) (lit : Lit)
    (w : Watched) (hmem : (lit, w) ∈ g) (x : Lit)
    (hx : x = lit ∨ x = w.lit1 ∨ x = w.lit2) : ∃ w1, (x, w1) ∈ g := by
  obtain ⟨a, b, c, learnt, wa, wb, wc, rfl, ha, hb, hc⟩ := hg
  have oa : ∃ w1, (a, w1) ∈ [(a, wa), (b, wb), (c, wc)] := ⟨wa, by simp⟩
  have ob : ∃ w1, (b, w1) ∈ [(a, wa), (b, wb), (c, wc)] := ⟨wb, by simp⟩
  have oc : ∃ w1, (c, w1) ∈ [(a, wa), (b, wb), (c, wc)] := ⟨wc, by simp⟩
  simp only [List.mem_cons, List.mem_singleton, List.not_mem_nil, or_false,
    Prod.mk.injEq] at hmem
  rcases hmem with ⟨rfl, rfl⟩ | ⟨rfl, rfl⟩ | ⟨rfl, rfl⟩
  · rcases ha with rfl | rfl <;> rcases hx with rfl | rfl | rfl <;>
      first | exact oa | exact ob | exact oc
  · rcases hb with rfl | rfl <;> rcases hx with rfl | rfl | rfl <;>
      first | exact oa | exact ob | exact oc
  · rcases hc with rfl | rfl <;> rcases hx with rfl | rfl | rfl <;>
      first | exact oa | exact ob | exact oc

theorem enqueuedTable_range (value : Lit → lbool) (table : List (List Watched))
    (tris : List (List (Lit × Watched))) (htris : ∀ g ∈ tris, isTriGroup g)
    (hT : List.Perm ((located 0 table).filter (fun e => e.2.isTri)) tris.flatten) :
    ∀ b ∈ enqueuedTable value 0 table,
      b.getLit1 < table.length ∧ b.getLit2 < table.length := by
  intro b hb
  rw [enqueuedTable_eq_flatMap, List.mem_flatMap] at hb
  obtain ⟨e, he, hbe⟩ := hb
  obtain ⟨htri, h1, h2⟩ := enqueued_lits value e.1 e.2 b hbe
  have hef : e ∈ tris.flatten := hT.mem_iff.1 (List.mem_filter.2 ⟨he, htri⟩)
  obtain ⟨g, hg, heg⟩ := List.mem_flatten.1 hef
  have key : ∀ x : Lit, (x = e.1 ∨ x = e.2.lit1 ∨ x = e.2.lit2) → x < table.length := by
    intro x hx
    obtain ⟨w1, hw1⟩ := triGroup_owner g (htris g hg) e.1 e.2 heg x hx
    have hin : (x, w1) ∈ located 0 table :=
      (List.mem_filter.1 (hT.mem_iff.2 (List.mem_flatten.2 ⟨g, hg, hw1⟩))).1
    have := located_length_pos 0 table _ hin
    rwa [Nat.zero_add] at this
  exact ⟨key _ h1, key _ h2⟩

/-- C13: let the table store whole clauses (its binary entries are, up to
order, the two mirrored entries of each clause of a list of binary clauses,
its ternary entries the three entries of each clause of a list of ternary
clauses) and hold fewer than `2^64` entries, let the four clause counters
equal the numbers of binary / ternary clauses of each class stored in the
table, and let `irredLits` and `redLits` be at least the number of literal
occurrences of the implicit clauses of their class. Then after a completed
sweep the four clause counters again equal the numbers of clauses stored in
the table (which again holds an even number of binary entries and a multiple
of 3 of ternary entries in each class), and `irredLits` and `redLits` have
changed by exactly the change in the number of literal occurrences of the
implicit clauses of their class. -/
theorem treatImplicitClauses_counters (check : Solver → Bool) (s s1 : Solver)
    (bins tris : List (List (Lit × Watched)))
    (hbins : ∀ g ∈ bins, isBinGroup g) (htris : ∀ g ∈ tris, isTriGroup g)
    (hB : List.Perm ((located 0 s.watches).filter (fun e => e.2.isBinary)) bins.flatten)
    (hT : List.Perm ((located 0 s.watches).filter (fun e => e.2.isTri)) tris.flatten)
    (hsize : (located 0 s.watches).length < 18446744073709551616)
    (hdone : treatImplicitClauses check s = Outcome.done () s1)
    (hnb : s.numBinsNonLearnt = numEntries isNonLBin s.watches / 2)
    (hlb : s.numBinsLearnt = numEntries isLBin s.watches / 2)
    (hnt : s.numTrisNonLearnt = numEntries isNonLTri s.watches / 3)
    (hlt : s.numTrisLearnt = numEntries isLTri s.watches / 3)
    (hirred : numEntries isNonLBin s.watches + numEntries isNonLTri s.watches ≤ s.irredLits)
    (hred : numEntries isLBin s.watches + numEntries isLTri s.watches ≤ s.redLits) :
    (s1.numBinsNonLearnt = numEntries isNonLBin s1.watches / 2 ∧
      s1.numBinsLearnt = numEntries isLBin s1.watches / 2 ∧
      s1.numTrisNonLearnt = numEntries isNonLTri s1.watches / 3 ∧
      s1.numTrisLearnt = numEntries isLTri s1.watches / 3) ∧
    (numEntries isNonLBin s1.watches % 2 = 0 ∧ numEntries isLBin s1.watches % 2 = 0 ∧
      numEntries isNonLTri s1.watches % 3 = 0 ∧ numEntries isLTri s1.watches % 3 = 0) ∧
    s1.irredLits + (numEntries isNonLBin s.watches + numEntries isNonLTri s.watches) =
      s.irredLits + (numEntries isNonLBin s1.watches + numEntries isNonLTri s1.watches) ∧
    s1.redLits + (numEntries isLBin s.watches + numEntries isLTri s.watches) =
      s.redLits + (numEntries isLBin s1.watches + numEntries isLTri s1.watches) := by
  obtain ⟨-, hp, -, q1, q2, q3, q4, hs1, -⟩ := (treatImplicitClauses_done_iff check s s1).1 hdone
  obtain ⟨t1, t2, t3, t4⟩ := tallies_add_kept s.value s.watches
  obtain ⟨e1, e2, e3, e4⟩ := numEntries_parity s.watches bins tris hbins htris hB hT
  have hrange : ∀ b ∈ (talliedTable s.value 0 s.watches Locals.init).toAttach,
      b.getLit1 < (keptTable s.value 0 s.watches).length ∧
        b.getLit2 < (keptTable s.value 0 s.watches).length := by
    rw [talliedTable_toAttach, keptTable_length]
    simpa [Locals.init] using enqueuedTable_range s.value s.watches tris htris hT
  obtain ⟨a1, a2, a3, a4⟩ := numEntries_attachAll
    (talliedTable s.value 0 s.watches Locals.init).toAttach
    { s with watches := keptTable s.value 0 s.watches } hrange
  obtain ⟨c1, c2, c3, c4, c5, c6⟩ := attachAll_counters
    (talliedTable s.value 0 s.watches Locals.init).toAttach
    { s with watches := keptTable s.value 0 s.watches }
  have hw : s1.watches = (attachAll (talliedTable s.value 0 s.watches Locals.init).toAttach
      { s with watches := keptTable s.value 0 s.watches }).watches := by rw [hs1]; rfl
  have dsum := countP_add_le_of_disjoint (fun e => isNonLBin e.2) (fun e => isNonLTri e.2)
    (located 0 s.watches) (by
      intro e he
      cases hw : e.2 <;> simp [isNonLBin, isNonLTri, Watched.isBinary, Watched.isTri, hw] at he ⊢)
  have dsum2 := countP_add_le_of_disjoint (fun e => isLBin e.2) (fun e => isLTri e.2)
    (located 0 s.watches) (by
      intro e he
      cases hw : e.2 <;> simp [isLBin, isLTri, Watched.isBinary, Watched.isTri, hw] at he ⊢)
  have n1 : s1.numBinsNonLearnt = sub64 (s.numBinsNonLearnt +
      (talliedTable s.value 0 s.watches Locals.init).toAttach.countP (fun b => !b.getLearnt))
      ((talliedTable s.value 0 s.watches Locals.init).remNonLBin / 2) := by
    rw [hs1]; simp only [applyTallies]; rw [c3]
  have n2 : s1.numBinsLearnt = sub64 (s.numBinsLearnt +
      (talliedTable s.value 0 s.watches Locals.init).toAttach.countP (fun b => b.getLearnt))
      ((talliedTable s.value 0 s.watches Locals.init).remLBin / 2) := by
    rw [hs1]; simp only [applyTallies]; rw [c4]
  have n3 : s1.numTrisNonLearnt = sub64 s.numTrisNonLearnt
      ((talliedTable s.value 0 s.watches Locals.init).remNonLTri / 3) := by
    rw [hs1]; simp only [applyTallies]; rw [c5]
  have n4 : s1.numTrisLearnt = sub64 s.numTrisLearnt
      ((talliedTable s.value 0 s.watches Locals.init).remLTri / 3) := by
    rw [hs1]; simp only [applyTallies]; rw [c6]
  have n5 : s1.irredLits = sub64 (s.irredLits +
      2 * (talliedTable s.value 0 s.watches Locals.init).toAttach.countP (fun b => !b.getLearnt))
      ((talliedTable s.value 0 s.watches Locals.init).remNonLBin +
        (talliedTable s.value 0 s.watches Locals.init).remNonLTri) := by
    rw [hs1]; simp only [applyTallies]; rw [c1]
  have n6 : s1.redLits = sub64 (s.redLits +
      2 * (talliedTable s.value 0 s.watches Locals.init).toAttach.countP (fun b => b.getLearnt))
      ((talliedTable s.value 0 s.watches Locals.init).remLBin +
        (talliedTable s.value 0 s.watches Locals.init).remLTri) := by
    rw [hs1]; simp only [applyTallies]; rw [c2]
  simp only [numEntries] at dsum dsum2
  rw [hw, a1, a2, a3, a4]
  simp only at a1 a2 a3 a4 ⊢
  generalize (talliedTable s.value 0 s.watches Locals.init).remNonLBin = r1 at *
  generalize (talliedTable s.value 0 s.watches Locals.init).remLBin = r2 at *
  generalize (talliedTable s.value 0 s.watches Locals.init).remNonLTri = r3 at *
  generalize (talliedTable s.value 0 s.watches Locals.init).remLTri = r4 at *
  generalize (talliedTable s.value 0 s.watches Locals.init).toAttach.countP
    (fun b => !b.getLearnt) = k1 at *
  generalize (talliedTable s.value 0 s.watches Locals.init).toAttach.countP
    (fun b => b.getLearnt) = k2 at *
  generalize numEntries isNonLBin (keptTable s.value 0 s.watches) = K1 at *
  generalize numEntries isLBin (keptTable s.value 0 s.watches) = K2 at *
  generalize numEntries isNonLTri (keptTable s.value 0 s.watches) = K3 at *
  generalize numEntries isLTri (keptTable s.value 0 s.watches) = K4 at *
  have hE1 : numEntries isNonLBin s.watches = (located 0 s.watches).countP
      (fun e => isNonLBin e.2) := rfl
  have hE2 : numEntries isLBin s.watches = (located 0 s.watches).countP
      (fun e => isLBin e.2) := rfl
  have hE3 : numEntries isNonLTri s.watches = (located 0 s.watches).countP
      (fun e => isNonLTri e.2) := rfl
  have hE4 : numEntries isLTri s.watches = (located 0 s.watches).countP
      (fun e => isLTri e.2) := rfl
  rw [← hE1, ← hE3] at dsum
  rw [← hE2, ← hE4] at dsum2
  generalize numEntries isNonLBin s.watches = E1 at *
  generalize numEntries isLBin s.watches = E2 at *
  generalize numEntries isNonLTri s.watches = E3 at *
  generalize numEntries isLTri s.watches = E4 at *
  generalize (located 0 s.watches).length = N at *
  rw [n1, n2, n3, n4, n5, n6]
  rw [sub64_of_le_of_lt _ (r1 / 2) (by omega) (by omega),
    sub64_of_le_of_lt _ (r2 / 2) (by omega) (by omega),
    sub64_of_le_of_lt _ (r3 / 3) (by omega) (by omega),
    sub64_of_le_of_lt _ (r4 / 3) (by omega) (by omega),
    sub64_of_le_of_lt _ (r1 + r3) (by omega) (by omega),
    sub64_of_le_of_lt _ (r2 + r4) (by omega) (by omega)]
  refine ⟨⟨?_, ?_, ?_, ?_⟩, ⟨?_, ?_, ?_, ?_⟩, ?_, ?_⟩ <;> omega

theorem treatImplicitClauses_counters_witness :
    ((treatImplicitClauses (fun _ => true) exampleImplicit).state.numBinsNonLearnt = 1 ∧
      numEntries isNonLBin (treatImplicitClauses (fun _ => true) exampleImplicit).state.watches
        = 2 ∧
      numEntries isNonLTri (treatImplicitClauses (fun _ => true) exampleImplicit).state.watches
        = 0 ∧
      numEntries isNonLBin exampleImplicit.watches = 2 ∧
      numEntries isNonLTri exampleImplicit.watches = 3) ∧
    (treatImplicitClauses (fun _ => true) exampleImplicit).state.irredLits +
        (numEntries isNonLBin exampleImplicit.watches +
          numEntries isNonLTri exampleImplicit.watches) =
      exampleImplicit.irredLits +
        (numEntries isNonLBin
            (treatImplicitClauses (fun _ => true) exampleImplicit).state.watches +
          numEntries isNonLTri
            (treatImplicitClauses (fun _ => true) exampleImplicit).state.watches) :=
  ⟨by decide,
   (treatImplicitClauses_counters (fun _ => true) exampleImplicit
      (treatImplicitClauses (fun _ => true) exampleImplicit).state
      [[(0, Watched.binary 5 false), (5, Watched.binary 0 false)],
       [(2, Watched.binary 6 true), (6, Watched.binary 2 true)]]
      [[(0, Watched.tri 2 4 false), (2, Watched.tri 0 4 false), (4, Watched.tri 0 2 false)]]
      (by
        intro g hg
        simp only [List.mem_cons, List.mem_singleton, List.not_mem_nil, or_false] at hg
        rcases hg with rfl | rfl
        · exact ⟨0, 5, false, rfl⟩
        · exact ⟨2, 6, true, rfl⟩)
      (by
        intro g hg
        simp only [List.mem_singleton] at hg
        subst hg
        exact ⟨0, 2, 4, false, _, _, _, rfl, Or.inl rfl, Or.inl rfl, Or.inl rfl⟩)
      (by decide) (by decide) (by decide) rfl (by decide) (by decide) (by decide) (by decide)
      (by decide) (by decide)).2.2.1⟩

/-! ## A removed clause against the table without it -/

theorem flatMap_erase_of_nil (f : Watched → List BinaryClause) (w : Watched)
    (l : List Watched) (h : f w = []) : (l.erase w).flatMap f = l.flatMap f := by
  induction l with
  | nil => simp
  | cons x xs ih =>
    by_cases hx : x = w
    · subst hx
      simp [h]
    · have hne : (x == w) = false := by simpa using hx
      rw [List.erase_cons, hne]
      simp only [Bool.false_eq_true, if_false, List.flatMap_cons, ih]

theorem enqueuedTable_eraseWatch_eq (value : Lit → lbool) (base : Nat)
    (table : List (List Watched)) (i : Nat) (w : Watched)
    (h : enqueued value (base + i) w = []) :
    enqueuedTable value base (eraseWatch table i w) = enqueuedTable value base table := by
  induction table generalizing base i with
  | nil => simp [eraseWatch]
  | cons l rest ih =>
    cases i with
    | zero =>
      simp only [eraseWatch, enqueuedTable]
      rw [flatMap_erase_of_nil _ w l (by simpa using h)]
    | succ n =>
      simp only [eraseWatch, enqueuedTable]
      rw [ih (base + 1) n (by
        have e : base + 1 + n = base + (n + 1) := by omega
        rw [e]; exact h)]

theorem talliedTable_of_removed (value : Lit → lbool) (table E : List (List Watched))
    (ents : List (Lit × Watched))
    (hperm : List.Perm (located 0 table) (ents ++ located 0 E))
    (hta : enqueuedTable value 0 E = enqueuedTable value 0 table)
    (hrem : ∀ e ∈ ents, removes value e.1 e.2 = true) :
    talliedTable value 0 table Locals.init =
      { remNonLBin := (talliedTable value 0 E Locals.init).remNonLBin +
          ents.countP (fun e => e.2.isBinary && !e.2.learnt)
        remLBin := (talliedTable value 0 E Locals.init).remLBin +
          ents.countP (fun e => e.2.isBinary && e.2.learnt)
        remNonLTri := (talliedTable value 0 E Locals.init).remNonLTri +
          ents.countP (fun e => e.2.isTri && !e.2.learnt)
        remLTri := (talliedTable value 0 E Locals.init).remLTri +
          ents.countP (fun e => e.2.isTri && e.2.learnt)
        toAttach := (talliedTable value 0 E Locals.init).toAttach } := by
  have key : ∀ q : Lit × Watched → Bool,
      (located 0 table).countP (fun e => q e && removes value e.1 e.2) =
        (located 0 E).countP (fun e => q e && removes value e.1 e.2) + ents.countP q := by
    intro q
    rw [hperm.countP_eq, List.countP_append, Nat.add_comm]
    congr 1
    apply List.countP_congr
    intro e he
    simp [hrem e he]
  rw [talliedTable_eq value 0 table, talliedTable_eq value 0 E, hta]
  simp only [Locals.init, Nat.zero_add, List.nil_append]
  rw [key (fun e => e.2.isBinary && !e.2.learnt), key (fun e => e.2.isBinary && e.2.learnt),
    key (fun e => e.2.isTri && !e.2.learnt), key (fun e => e.2.isTri && e.2.learnt)]

theorem sweep_without_removed (check : Solver → Bool) (s s1 : Solver)
    (E : List (List Watched)) (ents : List (Lit × Watched)) (c1 c2 c3 c4 : Nat)
    (hdone : treatImplicitClauses check s = Outcome.done () s1)
    (hperm : List.Perm (located 0 s.watches) (ents ++ located 0 E))
    (hkept : keptTable s.value 0 E = keptTable s.value 0 s.watches)
    (hta : enqueuedTable s.value 0 E = enqueuedTable s.value 0 s.watches)
    (hrem : ∀ e ∈ ents, removes s.value e.1 e.2 = true)
    (h1 : ents.countP (fun e => e.2.isBinary && !e.2.learnt) = 2 * c1)
    (h2 : ents.countP (fun e => e.2.isBinary && e.2.learnt) = 2 * c2)
    (h3 : ents.countP (fun e => e.2.isTri && !e.2.learnt) = 3 * c3)
    (h4 : ents.countP (fun e => e.2.isTri && e.2.learnt) = 3 * c4) :
    ∃ table loc0 s0,
      scanWatches s.value 0 s.watches [] Locals.init =
        Except.ok (table,
          { remNonLBin := loc0.remNonLBin + 2 * c1
            remLBin := loc0.remLBin + 2 * c2
            remNonLTri := loc0.remNonLTri + 3 * c3
            remLTri := loc0.remLTri + 3 * c4
            toAttach := loc0.toAttach }) ∧
      scanWatches s.value 0 E [] Locals.init = Except.ok (table, loc0) ∧
      treatImplicitClauses (fun _ => true) { s with watches := E } = Outcome.done () s0 ∧
      s0.irredLits = sub64 (s.irredLits + 2 * loc0.toAttach.countP (fun b => !b.getLearnt))
        (loc0.remNonLBin + loc0.remNonLTri) ∧
      s0.redLits = sub64 (s.redLits + 2 * loc0.toAttach.countP (fun b => b.getLearnt))
        (loc0.remLBin + loc0.remLTri) ∧
      s0.numBinsNonLearnt =
        sub64 (s.numBinsNonLearnt + loc0.toAttach.countP (fun b => !b.getLearnt))
          (loc0.remNonLBin / 2) ∧
      s0.numBinsLearnt =
        sub64 (s.numBinsLearnt + loc0.toAttach.countP (fun b => b.getLearnt))
          (loc0.remLBin / 2) ∧
      s0.numTrisNonLearnt = sub64 s.numTrisNonLearnt (loc0.remNonLTri / 3) ∧
      s0.numTrisLearnt = sub64 s.numTrisLearnt (loc0.remLTri / 3) ∧
      s1 = { s0 with
        irredLits := sub64 (s.irredLits + 2 * loc0.toAttach.countP (fun b => !b.getLearnt))
          (loc0.remNonLBin + loc0.remNonLTri + (2 * c1 + 3 * c3))
        redLits := sub64 (s.redLits + 2 * loc0.toAttach.countP (fun b => b.getLearnt))
          (loc0.remLBin + loc0.remLTri + (2 * c2 + 3 * c4))
        numBinsNonLearnt :=
          sub64 (s.numBinsNonLearnt + loc0.toAttach.countP (fun b => !b.getLearnt))
            (loc0.remNonLBin / 2 + c1)
        numBinsLearnt :=
          sub64 (s.numBinsLearnt + loc0.toAttach.countP (fun b => b.getLearnt))
            (loc0.remLBin / 2 + c2)
        numTrisNonLearnt := sub64 s.numTrisNonLearnt (loc0.remNonLTri / 3 + c3)
        numTrisLearnt := sub64 s.numTrisLearnt (loc0.remLTri / 3 + c4) } := by
  obtain ⟨hl, hp, hu, q1, q2, q3, q4, hs1, -⟩ :=
    (treatImplicitClauses_done_iff check s s1).1 hdone
  have hT := talliedTable_of_removed s.value s.watches E ents hperm hta hrem
  rw [h1, h2, h3, h4] at hT
  have hpE : tablePasses s.value 0 E = true := by
    rw [tablePasses_iff_located] at hp ⊢
    intro e he
    exact hp e (hperm.mem_iff.2 (List.mem_append_right _ he))
  obtain ⟨a1, a2, a3, a4, a5, a6⟩ := attachAll_counters
    (talliedTable s.value 0 E Locals.init).toAttach
    { s with watches := keptTable s.value 0 s.watches }
  have hT1 : (talliedTable s.value 0 s.watches Locals.init).remNonLBin =
      (talliedTable s.value 0 E Locals.init).remNonLBin + 2 * c1 := by rw [hT]
  have hT2 : (talliedTable s.value 0 s.watches Locals.init).remLBin =
      (talliedTable s.value 0 E Locals.init).remLBin + 2 * c2 := by rw [hT]
  have hT3 : (talliedTable s.value 0 s.watches Locals.init).remNonLTri =
      (talliedTable s.value 0 E Locals.init).remNonLTri + 3 * c3 := by rw [hT]
  have hT4 : (talliedTable s.value 0 s.watches Locals.init).remLTri =
      (talliedTable s.value 0 E Locals.init).remLTri + 3 * c4 := by rw [hT]
  have hT5 : (talliedTable s.value 0 s.watches Locals.init).toAttach =
      (talliedTable s.value 0 E Locals.init).toAttach := by rw [hT]
  have hrun : treatImplicitClauses (fun _ => true) { s with watches := E } =
      Outcome.done ()
        (applyTallies
          (attachAll (talliedTable s.value 0 E Locals.init).toAttach
            { s with watches := keptTable s.value 0 s.watches })
          (talliedTable s.value 0 E Locals.init)) := by
    rw [treatImplicitClauses_done_iff]
    refine ⟨hl, hpE, ?_, ?_, ?_, ?_, ?_, ?_, rfl⟩
    · intro b hb
      exact hu b (by rw [hT5]; exact hb)
    · show (talliedTable s.value 0 E Locals.init).remNonLBin % 2 = 0
      omega
    · show (talliedTable s.value 0 E Locals.init).remLBin % 2 = 0
      omega
    · show (talliedTable s.value 0 E Locals.init).remNonLTri % 3 = 0
      omega
    · show (talliedTable s.value 0 E Locals.init).remLTri % 3 = 0
      omega
    · show _ = applyTallies
        (attachAll (talliedTable s.value 0 E Locals.init).toAttach
          { s with watches := keptTable s.value 0 E })
        (talliedTable s.value 0 E Locals.init)
      rw [hkept]
  refine ⟨keptTable s.value 0 s.watches, talliedTable s.value 0 E Locals.init, _, ?_, ?_, hrun,
    ?_, ?_, ?_, ?_, ?_, ?_, ?_⟩
  · rw [scanWatches_of_passes s.value 0 s.watches [] Locals.init hp, hT]
    simp
  · rw [scanWatches_of_passes s.value 0 E [] Locals.init hpE, hkept]
    simp
  · simp only [applyTallies]; rw [a1]
  · simp only [applyTallies]; rw [a2]
  · simp only [applyTallies]; rw [a3]
  · simp only [applyTallies]; rw [a4]
  · simp only [applyTallies]; rw [a5]
  · simp only [applyTallies]; rw [a6]
  · rw [hs1, hT5]
    simp only [applyTallies]
    rw [hT1, hT2, hT3, hT4, a1, a2, a3, a4, a5, a6]
    have e1 : (talliedTable s.value 0 E Locals.init).remNonLBin + 2 * c1 +
        ((talliedTable s.value 0 E Locals.init).remNonLTri + 3 * c3) =
        (talliedTable s.value 0 E Locals.init).remNonLBin +
          (talliedTable s.value 0 E Locals.init).remNonLTri + (2 * c1 + 3 * c3) := by omega
    have e2 : (talliedTable s.value 0 E Locals.init).remLBin + 2 * c2 +
        ((talliedTable s.value 0 E Locals.init).remLTri + 3 * c4) =
        (talliedTable s.value 0 E Locals.init).remLBin +
          (talliedTable s.value 0 E Locals.init).remLTri + (2 * c2 + 3 * c4) := by omega
    have e3 : ((talliedTable s.value 0 E Locals.init).remNonLBin + 2 * c1) / 2 =
        (talliedTable s.value 0 E Locals.init).remNonLBin / 2 + c1 := by omega
    have e4 : ((talliedTable s.value 0 E Locals.init).remLBin + 2 * c2) / 2 =
        (talliedTable s.value 0 E Locals.init).remLBin / 2 + c2 := by omega
    have e5 : ((talliedTable s.value 0 E Locals.init).remNonLTri + 3 * c3) / 3 =
        (talliedTable s.value 0 E Locals.init).remNonLTri / 3 + c3 := by omega
    have e6 : ((talliedTable s.value 0 E Locals.init).remLTri + 3 * c4) / 3 =
        (talliedTable s.value 0 E Locals.init).remLTri / 3 + c4 := by omega
    rw [e1, e2, e3, e4, e5, e6]

theorem tri_entry_of_true (value : Lit → lbool) (a b c : Lit) (learnt : Bool) (e : Watched)
    (he : e = Watched.tri b c learnt ∨ e = Watched.tri c b learnt)
    (h : value a = l_True ∨ value b = l_True ∨ value c = l_True) :
    e.isTri = true ∧ e.isBinary = false ∧ e.learnt = learnt ∧
      removes value a e = true ∧ enqueued value a e = [] := by
  have h2 : value a = l_True ∨ value c = l_True ∨ value b = l_True := by
    rcases h with h | h | h
    · exact Or.inl h
    · exact Or.inr (Or.inr h)
    · exact Or.inr (Or.inl h)
  rcases he with rfl | rfl
  · exact ⟨rfl, rfl, rfl, (tri_of_true_removed value a b c learnt h).2⟩
  · exact ⟨rfl, rfl, rfl, (tri_of_true_removed value a c b learnt h2).2⟩

/-- C12: let the ternary clause `(p ∨ q ∨ r)` over three distinct literals,
with flag `learnt`, be stored as three ternary entries, one in the list of
each of its literals, each holding the other two (in either order), let one
of its literals at least be true, whatever the values of the other two, and
let the sweep complete. The loop iteration on each of the three entries
removes the entry and pushes nothing on `toAttach`, and none of the three
entries is in its list afterwards. The scan tallies the three entries as
removed ternary entries of the clause's class on top of what it tallies on
the table without them, keeping the same lists and enqueueing the same
clauses; and the sweep ends in the state in which the sweep of the table
without the three entries ends (run with a self-check that passes; same
lists, same `attachBinClause` calls), except that 1 more is subtracted from the ternary-clause count of the
clause's class and 3 more from the literal count of its class: for a learnt
clause `numTrisLearnt` and `redLits`. In particular, when every other binary
or ternary entry of the table has only undefined literals, the final state is
the initial one without the three entries, with these two counters decreased
by 1 and by 3 (modulo `2^64`). -/
theorem treatImplicitClauses_tri_satisfied (check : Solver → Bool) (s s1 : Solver)
    (p q r : Lit) (learnt : Bool) (ep eq er : Watched) (wp wq wr : List Watched)
    (hpq : p ≠ q) (hqr : q ≠ r) (hpr : p ≠ r)
    (hep : ep = Watched.tri q r learnt ∨ ep = Watched.tri r q learnt)
    (heq : eq = Watched.tri p r learnt ∨ eq = Watched.tri r p learnt)
    (her : er = Watched.tri p q learnt ∨ er = Watched.tri q p learnt)
    (hp : s.watches[p]? = some wp) (hmp : ep ∈ wp)
    (hq : s.watches[q]? = some wq) (hmq : eq ∈ wq)
    (hr : s.watches[r]? = some wr) (hmr : er ∈ wr)
    (htrue : s.value p = l_True ∨ s.value q = l_True ∨ s.value r = l_True)
    (hdone : treatImplicitClauses check s = Outcome.done () s1) :
    (∀ ta, treatTri s.value p ep ta = (true, ta) ∧ treatTri s.value q eq ta = (true, ta) ∧
      treatTri s.value r er ta = (true, ta)) ∧
    ((∀ ws, s1.watches[p]? = some ws → ep ∉ ws) ∧
      (∀ ws, s1.watches[q]? = some ws → eq ∉ ws) ∧
      (∀ ws, s1.watches[r]? = some ws → er ∉ ws)) ∧
    (∃ table loc0 s0,
      scanWatches s.value 0 s.watches [] Locals.init =
        Except.ok (table,
          { loc0 with
            remNonLTri := loc0.remNonLTri + (if learnt then 0 else 3)
            remLTri := loc0.remLTri + (if learnt then 3 else 0) }) ∧
      scanWatches s.value 0 (withoutEntries s.watches [(p, ep), (q, eq), (r, er)]) []
          Locals.init =
        Except.ok (table, loc0) ∧
      treatImplicitClauses (fun _ => true)
          { s with watches := (withoutEntries s.watches [(p, ep), (q, eq), (r, er)]) } =
        Outcome.done () s0 ∧
      s0.numTrisNonLearnt = sub64 s.numTrisNonLearnt (loc0.remNonLTri / 3) ∧
      s0.numTrisLearnt = sub64 s.numTrisLearnt (loc0.remLTri / 3) ∧
      s0.irredLits =
        sub64 (s.irredLits + 2 * loc0.toAttach.countP (fun b => !b.getLearnt))
          (loc0.remNonLBin + loc0.remNonLTri) ∧
      s0.redLits =
        sub64 (s.redLits + 2 * loc0.toAttach.countP (fun b => b.getLearnt))
          (loc0.remLBin + loc0.remLTri) ∧
      s1 = { s0 with
        numTrisNonLearnt :=
          sub64 s.numTrisNonLearnt (loc0.remNonLTri / 3 + (if learnt then 0 else 1))
        numTrisLearnt :=
          sub64 s.numTrisLearnt (loc0.remLTri / 3 + (if learnt then 1 else 0))
        irredLits :=
          sub64 (s.irredLits + 2 * loc0.toAttach.countP (fun b => !b.getLearnt))
            (loc0.remNonLBin + loc0.remNonLTri + (if learnt then 0 else 3))
        redLits :=
          sub64 (s.redLits + 2 * loc0.toAttach.countP (fun b => b.getLearnt))
            (loc0.remLBin + loc0.remLTri + (if learnt then 3 else 0)) }) ∧
    (tableUndef s.value 0 (withoutEntries s.watches [(p, ep), (q, eq), (r, er)]) = true →
      s1 = { s with
        watches := (withoutEntries s.watches [(p, ep), (q, eq), (r, er)])
        irredLits := if learnt then s.irredLits else sub64 s.irredLits 3
        redLits := if learnt then sub64 s.redLits 3 else s.redLits
        numTrisNonLearnt := if learnt then s.numTrisNonLearnt
          else sub64 s.numTrisNonLearnt 1
        numTrisLearnt := if learnt then sub64 s.numTrisLearnt 1 else s.numTrisLearnt }) := by
  obtain ⟨hl, -⟩ := (treatImplicitClauses_done_iff check s s1).1 hdone
  have hiso := tri_satisfied_isolated check s p q r learnt ep eq er wp wq wr hpq hqr hpr
    hep heq her hp hmp hq hmq hr hmr htrue
  have tq : s.value q = l_True ∨ s.value p = l_True ∨ s.value r = l_True := by
    rcases htrue with h | h | h
    · exact Or.inr (Or.inl h)
    · exact Or.inl h
    · exact Or.inr (Or.inr h)
  have tr : s.value r = l_True ∨ s.value p = l_True ∨ s.value q = l_True := by
    rcases htrue with h | h | h
    · exact Or.inr (Or.inl h)
    · exact Or.inr (Or.inr h)
    · exact Or.inl h
  obtain ⟨fp1, fp2, fp3, fp4, fp5⟩ := tri_entry_of_true s.value p q r learnt ep hep htrue
  obtain ⟨fq1, fq2, fq3, fq4, fq5⟩ := tri_entry_of_true s.value q p r learnt eq heq tq
  obtain ⟨fr1, fr2, fr3, fr4, fr5⟩ := tri_entry_of_true s.value r p q learnt er her tr
  have hq1 : (eraseWatch s.watches p ep)[q]? = some wq := by
    rw [eraseWatch_getElem?_ne _ _ _ _ (Ne.symm hpq)]; exact hq
  have hr1 : (eraseWatch (eraseWatch s.watches p ep) q eq)[r]? = some wr := by
    rw [eraseWatch_getElem?_ne _ _ _ _ (Ne.symm hqr),
      eraseWatch_getElem?_ne _ _ _ _ (Ne.symm hpr)]
    exact hr
  have p1 := located_eraseWatch 0 s.watches p _ wp hp hmp
  have p2 := located_eraseWatch 0 _ q _ wq hq1 hmq
  have p3 := located_eraseWatch 0 _ r _ wr hr1 hmr
  rw [Nat.zero_add] at p1 p2 p3
  have hperm : List.Perm (located 0 s.watches)
      ([(p, ep), (q, eq), (r, er)] ++
        located 0 (withoutEntries s.watches [(p, ep), (q, eq), (r, er)])) :=
    p1.trans (List.Perm.cons _ (p2.trans (List.Perm.cons _ p3)))
  have hkept : keptTable s.value 0 (withoutEntries s.watches [(p, ep), (q, eq), (r, er)]) =
      keptTable s.value 0 s.watches := by
    show keptTable s.value 0 (eraseWatch (eraseWatch (eraseWatch s.watches p ep) q eq) r er)
      = _
    rw [keptTable_eraseWatch s.value 0 _ r _ (by rw [Nat.zero_add]; exact fr4),
      keptTable_eraseWatch s.value 0 _ q _ (by rw [Nat.zero_add]; exact fq4),
      keptTable_eraseWatch s.value 0 _ p _ (by rw [Nat.zero_add]; exact fp4)]
  have hta : enqueuedTable s.value 0
        (withoutEntries s.watches [(p, ep), (q, eq), (r, er)]) =
      enqueuedTable s.value 0 s.watches := by
    show enqueuedTable s.value 0
      (eraseWatch (eraseWatch (eraseWatch s.watches p ep) q eq) r er) = _
    rw [enqueuedTable_eraseWatch_eq s.value 0 _ r _ (by rw [Nat.zero_add]; exact fr5),
      enqueuedTable_eraseWatch_eq s.value 0 _ q _ (by rw [Nat.zero_add]; exact fq5),
      enqueuedTable_eraseWatch_eq s.value 0 _ p _ (by rw [Nat.zero_add]; exact fp5)]
  have hrem : ∀ e ∈ [(p, ep), (q, eq), (r, er)], removes s.value e.1 e.2 = true := by
    intro e he
    simp only [List.mem_cons, List.mem_singleton, List.not_mem_nil, or_false] at he
    rcases he with rfl | rfl | rfl
    · exact fp4
    · exact fq4
    · exact fr4
  refine ⟨hiso.1, hiso.2.1 s1 hdone, ?_, ?_⟩
  · cases learnt
    · obtain ⟨table, loc0, s0, g1, g2, g3, i1, i2, i3, i4, i5, i6, g4⟩ :=
        sweep_without_removed check s s1 _ _ 0 0 1 0 hdone hperm hkept hta hrem
          (by simp [List.countP_cons, fp2, fq2, fr2])
          (by simp [List.countP_cons, fp2, fq2, fr2])
          (by simp [List.countP_cons, fp1, fq1, fr1, fp3, fq3, fr3])
          (by simp [List.countP_cons, fp1, fq1, fr1, fp3, fq3, fr3])
      simp only [Nat.mul_one, Nat.mul_zero, Nat.add_zero, Nat.zero_add] at g1 g4
      rw [← i2, ← i3, ← i4, ← i6] at g4
      refine ⟨table, loc0, s0, ?_, g2, g3, i5, i6, i1, i2, ?_⟩
      · simp only [Bool.false_eq_true, if_false, Nat.add_zero]
        exact g1
      · simp only [Bool.false_eq_true, if_false, Nat.add_zero]
        rw [← i6, ← i2]
        exact g4
    · obtain ⟨table, loc0, s0, g1, g2, g3, i1, i2, i3, i4, i5, i6, g4⟩ :=
        sweep_without_removed check s s1 _ _ 0 0 0 1 hdone hperm hkept hta hrem
          (by simp [List.countP_cons, fp2, fq2, fr2])
          (by simp [List.countP_cons, fp2, fq2, fr2])
          (by simp [List.countP_cons, fp1, fq1, fr1, fp3, fq3, fr3])
          (by simp [List.countP_cons, fp1, fq1, fr1, fp3, fq3, fr3])
      simp only [Nat.mul_one, Nat.mul_zero, Nat.add_zero, Nat.zero_add] at g1 g4
      rw [← i1, ← i3, ← i4, ← i5] at g4
      refine ⟨table, loc0, s0, ?_, g2, g3, i5, i6, i1, i2, ?_⟩
      · simp only [if_true, Nat.add_zero]
        exact g1
      · simp only [if_true, Nat.add_zero]
        rw [← i5, ← i1]
        exact g4
  · intro h0
    have h := (hiso.2.2 hl h0).1
    rw [hdone] at h
    exact h

/-- Witness for C12: the learnt clause `(2 ∨ 5 ∨ 6)` of `exampleMixed`, with
5 true and 2, 6 undefined, next to two satisfied binary clauses and a ternary
clause that shrinks. The sweep ends with `numTrisLearnt` 0 and `redLits` 2,
the sweep of the table without the three entries with 1 and 5, and both make
the same calls. -/
theorem treatImplicitClauses_tri_satisfied_witness :
    (treatImplicitClauses (fun _ => true) exampleMixed).state.numTrisLearnt = 0 ∧
    (treatImplicitClauses (fun _ => true) exampleMixed).state.redLits = 2 ∧
    (treatImplicitClauses (fun _ => true)
      { exampleMixed with watches := (withoutEntries exampleMixed.watches
          [(2, Watched.tri 5 6 true), (5, Watched.tri 2 6 true),
           (6, Watched.tri 2 5 true)]) }).state.numTrisLearnt = 1 ∧
    (treatImplicitClauses (fun _ => true)
      { exampleMixed with watches := (withoutEntries exampleMixed.watches
          [(2, Watched.tri 5 6 true), (5, Watched.tri 2 6 true),
           (6, Watched.tri 2 5 true)]) }).state.redLits = 5 ∧
    (treatImplicitClauses (fun _ => true) exampleMixed).state.calls =
      [Call.attachBinClause 0 2 false] := by
  obtain ⟨-, -, ⟨table, loc0, s0, -, g2, g3, -, i6, -, i2, g4⟩, -⟩ :=
    treatImplicitClauses_tri_satisfied (fun _ => true) exampleMixed
      (treatImplicitClauses (fun _ => true) exampleMixed).state 2 5 6 true
      (Watched.tri 5 6 true) (Watched.tri 2 6 true) (Watched.tri 2 5 true)
      [Watched.tri 0 4 false, Watched.binary 6 true, Watched.tri 5 6 true]
      [Watched.binary 0 false, Watched.tri 2 6 true]
      [Watched.binary 2 true, Watched.tri 2 5 true]
      (by decide) (by decide) (by decide) (Or.inl rfl) (Or.inl rfl) (Or.inl rfl)
      rfl (by decide) rfl (by decide) rfl (by decide) (Or.inr (Or.inl rfl)) rfl
  have hc : scanWatches exampleMixed.value 0
      (withoutEntries exampleMixed.watches
        [(2, Watched.tri 5 6 true), (5, Watched.tri 2 6 true), (6, Watched.tri 2 5 true)])
        [] Locals.init =
      Except.ok
        ([[Watched.clause 7], [], [Watched.binary 6 true], [], [], [],
          [Watched.binary 2 true], [Watched.clause 7], [], []],
         { remNonLBin := 4, remLBin := 0, remNonLTri := 3, remLTri := 0,
           toAttach := [BinaryClause.mk 0 2 false] }) := rfl
  rw [hc] at g2
  injection g2 with g2
  injection g2 with gt gl
  subst gl
  refine ⟨?_, ?_, ?_, ?_, ?_⟩
  · rw [g4]; rfl
  · rw [g4]; rfl
  · rw [g3]
    show s0.numTrisLearnt = 1
    rw [i6]; rfl
  · rw [g3]
    show s0.redLits = 5
    rw [i2]; rfl
  · decide

end CMSat
